import Mathlib

set_option maxHeartbeats 1000000
set_option maxRecDepth 40000

/-!
Verification of the B+ tree implementation in src/b_plus_tree.py.

The Python implementation stores every node as a single positional list
children of length 2*b+1 mixing values, keys and child references by
parity (even indices: values / child references / the leaf sibling
pointer, odd indices: keys), with a parent back reference on each node.
We embed it as an arena: nodes are records held in a list (the heap),
child and sibling slots hold arena indices, and mutation is heap update.
Recursive methods take an explicit fuel argument; fuel exhaustion is
reported as a distinguished error that never occurs at the fuel values
used in the theorems below.
-/

namespace BPT

/-- Errors a Python run of the code can surface, plus fuel exhaustion of
the embedding. -/
inductive PyErr where
  | keyError
  | typeError
  | attrError
  | valueError
  | notImplemented
  | fuelOut
deriving DecidableEq

/-- One entry of the positional children array of a node: None, a key,
a stored value, or a reference to another node (child or leaf sibling). -/
inductive Slot (V : Type) where
  | none
  | key (k : ℤ)
  | val (v : V)
  | node (id : ℕ)
deriving DecidableEq

/-- Test corresponding to the Python check x is None on a slot. -/
def Slot.isNone {V : Type} : Slot V → Bool
  | .none => true
  | _ => false

/-- Test corresponding to the Python check type(x) is _BPlusTreeImpl. -/
def Slot.isNode {V : Type} : Slot V → Bool
  | .node _ => true
  | _ => false

/-- Read a slot as a key; defaults to 0 on non-key slots, which the code
never does on well-formed trees. -/
def Slot.asKey {V : Type} : Slot V → ℤ
  | .key k => k
  | _ => 0

/-- A _BPlusTreeImpl object: order b, parent back reference, and the
positional children array. -/
structure BNode (V : Type) where
  b : ℕ
  parent : Option ℕ
  children : List (Slot V)
deriving DecidableEq

/-- The arena of allocated nodes; a node reference is an index here. -/
abbrev Heap (V : Type) := List (BNode V)

/-- Dereference a node id (total; a dangling id yields a dummy node,
which the code never produces). -/
def getN {V : Type} (h : Heap V) (id : ℕ) : BNode V :=
  h.getD id ⟨0, Option.none, []⟩

/-- Overwrite the node stored at an id. -/
def setN {V : Type} (h : Heap V) (id : ℕ) (n : BNode V) : Heap V :=
  h.set id n

/-- Allocate a fresh node, returning its id and the new heap. -/
def alloc {V : Type} (h : Heap V) (n : BNode V) : ℕ × Heap V :=
  (h.length, h ++ [n])

/-- Read children[i] (total; out of range yields None, and the code only
reads in range on well-formed trees). -/
def sGet {V : Type} (cs : List (Slot V)) (i : ℕ) : Slot V :=
  cs.getD i Slot.none

/-- Property node_len: b * 2 + 1. -/
def node_len {V : Type} (n : BNode V) : ℕ := 2 * n.b + 1

/-- Property is_full: children[-2] is not None (Python negative index,
relative to the actual list length). -/
def is_full {V : Type} (n : BNode V) : Bool :=
  !(sGet n.children (n.children.length - 2)).isNone

/-- Value ceil(b / 2) * 2 used by is_underfull. -/
def min_nodes {V : Type} (n : BNode V) : ℕ := ((n.b + 1) / 2) * 2

/-- Property is_underfull: the node has a parent and children[min_nodes - 1]
is None. -/
def is_underfull {V : Type} (n : BNode V) : Bool :=
  n.parent.isSome && (sGet n.children (min_nodes n - 1)).isNone

/-- Property is_single_child_parent, exactly as written in the source:
parent is None, and children[1] is simultaneously a _BPlusTreeImpl and
None. The two conditions on children[1] contradict each other. -/
def is_single_child_parent {V : Type} (n : BNode V) : Bool :=
  n.parent.isNone && (sGet n.children 1).isNode && (sGet n.children 1).isNone

/-- Property is_leaf: type(children[0]) is not _BPlusTreeImpl. -/
def is_leaf {V : Type} (n : BNode V) : Bool :=
  !(sGet n.children 0).isNode

/-- Property num_keys: number of non-None entries at odd indices
1, 3, ..., node_len - 2. -/
def num_keys {V : Type} (n : BNode V) : ℕ :=
  ((List.range n.b).map
    (fun j => if (sGet n.children (2 * j + 1)).isNone then 0 else 1)).sum

/-- Constructor _BPlusTreeImpl(b, parent, children): a children array of
node_len None entries whose prefix is overwritten by the given list (an
empty argument list, being falsy in Python, leaves the array all None;
slice assignment keeps any overflow, which the code never produces). -/
def mkNode {V : Type} (b : ℕ) (parent : Option ℕ) (cs : List (Slot V)) :
    BNode V :=
  ⟨b, parent, cs ++ List.replicate (2 * b + 1 - cs.length) Slot.none⟩

/-- Method _sync_children: on an internal node, set the parent field of
every node referenced from the children array to this node. -/
def sync_children {V : Type} (h : Heap V) (id : ℕ) : Heap V :=
  let n := getN h id
  if is_leaf n then h
  else n.children.foldl
    (fun h2 s =>
      match s with
      | .node j => setN h2 j { getN h2 j with parent := some id }
      | _ => h2) h

/-- Loop body of _index: starting at even position i, stop at
node_len - 1, or before the first key slot that is None or greater than
the key (returning the even position), or on the matching key slot
(returning its odd position). The steps argument bounds the iteration
count; with steps = b + 1 the bound is never reached. -/
def indexGo {V : Type} (nl : ℕ) (cs : List (Slot V)) (key : ℤ) :
    ℕ → ℕ → ℕ
  | 0, i => i
  | steps + 1, i =>
    if i = nl - 1 then i
    else
      match sGet cs (i + 1) with
      | .none => i
      | .key k2 =>
        if key < k2 then i
        else if key = k2 then i + 1
        else indexGo nl cs key steps (i + 2)
      | _ => i

/-- Method _index. In Python comparing the key against a slot that is
neither None nor a key would raise TypeError; on well-formed trees the
odd slots probed here are always keys or None, so indexGo stops there. -/
def indexF {V : Type} (n : BNode V) (key : ℤ) : ℕ :=
  indexGo (node_len n) n.children key (n.b + 1) 0

/-- Method __len__: on a leaf, floor of half the number of non-None
entries; on an internal node, sum of the lengths of the children at even
indices 0, 2, ..., node_len - 1. -/
def lenImpl {V : Type} : ℕ → Heap V → ℕ → ℕ
  | 0, _, _ => 0
  | fuel + 1, h, id =>
    let n := getN h id
    if is_leaf n then (n.children.countP (fun s => !s.isNone)) / 2
    else
      ((List.range (n.b + 1)).map
        (fun j =>
          match sGet n.children (2 * j) with
          | .node c => lenImpl fuel h c
          | _ => 0)).sum

/-- Truthiness of a child slot, as tested by the Python statements of the
form if target: a None slot is falsy, a node is truthy iff its __len__ is
nonzero (ints and other values never sit in the probed slots of
well-formed trees). -/
def truthy {V : Type} (fuel : ℕ) (h : Heap V) : Slot V → Bool
  | .none => false
  | .node j => lenImpl fuel h j ≠ 0
  | .key k => k ≠ 0
  | .val _ => true

/-- Method get_root: follow parent references to the root. -/
def get_root {V : Type} : ℕ → Heap V → ℕ → ℕ
  | 0, _, id => id
  | fuel + 1, h, id =>
    match (getN h id).parent with
    | some p => get_root fuel h p
    | Option.none => id

/-- Method search. On a leaf an odd index is an exact match and the slot
before it is returned unless it is a node (then KeyError); on an internal
node the child at the resolved position is followed when truthy, else
KeyError. A truthy non-node in a child position would raise
AttributeError in Python. -/
def search {V : Type} : ℕ → Heap V → ℕ → ℤ → Except PyErr (Slot V)
  | 0, _, _, _ => .error .fuelOut
  | fuel + 1, h, id, key =>
    let n := getN h id
    let i := indexF n key
    if is_leaf n then
      if i % 2 = 1 then
        let target := sGet n.children (i - 1)
        if target.isNode then .error .keyError else .ok target
      else .error .keyError
    else
      let target := sGet n.children (if i % 2 = 1 then i + 1 else i)
      if truthy fuel h target then
        match target with
        | .node j => search fuel h j key
        | _ => .error .attrError
      else .error .keyError

/-- Loop of get_range over a leaf: accumulate values while slots are
non-None, stopping before a key greater than the inclusive end bound;
a node slot is the sibling pointer and the scan continues there via the
bound method gr, standing for get_range with no start bound. Comparing
the end bound against a non-key (in particular a None end bound against
any key) raises TypeError in Python. The steps argument bounds the loop;
b + 2 steps always suffice. -/
def walk {V : Type}
    (gr : Heap V → ℕ → Option ℤ → Option ℤ → Except PyErr (List (Slot V)))
    (h : Heap V) (n : BNode V) (end_key : Option ℤ) :
    ℕ → ℕ → List (Slot V) → Except PyErr (List (Slot V))
  | 0, _, _ => .error .fuelOut
  | steps + 1, i, acc =>
    match sGet n.children i with
    | .none => .ok acc
    | .node j =>
      match gr h j Option.none end_key with
      | .ok more => .ok (acc ++ more)
      | .error e => .error e
    | s =>
      match sGet n.children (i + 1), end_key with
      | .key k2, some ek =>
        if ek < k2 then .ok acc
        else walk gr h n end_key steps (i + 2) (acc ++ [s])
      | _, _ => .error .typeError

/-- Method get_range. A leaf walks its slots from the resolved start
position (an exact match contributes its value first); an internal node
descends into the child at the resolved position. -/
def get_range {V : Type} : (fuel : ℕ) → Heap V → ℕ → Option ℤ → Option ℤ →
    Except PyErr (List (Slot V))
  | 0, _, _, _, _ => .error .fuelOut
  | fuel + 1, h, id, start_key, end_key =>
    let n := getN h id
    let i := match start_key with
      | some sk => indexF n sk
      | Option.none => 0
    if is_leaf n then
      if i % 2 = 1 then
        let target := sGet n.children (i - 1)
        walk (get_range fuel) h n end_key (n.b + 2) (i + 1)
          (if target.isNode then [] else [target])
      else walk (get_range fuel) h n end_key (n.b + 2) i []
    else
      match sGet n.children (if i % 2 = 1 then i + 1 else i) with
      | .node j => get_range fuel h j start_key end_key
      | _ => .error .attrError

/-- Method _split_and_insert: allocate the new right node from the upper
part of the oversized slot list, rewrite this node with the lower part
(a leaf additionally keeps the new node as its sibling pointer and
promotes the slot after the midpoint; an internal node promotes the slot
before it), fix the parent references of moved children, then insert
the promoted slot and new node into the parent through the bound method
ins (standing for insert), creating a new root when there is none. The
promoted slot is stored raw, as in Python: at odd orders it can be a
None or a plain value rather than a key. Only when it flows into the
integer-keyed parent insert does the embedding read it as a key through
asKey; at even orders it is always a genuine key there. -/
def split_and_insert {V : Type}
    (ins : Heap V → ℕ → ℤ → Slot V → Except PyErr Unit × Heap V)
    (h : Heap V) (id : ℕ) (resulting : List (Slot V)) :
    Except PyErr Unit × Heap V :=
  let n := getN h id
  let nl := node_len n
  let mid := (nl + 3) / 2
  let p := alloc h (mkNode n.b n.parent (resulting.drop mid))
  let newId := p.1
  let h1 := p.2
  let sv_cs : Slot V × List (Slot V) :=
    if is_leaf (getN h1 newId) then
      (sGet resulting (mid + 1),
        (resulting.take mid ++ [Slot.node newId]) ++
          List.replicate (nl - (mid + 1)) Slot.none)
    else
      (sGet resulting (mid - 1),
        resulting.take (mid - 1) ++ List.replicate (nl - (mid - 1)) Slot.none)
  let h2 := setN h1 id { n with children := sv_cs.2 }
  let h3 := sync_children h2 newId
  let h4 := sync_children h3 id
  match (getN h4 id).parent with
  | some pid => ins h4 pid sv_cs.1.asKey (Slot.node newId)
  | Option.none =>
    let q := alloc h4 (mkNode n.b Option.none
      [Slot.node id, sv_cs.1, Slot.node newId])
    let h6 := setN q.2 newId { getN q.2 newId with parent := some q.1 }
    let h7 := setN h6 id { getN h6 id with parent := some q.1 }
    (.ok (), h7)

/-- Method insert. An odd index whose preceding slot is not a node is an
exact match: the value is overwritten in place. Otherwise a leaf (or an
internal node receiving a node value from a split) splices the pair into
the children array, splitting when full; an internal node receiving an
ordinary value descends (a None child there would raise AttributeError
in Python). -/
def insert {V : Type} : (fuel : ℕ) → Heap V → ℕ → ℤ → Slot V →
    Except PyErr Unit × Heap V
  | 0, h, _, _, _ => (.error .fuelOut, h)
  | fuel + 1, h, id, key, value =>
    let n := getN h id
    let i := indexF n key
    if i % 2 = 1 ∧ ¬(sGet n.children (i - 1)).isNode = true then
      (.ok (), setN h id { n with children := n.children.set (i - 1) value })
    else
      if is_leaf n = true ∨ value.isNode = true then
        let resulting :=
          if is_leaf n then
            n.children.take i ++ [value, Slot.key key] ++ n.children.drop i
          else
            n.children.take (i + 1) ++ [Slot.key key, value] ++
              n.children.drop (i + 1)
        if is_full n then split_and_insert (insert fuel) h id resulting
        else (.ok (), setN h id
          { n with children := resulting.take (resulting.length - 2) })
      else
        match sGet n.children (if i % 2 = 1 then i + 1 else i) with
        | .node j => insert fuel h j key value
        | _ => (.error .attrError, h)

/-- Method _merge_or_redistribute on the parent of an underfull node:
pick the left sibling when one exists (else the right), concatenate the
live slots of the pair (keeping the separator between internal nodes).
If the result fits in one node, write it into the left node, point the
underfull slot at the left node and recursively delete the separator from
this node. Otherwise the redistribution path first blanks the left node
and rewrites the right node, then crashes: the source assigns into
left_node[...] itself rather than left_node.children, and the class
supports no item assignment, so Python raises TypeError in both the leaf
and the internal branch. The separator is deleted through the bound
method del, standing for delete on this node. -/
def merge_or_redistribute {V : Type}
    (del : Heap V → ℕ → ℤ → Bool → Except PyErr Unit × Heap V)
    (h : Heap V) (selfId underId : ℕ) : Except PyErr Unit × Heap V :=
  let n := getN h selfId
  let i := n.children.findIdx (fun s =>
    match s with
    | Slot.node j => j = underId
    | _ => false)
  if i ≥ n.children.length then (.error .valueError, h)
  else
    let sel : ℕ × Slot V × Slot V × Slot V :=
      if i > 0 then
        (i, sGet n.children (i - 2), sGet n.children (i - 1),
          Slot.node underId)
      else
        (i + 2, Slot.node underId, sGet n.children (i + 1),
          sGet n.children (i + 2))
    let right_i := sel.1
    let mergeKey := sel.2.2.1
    match sel.2.1, sel.2.2.2 with
    | Slot.node leftId, Slot.node rightId =>
      let left := getN h leftId
      let right := getN h rightId
      let left_size := num_keys left * 2
      let right_size := num_keys right * 2 + 1
      let resulting :=
        if is_leaf left then
          left.children.take left_size ++ right.children.take right_size
        else
          left.children.take (left_size + 1) ++ [mergeKey] ++
            right.children.take right_size
      if resulting.length ≤ node_len n then
        let h1 := setN h leftId { left with children := resulting }
        let h2 := sync_children h1 leftId
        let h3 := setN h2 selfId { getN h2 selfId with
          children := (getN h2 selfId).children.set right_i
            (Slot.node leftId) }
        del h3 selfId mergeKey.asKey true
      else
        let nl := node_len n
        let mid := (nl + 3) / 2
        let h1 := setN h leftId { left with
          children := List.replicate nl Slot.none }
        let h2 := setN h1 rightId { right with
          children := resulting.drop mid ++
            List.replicate (nl - mid) Slot.none }
        if is_leaf (getN h2 rightId) then (.error .typeError, h2)
        else (.error .typeError, h2)
    | _, _ => (.error .attrError, h)

/-- Method delete. An internal node (unless delete_node is set) descends
into the child at the resolved position, KeyError when it is missing or
empty. Otherwise an even index or a node at the preceding slot (without
delete_node) is KeyError; an exact match removes the two slots and pads,
then the dead single-child-parent branch (its guard is unsatisfiable; its
body would dereference a None child) or underflow handling in the parent
follows. -/
def delete {V : Type} : (fuel : ℕ) → Heap V → ℕ → ℤ → Bool →
    Except PyErr Unit × Heap V
  | 0, h, _, _, _ => (.error .fuelOut, h)
  | fuel + 1, h, id, key, delete_node =>
    let n := getN h id
    let i := indexF n key
    if ¬is_leaf n = true ∧ ¬delete_node = true then
      let target := sGet n.children (if i % 2 = 1 then i + 1 else i)
      if truthy fuel h target then
        match target with
        | .node j => delete fuel h j key false
        | _ => (.error .attrError, h)
      else (.error .keyError, h)
    else
      if i % 2 = 0 then (.error .keyError, h)
      else if (sGet n.children (i - 1)).isNode = true ∧ ¬delete_node = true then
        (.error .keyError, h)
      else
        let cs2 := n.children.take (i - 1) ++ n.children.drop (i + 1) ++
          [Slot.none, Slot.none]
        let h1 := setN h id { n with children := cs2 }
        let n1 := getN h1 id
        if is_single_child_parent n1 then
          (.error .attrError, h1)
        else if is_underfull n1 then
          match n1.parent with
          | some pid => merge_or_redistribute (delete fuel) h1 pid id
          | Option.none => (.error .attrError, h1)
        else (.ok (), h1)

/-- The BPlusTree wrapper object: the current root id plus the arena. -/
structure BPlusTree (V : Type) where
  root : ℕ
  heap : Heap V
deriving DecidableEq

/-- Constructor BPlusTree(b): allocate one empty node as root. No
validation of the order is performed. -/
def BPlusTree.new (V : Type) (b : ℕ) : BPlusTree V :=
  ⟨0, [mkNode b Option.none []]⟩

/-- Method __setitem__: insert at the root, then rebind the root by
following parent references (a split may have created a new root). -/
def BPlusTree.set {V : Type} (fuel : ℕ) (t : BPlusTree V) (key : ℤ) (v : V) :
    Except PyErr Unit × BPlusTree V :=
  match insert fuel t.heap t.root key (Slot.val v) with
  | (Except.ok _, h2) => (Except.ok (), ⟨get_root fuel h2 t.root, h2⟩)
  | (Except.error e, h2) => (Except.error e, ⟨t.root, h2⟩)

/-- Argument of __getitem__: a slice object, an int instance, or any
other object (for example a float) carrying the numeric value k. -/
inductive GetArg where
  | slice (start stop step : Option ℤ)
  | intKey (k : ℤ)
  | other (k : ℤ)

/-- Result of __getitem__: Python None (the implicit fall-through
return), a single stored object, or a list of stored objects. -/
inductive GetRes (V : Type) where
  | pyNone
  | single (s : Slot V)
  | many (l : List (Slot V))
deriving DecidableEq

/-- Method __getitem__: a slice dispatches to get_range (a truthy step
raises NotImplementedError), an int instance dispatches to search, and
any other argument falls off the end of the method, returning None. -/
def BPlusTree.getitem {V : Type} (fuel : ℕ) (t : BPlusTree V) (a : GetArg) :
    Except PyErr (GetRes V) :=
  match a with
  | .slice st sp step =>
    if (match step with
        | some s => decide (s ≠ 0)
        | Option.none => false) then
      .error .notImplemented
    else
      match get_range fuel t.heap t.root st sp with
      | .ok l => .ok (.many l)
      | .error e => .error e
  | .intKey k =>
    match search fuel t.heap t.root k with
    | .ok s => .ok (.single s)
    | .error e => .error e
  | .other _ => .ok .pyNone

/-- Method __delitem__: delete at the root (the root binding is not
refreshed). -/
def BPlusTree.delitem {V : Type} (fuel : ℕ) (t : BPlusTree V) (key : ℤ) :
    Except PyErr Unit × BPlusTree V :=
  match delete fuel t.heap t.root key false with
  | (r, h2) => (r, ⟨t.root, h2⟩)

/-- Method __len__ of the wrapper. -/
def BPlusTree.len {V : Type} (fuel : ℕ) (t : BPlusTree V) : ℕ :=
  lenImpl fuel t.heap t.root

/-- Depths (distance from the given node) of all leaves reachable through
child slots, left to right. Formalizes the balance notion of the spec:
the tree is balanced iff this list is constant. -/
def leafDepths {V : Type} : ℕ → Heap V → ℕ → ℕ → List ℕ
  | 0, _, _, _ => []
  | fuel + 1, h, id, d =>
    let n := getN h id
    if is_leaf n then [d]
    else
      ((List.range (n.b + 1)).map
        (fun j =>
          match sGet n.children (2 * j) with
          | .node c => leafDepths fuel h c (d + 1)
          | _ => [])).flatten

/-- One public mutating operation on the wrapper. -/
inductive Op (V : Type) where
  | set (key : ℤ) (v : V)
  | del (key : ℤ)

/-- Run a sequence of public operations left to right, keeping the state
an operation leaves behind even when it raises (as a Python caller
catching exceptions would observe). -/
def runOps {V : Type} (fuel : ℕ) : List (Op V) → BPlusTree V → BPlusTree V
  | [], t => t
  | op :: rest, t =>
    match op with
    | .set k v => runOps fuel rest (BPlusTree.set fuel t k v).2
    | .del k => runOps fuel rest (BPlusTree.delitem fuel t k).2

instance exceptDecEq {E A : Type} [DecidableEq E] [DecidableEq A] :
    DecidableEq (Except E A) := fun x y =>
  match x, y with
  | Except.ok a, Except.ok b =>
    if h : a = b then isTrue (by rw [h])
    else isFalse (fun hc => h (Except.ok.inj hc))
  | Except.error a, Except.error b =>
    if h : a = b then isTrue (by rw [h])
    else isFalse (fun hc => h (Except.error.inj hc))
  | Except.ok _, Except.error _ => isFalse (fun hc => Except.noConfusion hc)
  | Except.error _, Except.ok _ => isFalse (fun hc => Except.noConfusion hc)

/-- Value data_i used by the repository tests. -/
def dataVal (i : ℕ) : String := "data_" ++ toString i

/-- The order-4 tree of the repository tests: keys 0..49 inserted in
order with values data_0 .. data_49. -/
def tree50 : BPlusTree String :=
  runOps 200
    ((List.range 50).map (fun i => Op.set (Int.ofNat i) (dataVal i)))
    (BPlusTree.new String 4)

/-- Order-4 tree after inserting keys 1, 2, 3, 4, 5: two leaves holding
keys 1-3 and 4-5 under one root. -/
def tree5 : BPlusTree ℕ :=
  runOps 200 ([1, 2, 3, 4, 5].map (fun i => Op.set (Int.ofNat i) i))
    (BPlusTree.new ℕ 4)

/-- Order-4 tree after inserting keys 1, 2, 3, 4, 5, 0: leaves holding
keys 0-3 (full) and 4-5 under one root. -/
def tree6 : BPlusTree ℕ :=
  runOps 200 ([1, 2, 3, 4, 5, 0].map (fun i => Op.set (Int.ofNat i) i))
    (BPlusTree.new ℕ 4)

/-- Interleaving of operations reaching the redistribution path on
internal nodes: insert keys 0..49, then delete keys 0..28 in ascending
order. -/
def opsC6 : List (Op ℕ) :=
  (List.range 50).map (fun i => Op.set (Int.ofNat i) i) ++
    (List.range 29).map (fun i => Op.del (Int.ofNat i))

/-- State after running opsC6 from an empty order-4 tree (the last
delete raises TypeError and leaves the arena as it stood). -/
def stateC6 : BPlusTree ℕ := runOps 200 opsC6 (BPlusTree.new ℕ 4)

/-- The same interleaving without its final delete. -/
def opsC6pre : List (Op ℕ) :=
  (List.range 50).map (fun i => Op.set (Int.ofNat i) i) ++
    (List.range 28).map (fun i => Op.del (Int.ofNat i))

/-- State just before the delete of key 28. -/
def stateC6pre : BPlusTree ℕ := runOps 200 opsC6pre (BPlusTree.new ℕ 4)

/-- Parse a leaf children array as value/key pairs followed by an
optional sibling pointer and None padding, per the positional layout of
section 3 of the spec. Returns the entries (key, value) in order and the
sibling, or nothing when the array is not of this shape. -/
def leafShape {V : Type} : List (Slot V) → Option (List (ℤ × V) × Option ℕ)
  | [] => some ([], Option.none)
  | Slot.none :: rest =>
    if rest.all Slot.isNone then some ([], Option.none) else Option.none
  | Slot.node s :: rest =>
    if rest.all Slot.isNone then some ([], some s) else Option.none
  | Slot.val v :: Slot.key k :: rest =>
    match leafShape rest with
    | some (es, sib) => some ((k, v) :: es, sib)
    | Option.none => Option.none
  | _ => Option.none

/-- Parse an internal children array as child/key alternation ending in a
final child and None padding. Returns the separator keys and the child
ids (one more child than keys). -/
def internalShape {V : Type} : List (Slot V) → Option (List ℤ × List ℕ)
  | Slot.node c :: Slot.key k :: rest =>
    match internalShape rest with
    | some (ks, cs) => some (k :: ks, c :: cs)
    | Option.none => Option.none
  | Slot.node c :: rest =>
    if rest.all Slot.isNone then some ([], [c]) else Option.none
  | _ => Option.none

/-- Contents of a subtree: the (key, value) pairs of its leaves, left to
right. -/
def toListF {V : Type} : ℕ → Heap V → ℕ → List (ℤ × V)
  | 0, _, _ => []
  | fuel + 1, h, id =>
    let n := getN h id
    if is_leaf n then
      match leafShape n.children with
      | some (es, _) => es
      | Option.none => []
    else
      match internalShape n.children with
      | some (_, cs) => (cs.map (fun c => toListF fuel h c)).flatten
      | Option.none => []

/-- Ids of the leaves of a subtree, left to right. -/
def leafIds {V : Type} : ℕ → Heap V → ℕ → List ℕ
  | 0, _, _ => []
  | fuel + 1, h, id =>
    let n := getN h id
    if is_leaf n then [id]
    else
      match internalShape n.children with
      | some (_, cs) => (cs.map (fun c => leafIds fuel h c)).flatten
      | Option.none => []

/-- Entries stored in one leaf, read from its parsed layout. -/
def leafEntries {V : Type} (h : Heap V) (l : ℕ) : List (ℤ × V) :=
  match leafShape (getN h l).children with
  | some (es, _) => es
  | Option.none => []

/-- Sibling pointer of a leaf, read from its parsed layout. -/
def sibOf {V : Type} (h : Heap V) (id : ℕ) : Option ℕ :=
  match leafShape (getN h id).children with
  | some (_, sib) => sib
  | Option.none => Option.none

/-- The leaf chain invariant of section 3 of the spec: consecutive leaves
are linked by the sibling pointers and the rightmost leaf ends the
chain. -/
def chainOk {V : Type} (h : Heap V) : List ℕ → Bool
  | [] => true
  | [l] => (sibOf h l).isNone
  | l1 :: l2 :: ls => sibOf h l1 = some l2 && chainOk h (l2 :: ls)

/-- Bound check for a key inside the half-open responsibility interval
of a subtree: closed at the lower separator, open at the upper one. -/
def inBnd (lo hi : Option ℤ) (k : ℤ) : Bool :=
  (match lo with
   | some a => decide (a ≤ k)
   | Option.none => true) &&
  (match hi with
   | some z => decide (k < z)
   | Option.none => true)

/-- Keys strictly ascending and all inside the interval. -/
def keysOk (lo hi : Option ℤ) : List ℤ → Bool
  | [] => true
  | [k] => inBnd lo hi k
  | k :: k2 :: ks => inBnd lo hi k && decide (k < k2) && keysOk lo hi (k2 :: ks)

/-- Well-formedness of the children of an internal node: each child is a
well-formed subtree (through the bound check wfn, standing for wfN at one
less fuel with this node as parent) for the interval delimited by the
surrounding separator keys. -/
def wfChildren (wfn : ℕ → Option ℤ → Option ℤ → Bool) :
    List ℕ → List ℤ → Option ℤ → Option ℤ → Bool
  | [c], [], lo, hi => wfn c lo hi
  | c :: cs, k :: ks, lo, hi =>
    wfn c lo (some k) && wfChildren wfn cs ks (some k) hi
  | _, _, _, _ => false

/-- Well-formedness of the subtree rooted at a node, following the data
model of section 3 of the spec: the node lives in the arena, carries the
shared order and the expected parent reference, its children array has
the fixed length 2 * b + 1 and parses as a leaf or internal layout, keys
are strictly ascending inside the responsibility interval, key counts
respect capacity and (for non-roots) minimum occupancy, and children are
recursively well formed between the separators. -/
def wfN {V : Type} (h : Heap V) (b : ℕ) :
    ℕ → ℕ → Option ℕ → Option ℤ → Option ℤ → Bool
  | 0, _, _, _, _ => false
  | fuel + 1, id, par, lo, hi =>
    let n := getN h id
    decide (id < h.length) && decide (n.b = b) && decide (n.parent = par) &&
      decide (n.children.length = 2 * b + 1) &&
      (if is_leaf n then
        match leafShape n.children with
        | some (es, _) =>
          keysOk lo hi (es.map Prod.fst) && decide (es.length ≤ b) &&
            (par.isNone || decide ((b + 1) / 2 ≤ es.length))
        | Option.none => false
      else
        match internalShape n.children with
        | some (ks, cs) =>
          keysOk lo hi ks && decide (1 ≤ ks.length) &&
            decide (ks.length ≤ b) &&
            (par.isNone || decide ((b + 1) / 2 ≤ ks.length)) &&
            wfChildren (fun c lo2 hi2 => wfN h b fuel c (some id) lo2 hi2)
              cs ks lo hi
        | Option.none => false)

/-- Functional mirror of the _index walk over the list of keys of one
node: 0 before a greater key, the odd position on a match, otherwise two
more than the position among the remaining keys. -/
def idxSpec (key : ℤ) : List ℤ → ℕ
  | [] => 0
  | k :: ks =>
    if key < k then 0 else if key = k then 1 else 2 + idxSpec key ks

/-- Well-formedness of a whole tree object: a valid order, a well-formed
root subtree with unconstrained interval, and a correctly linked leaf
chain. -/
def wfTree {V : Type} (fuel : ℕ) (t : BPlusTree V) (b : ℕ) : Bool :=
  decide (1 ≤ b) &&
    wfN t.heap b fuel t.root Option.none Option.none Option.none &&
    chainOk t.heap (leafIds fuel t.heap t.root)

/-- The heap produced by the in-place overwrite branch of insert: the
value slot 2 * jj of node L is replaced by the new value, nothing else
changes. -/
def overwriteHeap {V : Type} (h : Heap V) (L jj : ℕ) (v2 : V) : Heap V :=
  setN h L { getN h L with
    children := (getN h L).children.set (2 * jj) (Slot.val v2) }

theorem search_succ {V : Type} (fuel : ℕ) (h : Heap V) (id : ℕ) (key : ℤ) :
    search (fuel + 1) h id key =
      (if is_leaf (getN h id) then
        if indexF (getN h id) key % 2 = 1 then
          if (sGet (getN h id).children
              (indexF (getN h id) key - 1)).isNode then
            Except.error PyErr.keyError
          else Except.ok (sGet (getN h id).children
            (indexF (getN h id) key - 1))
        else Except.error PyErr.keyError
      else
        if truthy fuel h (sGet (getN h id).children
            (if indexF (getN h id) key % 2 = 1 then indexF (getN h id) key + 1
             else indexF (getN h id) key)) then
          match sGet (getN h id).children
              (if indexF (getN h id) key % 2 = 1 then indexF (getN h id) key + 1
               else indexF (getN h id) key) with
          | Slot.node j => search fuel h j key
          | _ => Except.error PyErr.attrError
        else Except.error PyErr.keyError) := rfl

theorem delete_succ {V : Type} (fuel : ℕ) (h : Heap V) (id : ℕ) (key : ℤ)
    (delete_node : Bool) :
    delete (fuel + 1) h id key delete_node =
      (if ¬is_leaf (getN h id) = true ∧ ¬delete_node = true then
        if truthy fuel h (sGet (getN h id).children
            (if indexF (getN h id) key % 2 = 1 then indexF (getN h id) key + 1
             else indexF (getN h id) key)) then
          match sGet (getN h id).children
              (if indexF (getN h id) key % 2 = 1 then indexF (getN h id) key + 1
               else indexF (getN h id) key) with
          | Slot.node j => delete fuel h j key false
          | _ => (Except.error PyErr.attrError, h)
        else (Except.error PyErr.keyError, h)
      else
        if indexF (getN h id) key % 2 = 0 then (Except.error PyErr.keyError, h)
        else if (sGet (getN h id).children
              (indexF (getN h id) key - 1)).isNode = true ∧
            ¬delete_node = true then
          (Except.error PyErr.keyError, h)
        else
          let cs2 := (getN h id).children.take (indexF (getN h id) key - 1) ++
            (getN h id).children.drop (indexF (getN h id) key + 1) ++
            [Slot.none, Slot.none]
          let h1 := setN h id { getN h id with children := cs2 }
          let n1 := getN h1 id
          if is_single_child_parent n1 then (Except.error PyErr.attrError, h1)
          else if is_underfull n1 then
            match n1.parent with
            | some pid => merge_or_redistribute (delete fuel) h1 pid id
            | Option.none => (Except.error PyErr.attrError, h1)
          else (Except.ok (), h1)) := rfl

theorem insert_succ {V : Type} (fuel : ℕ) (h : Heap V) (id : ℕ) (key : ℤ)
    (value : Slot V) :
    insert (fuel + 1) h id key value =
      (if indexF (getN h id) key % 2 = 1 ∧
          ¬(sGet (getN h id).children
            (indexF (getN h id) key - 1)).isNode = true then
        (Except.ok (), setN h id { getN h id with
          children := (getN h id).children.set
            (indexF (getN h id) key - 1) value })
      else
        if is_leaf (getN h id) = true ∨ value.isNode = true then
          if is_full (getN h id) then
            split_and_insert (insert fuel) h id
              (if is_leaf (getN h id) then
                (getN h id).children.take (indexF (getN h id) key) ++
                  [value, Slot.key key] ++
                  (getN h id).children.drop (indexF (getN h id) key)
              else
                (getN h id).children.take (indexF (getN h id) key + 1) ++
                  [Slot.key key, value] ++
                  (getN h id).children.drop (indexF (getN h id) key + 1))
          else
            (Except.ok (), setN h id { getN h id with
              children :=
                (if is_leaf (getN h id) then
                  (getN h id).children.take (indexF (getN h id) key) ++
                    [value, Slot.key key] ++
                    (getN h id).children.drop (indexF (getN h id) key)
                else
                  (getN h id).children.take (indexF (getN h id) key + 1) ++
                    [Slot.key key, value] ++
                    (getN h id).children.drop
                      (indexF (getN h id) key + 1)).take
                  ((if is_leaf (getN h id) then
                    (getN h id).children.take (indexF (getN h id) key) ++
                      [value, Slot.key key] ++
                      (getN h id).children.drop (indexF (getN h id) key)
                  else
                    (getN h id).children.take (indexF (getN h id) key + 1) ++
                      [Slot.key key, value] ++
                      (getN h id).children.drop
                        (indexF (getN h id) key + 1)).length - 2) })
        else
          match sGet (getN h id).children
              (if indexF (getN h id) key % 2 = 1 then
                indexF (getN h id) key + 1
              else indexF (getN h id) key) with
          | Slot.node j => insert fuel h j key value
          | _ => (Except.error PyErr.attrError, h)) := rfl

theorem get_range_succ {V : Type} (fuel : ℕ) (h : Heap V) (id : ℕ)
    (start_key end_key : Option ℤ) :
    get_range (fuel + 1) h id start_key end_key =
      (if is_leaf (getN h id) then
        if (match start_key with
            | some sk => indexF (getN h id) sk
            | Option.none => 0) % 2 = 1 then
          walk (get_range fuel) h (getN h id) end_key ((getN h id).b + 2)
            ((match start_key with
              | some sk => indexF (getN h id) sk
              | Option.none => 0) + 1)
            (if (sGet (getN h id).children
                ((match start_key with
                  | some sk => indexF (getN h id) sk
                  | Option.none => 0) - 1)).isNode then []
             else [sGet (getN h id).children
               ((match start_key with
                 | some sk => indexF (getN h id) sk
                 | Option.none => 0) - 1)])
        else
          walk (get_range fuel) h (getN h id) end_key ((getN h id).b + 2)
            (match start_key with
             | some sk => indexF (getN h id) sk
             | Option.none => 0) []
      else
        match sGet (getN h id).children
            (if (match start_key with
                | some sk => indexF (getN h id) sk
                | Option.none => 0) % 2 = 1 then
              (match start_key with
               | some sk => indexF (getN h id) sk
               | Option.none => 0) + 1
            else
              (match start_key with
               | some sk => indexF (getN h id) sk
               | Option.none => 0)) with
        | Slot.node j => get_range fuel h j start_key end_key
        | _ => Except.error PyErr.attrError) := rfl

/-- Core of claim C7: when search reports KeyError, delete at the same
node reports KeyError as well and returns the heap untouched. The two
methods resolve the same index and inspect the same slots, and every
KeyError exit of delete happens before any heap write. -/
theorem delete_absent_core {V : Type} :
    ∀ (fuel : ℕ) (h : Heap V) (id : ℕ) (key : ℤ),
      search fuel h id key = Except.error PyErr.keyError →
      delete fuel h id key false = (Except.error PyErr.keyError, h)
  | 0, _, _, _, hs => by simp [search] at hs
  | fuel + 1, h, id, key, hs => by
    rw [search_succ] at hs
    rw [delete_succ]
    by_cases hL : is_leaf (getN h id)
    · rw [if_pos hL] at hs
      rw [if_neg (by simp [hL])]
      by_cases hodd : indexF (getN h id) key % 2 = 1
      · rw [if_pos hodd] at hs
        rw [if_neg (by omega)]
        by_cases hnode : (sGet (getN h id).children
            (indexF (getN h id) key - 1)).isNode = true
        · rw [if_pos (And.intro hnode (by simp))]
        · rw [if_neg hnode] at hs
          simp at hs
      · rw [if_pos (by omega : indexF (getN h id) key % 2 = 0)]
    · rw [if_neg hL] at hs
      rw [if_pos (And.intro hL (by simp))]
      by_cases ht : truthy fuel h (sGet (getN h id).children
          (if indexF (getN h id) key % 2 = 1 then indexF (getN h id) key + 1
           else indexF (getN h id) key)) = true
      · rw [if_pos ht] at hs ⊢
        cases htar : sGet (getN h id).children
            (if indexF (getN h id) key % 2 = 1 then indexF (getN h id) key + 1
             else indexF (getN h id) key) with
        | node j =>
          rw [htar] at hs
          exact delete_absent_core fuel h j key hs
        | none => rw [htar] at hs; simp at hs
        | key k => rw [htar] at hs; simp at hs
        | val v => rw [htar] at hs; simp at hs
      · rw [if_neg ht] at hs ⊢

theorem sGet_replicate_none {V : Type} :
    ∀ (n i : ℕ), sGet (List.replicate n (Slot.none : Slot V)) i = Slot.none
  | 0, 0 => rfl
  | 0, _ + 1 => rfl
  | _ + 1, 0 => rfl
  | n + 1, i + 1 => sGet_replicate_none n i

theorem sGet_nil {V : Type} (i : ℕ) : sGet ([] : List (Slot V)) i = Slot.none := by
  cases i <;> rfl

theorem sGet_cons_zero {V : Type} (a : Slot V) (l : List (Slot V)) :
    sGet (a :: l) 0 = a := rfl

theorem sGet_cons_succ {V : Type} (a : Slot V) (l : List (Slot V)) (i : ℕ) :
    sGet (a :: l) (i + 1) = sGet l i := rfl

theorem isNone_iff {V : Type} (a : Slot V) : a.isNone = true ↔ a = Slot.none := by
  cases a <;> simp [Slot.isNone]

theorem isNode_iff {V : Type} (a : Slot V) :
    a.isNode = true ↔ ∃ j, a = Slot.node j := by
  cases a <;> simp [Slot.isNode]

theorem sGet_all_isNone {V : Type} {l : List (Slot V)}
    (hall : l.all Slot.isNone = true) (i : ℕ) : sGet l i = Slot.none := by
  induction l generalizing i with
  | nil => exact sGet_nil i
  | cons a l ih =>
    rw [List.all_cons, Bool.and_eq_true] at hall
    cases i with
    | zero => rw [sGet_cons_zero, (isNone_iff a).mp hall.1]
    | succ i2 => rw [sGet_cons_succ]; exact ih hall.2 i2

/-- Positional reading of a parsed leaf layout: pair j sits at slots 2j
and 2j+1, the sibling slot follows the pairs, and everything after is
None. -/
theorem leafShape_layout {V : Type} (cs : List (Slot V)) :
    ∀ (es : List (ℤ × V)) (sib : Option ℕ), leafShape cs = some (es, sib) →
      (∀ j k v, es.get? j = some (k, v) →
        sGet cs (2 * j) = Slot.val v ∧ sGet cs (2 * j + 1) = Slot.key k) ∧
      sGet cs (2 * es.length) =
        (match sib with
         | some s => Slot.node s
         | Option.none => Slot.none) ∧
      (∀ i, 2 * es.length < i → sGet cs i = Slot.none) := by
  induction cs using leafShape.induct with
  | case1 =>
    intro es sib hp
    simp [leafShape] at hp
    obtain ⟨h1, h2⟩ := hp
    subst h1; subst h2
    exact ⟨by intro j k v hj; simp at hj,
      by simpa using sGet_nil 0, fun i _ => sGet_nil i⟩
  | case2 rest hall =>
    intro es sib hp
    simp [leafShape, hall] at hp
    obtain ⟨h1, h2⟩ := hp
    subst h1; subst h2
    refine ⟨by intro j k v hj; simp at hj, by simp [sGet_cons_zero], ?_⟩
    intro i hi
    match i, hi with
    | i2 + 1, _ =>
      rw [sGet_cons_succ]
      exact sGet_all_isNone hall i2
  | case3 rest hall =>
    intro es sib hp
    simp [leafShape, hall] at hp
  | case4 s rest hall =>
    intro es sib hp
    simp [leafShape, hall] at hp
    obtain ⟨h1, h2⟩ := hp
    subst h1; subst h2
    refine ⟨by intro j k v hj; simp at hj, by simp [sGet_cons_zero], ?_⟩
    intro i hi
    match i, hi with
    | i2 + 1, _ =>
      rw [sGet_cons_succ]
      exact sGet_all_isNone hall i2
  | case5 s rest hall =>
    intro es sib hp
    simp [leafShape, hall] at hp
  | case6 v0 k0 rest es2 sib2 hrest ih =>
    intro es sib hp
    simp only [leafShape, hrest] at hp
    have hp2 : (k0, v0) :: es2 = es ∧ sib2 = sib := by
      constructor
      · exact congrArg Prod.fst (Option.some.inj hp)
      · exact congrArg Prod.snd (Option.some.inj hp)
    obtain ⟨h1, h2⟩ := hp2
    subst h1; subst h2
    obtain ⟨ihE, ihS, ihT⟩ := ih es2 sib2 hrest
    refine ⟨?_, ?_, ?_⟩
    · intro j k v hj
      cases j with
      | zero =>
        simp at hj
        obtain ⟨hk, hv⟩ := hj
        subst hk; subst hv
        exact ⟨rfl, rfl⟩
      | succ j2 =>
        simp only [List.get?_cons_succ] at hj
        have harith : 2 * (j2 + 1) = 2 * j2 + 1 + 1 := by ring
        rw [harith]
        simp only [sGet_cons_succ]
        exact ihE j2 k v hj
    · have harith : 2 * ((k0, v0) :: es2).length = 2 * es2.length + 1 + 1 := by
        simp [List.length_cons]; ring
      rw [harith]
      simp only [sGet_cons_succ]
      exact ihS
    · intro i hi
      have hlen : 2 * ((k0, v0) :: es2).length = 2 * es2.length + 2 := by
        simp [List.length_cons]; ring
      rw [hlen] at hi
      match i, hi with
      | i2 + 2, hi =>
        simp only [sGet_cons_succ]
        exact ihT i2 (by omega)
  | case7 v0 k0 rest hrest ih =>
    intro es sib hp
    simp [leafShape, hrest] at hp
  | case8 t h1 h2 h3 h4 =>
    intro es sib hp
    match t, hp with
    | [], hp => exact absurd rfl (h1)
    | Slot.none :: rest, hp => exact absurd rfl (h2 rest)
    | Slot.node s :: rest, hp => exact absurd rfl (h3 s rest)
    | Slot.key k :: rest, hp => simp [leafShape] at hp
    | [Slot.val v], hp => simp [leafShape] at hp
    | Slot.val v :: Slot.none :: rest, hp => simp [leafShape] at hp
    | Slot.val v :: Slot.node s :: rest, hp => simp [leafShape] at hp
    | Slot.val v :: Slot.val v2 :: rest, hp => simp [leafShape] at hp
    | Slot.val v :: Slot.key k :: rest, hp => exact absurd rfl (h4 v k rest)

/-- Positional reading of a parsed internal layout: child j sits at slot
2j, separator j at slot 2j+1, there is one more child than keys, and
every slot after the last child is None. -/
theorem internalShape_layout {V : Type} (cs : List (Slot V)) :
    ∀ (ks : List ℤ) (chs : List ℕ), internalShape cs = some (ks, chs) →
      (∀ j c, chs.get? j = some c → sGet cs (2 * j) = Slot.node c) ∧
      (∀ j k, ks.get? j = some k → sGet cs (2 * j + 1) = Slot.key k) ∧
      chs.length = ks.length + 1 ∧
      (∀ i, 2 * ks.length < i → sGet cs i = Slot.none) := by
  induction cs using internalShape.induct with
  | case1 c0 k0 rest ks2 cs2 hrest ih =>
    intro ks chs hp
    simp only [internalShape, hrest] at hp
    have h1 : k0 :: ks2 = ks := congrArg Prod.fst (Option.some.inj hp)
    have h2 : c0 :: cs2 = chs := congrArg Prod.snd (Option.some.inj hp)
    subst h1; subst h2
    obtain ⟨ihC, ihK, ihL, ihT⟩ := ih ks2 cs2 hrest
    refine ⟨?_, ?_, by simpa using ihL, ?_⟩
    · intro j c hj
      cases j with
      | zero => simp at hj; subst hj; rfl
      | succ j2 =>
        simp only [List.get?_cons_succ] at hj
        have harith : 2 * (j2 + 1) = 2 * j2 + 1 + 1 := by ring
        rw [harith]
        simp only [sGet_cons_succ]
        exact ihC j2 c hj
    · intro j k hj
      cases j with
      | zero => simp at hj; subst hj; rfl
      | succ j2 =>
        simp only [List.get?_cons_succ] at hj
        have harith : 2 * (j2 + 1) = 2 * j2 + 1 + 1 := by ring
        rw [harith]
        simp only [sGet_cons_succ]
        exact ihK j2 k hj
    · intro i hi
      have hlen : 2 * (k0 :: ks2).length = 2 * ks2.length + 2 := by
        simp [List.length_cons]; ring
      rw [hlen] at hi
      match i, hi with
      | i2 + 2, hi =>
        simp only [sGet_cons_succ]
        exact ihT i2 (by omega)
  | case2 c0 k0 rest hrest ih =>
    intro ks chs hp
    simp [internalShape, hrest] at hp
  | case3 c0 rest hnk hall =>
    intro ks chs hp
    have hred : internalShape (Slot.node c0 :: rest) =
        (if rest.all Slot.isNone then some ([], [c0]) else Option.none) := by
      match rest, hnk with
      | [], _ => rfl
      | Slot.none :: r2, _ => rfl
      | Slot.node s :: r2, _ => rfl
      | Slot.val v :: r2, _ => rfl
      | Slot.key k :: r2, hnk => exact absurd rfl (hnk k r2)
    rw [hred, if_pos hall] at hp
    have h1 : ([] : List ℤ) = ks := congrArg Prod.fst (Option.some.inj hp)
    have h2 : [c0] = chs := congrArg Prod.snd (Option.some.inj hp)
    subst h1; subst h2
    refine ⟨?_, by intro j k hj; simp at hj, by simp, ?_⟩
    · intro j c hj
      cases j with
      | zero => simp at hj; subst hj; rfl
      | succ j2 => simp at hj
    · intro i hi
      match i, hi with
      | i2 + 1, _ =>
        simp only [sGet_cons_succ]
        exact sGet_all_isNone hall i2
  | case4 c0 rest hnk hall =>
    intro ks chs hp
    have hred : internalShape (Slot.node c0 :: rest) =
        (if rest.all Slot.isNone then some ([], [c0]) else Option.none) := by
      match rest, hnk with
      | [], _ => rfl
      | Slot.none :: r2, _ => rfl
      | Slot.node s :: r2, _ => rfl
      | Slot.val v :: r2, _ => rfl
      | Slot.key k :: r2, hnk => exact absurd rfl (hnk k r2)
    rw [hred, if_neg hall] at hp
    cases hp
  | case5 t hna hnb =>
    intro ks chs hp
    match t, hp with
    | [], hp => simp [internalShape] at hp
    | Slot.none :: rest, hp => simp [internalShape] at hp
    | Slot.key k :: rest, hp => simp [internalShape] at hp
    | Slot.val v :: rest, hp => simp [internalShape] at hp
    | Slot.node c :: rest, hp => exact absurd rfl (hnb c rest)

theorem keysOk_mem {lo hi : Option ℤ} :
    ∀ {ks : List ℤ}, keysOk lo hi ks = true → ∀ k ∈ ks, inBnd lo hi k = true
  | [], _, k, hk => by simp at hk
  | [k0], hok, k, hk => by
    simp at hk
    subst hk
    simpa [keysOk] using hok
  | k0 :: k1 :: ks, hok, k, hk => by
    simp only [keysOk, Bool.and_eq_true] at hok
    rcases List.mem_cons.mp hk with h | h
    · subst h; exact hok.1.1
    · exact keysOk_mem hok.2 k h

theorem keysOk_chain {lo hi : Option ℤ} :
    ∀ {ks : List ℤ}, keysOk lo hi ks = true → List.Chain' (· < ·) ks
  | [], _ => List.chain'_nil
  | [_], _ => by simp
  | k0 :: k1 :: ks, hok => by
    simp only [keysOk, Bool.and_eq_true] at hok
    have ih := keysOk_chain hok.2
    exact List.chain'_cons.mpr ⟨of_decide_eq_true hok.1.2, ih⟩

/-- The _index loop computes idxSpec over the keys stored at the odd
slots: starting from even position 2t with ks the keys of slots t and
beyond, given at least b + 1 - t remaining steps. -/
theorem indexGo_spec {V : Type} (cs : List (Slot V)) (b : ℕ) (key : ℤ) :
    ∀ (ks : List ℤ) (s t : ℕ),
      s + t = b + 1 →
      t + ks.length ≤ b →
      (∀ j k, ks.get? j = some k → sGet cs (2 * (t + j) + 1) = Slot.key k) →
      (t + ks.length < b → sGet cs (2 * (t + ks.length) + 1) = Slot.none) →
      indexGo (2 * b + 1) cs key s (2 * t) = 2 * t + idxSpec key ks
  | [], s, t, hs, hlen, _, hend => by
    simp only [List.length_nil, Nat.add_zero] at hlen
    match s, hs with
    | 0, hs => omega
    | s2 + 1, hs =>
      rw [indexGo]
      by_cases hstop : 2 * t = 2 * b + 1 - 1
      · rw [if_pos hstop]; simp [idxSpec]
      · rw [if_neg hstop]
        have h0 : sGet cs (2 * t + 1) = Slot.none := by
          have := hend (by simp only [List.length_nil, Nat.add_zero]; omega)
          simpa using this
        rw [h0]
        simp [idxSpec]
  | k0 :: ks2, s, t, hs, hlen, hkeys, hend => by
    match s, hs with
    | 0, hs => simp only [List.length_cons] at hlen; omega
    | s2 + 1, hs =>
      rw [indexGo]
      have hne : ¬(2 * t = 2 * b + 1 - 1) := by
        simp only [List.length_cons] at hlen
        omega
      rw [if_neg hne]
      have hk0 : sGet cs (2 * t + 1) = Slot.key k0 := by
        have := hkeys 0 k0 rfl
        simpa using this
      simp only [hk0]
      by_cases hlt : key < k0
      · simp [idxSpec, hlt]
      · rw [if_neg hlt]
        by_cases heq : key = k0
        · simp [idxSpec, hlt, heq]
        · rw [if_neg heq]
          have ih := indexGo_spec cs b key ks2 s2 (t + 1) (by omega)
            (by simp only [List.length_cons] at hlen; omega)
            (fun j k hj => by
              have := hkeys (j + 1) k (by simpa using hj)
              have harith : 2 * (t + (j + 1)) + 1 = 2 * (t + 1 + j) + 1 := by
                ring
              rw [← harith]
              exact this)
            (fun hlt2 => by
              have := hend (by simp only [List.length_cons]; omega)
              have harith : 2 * (t + (k0 :: ks2).length) + 1 =
                  2 * (t + 1 + ks2.length) + 1 := by
                simp [List.length_cons]; ring
              rw [← harith]
              exact this)
          have harith : 2 * t + 2 = 2 * (t + 1) := by ring
          rw [harith, ih]
          simp [idxSpec, hlt, heq]
          ring

/-- Characterization of _index on a node whose odd slots carry the key
list ks followed by None: it computes idxSpec. -/
theorem indexF_keys {V : Type} (n : BNode V) (ks : List ℤ) (key : ℤ)
    (hkeys : ∀ j k, ks.get? j = some k →
      sGet n.children (2 * j + 1) = Slot.key k)
    (hnone : ks.length < n.b → sGet n.children (2 * ks.length + 1) = Slot.none)
    (hm : ks.length ≤ n.b) :
    indexF n key = idxSpec key ks := by
  have := indexGo_spec n.children n.b key ks (n.b + 1) 0 (by omega) (by omega)
    (fun j k hj => by simpa using hkeys j k hj)
    (fun hlt => by simpa using hnone (by omega))
  simpa [indexF, node_len] using this

/-- Position analysis of idxSpec when the key is present in a strictly
ascending key list. -/
theorem idxSpec_mem {key : ℤ} :
    ∀ {ks : List ℤ}, List.Pairwise (· < ·) ks → key ∈ ks →
      ∃ j, ks.get? j = some key ∧ idxSpec key ks = 2 * j + 1 ∧
        (∀ j2 k2, ks.get? j2 = some k2 →
          (j2 < j → k2 < key) ∧ (j < j2 → key < k2))
  | [], _, hmem => by simp at hmem
  | k0 :: ks2, hpw, hmem => by
    rcases List.mem_cons.mp hmem with h | h
    · subst h
      refine ⟨0, rfl, by simp [idxSpec], ?_⟩
      intro j2 k2 hj2
      constructor
      · intro hlt; omega
      · intro hlt
        match j2, hlt, hj2 with
        | j3 + 1, _, hj2 =>
          exact (List.pairwise_cons.mp hpw).1 k2
            (List.get?_mem (by simpa using hj2))
    · have hk0 : k0 < key :=
        (List.pairwise_cons.mp hpw).1 key h
      obtain ⟨j, hj, hspec, hsides⟩ :=
        idxSpec_mem (List.pairwise_cons.mp hpw).2 h
      refine ⟨j + 1, by simpa using hj, ?_, ?_⟩
      · have hne : ¬(key < k0) := by omega
        have hne2 : ¬(key = k0) := by omega
        simp [idxSpec, hne, hne2, hspec]
        ring
      · intro j2 k2 hj2
        cases j2 with
        | zero =>
          simp at hj2
          subst hj2
          exact ⟨fun _ => hk0, by omega⟩
        | succ j3 =>
          simp only [List.get?_cons_succ] at hj2
          have := hsides j3 k2 hj2
          exact ⟨fun hlt => this.1 (by omega), fun hlt => this.2 (by omega)⟩

/-- Position analysis of idxSpec when the key is absent from a strictly
ascending key list: the result is twice the count of smaller keys. -/
theorem idxSpec_not_mem {key : ℤ} :
    ∀ {ks : List ℤ}, List.Pairwise (· < ·) ks → key ∉ ks →
      ∃ c, c ≤ ks.length ∧ idxSpec key ks = 2 * c ∧
        (∀ j k2, ks.get? j = some k2 →
          (j < c → k2 < key) ∧ (c ≤ j → key < k2))
  | [], _, _ => ⟨0, by omega, rfl, by intro j k2 hj; simp at hj⟩
  | k0 :: ks2, hpw, hmem => by
    have hne0 : key ≠ k0 := fun hc => hmem (hc ▸ List.mem_cons_self k0 ks2)
    by_cases hlt : key < k0
    · refine ⟨0, by omega, by simp [idxSpec, hlt], ?_⟩
      intro j k2 hj
      refine ⟨by omega, fun _ => ?_⟩
      cases j with
      | zero => simp at hj; omega
      | succ j3 =>
        simp only [List.get?_cons_succ] at hj
        have : k0 < k2 :=
          (List.pairwise_cons.mp hpw).1 k2 (List.get?_mem (by simpa using hj))
        omega
    · have hgt : k0 < key := by
        rcases lt_trichotomy key k0 with h | h | h
        · exact absurd h hlt
        · exact absurd h hne0
        · exact h
      obtain ⟨c, hc, hspec, hsides⟩ :=
        idxSpec_not_mem (List.pairwise_cons.mp hpw).2
          (fun hc2 => hmem (List.mem_cons_of_mem k0 hc2))
      refine ⟨c + 1, by simpa using Nat.succ_le_succ hc, ?_, ?_⟩
      · simp [idxSpec, hlt, hne0, hspec]
        ring
      · intro j k2 hj
        cases j with
        | zero =>
          simp at hj
          subst hj
          exact ⟨fun _ => hgt, by omega⟩
        | succ j3 =>
          simp only [List.get?_cons_succ] at hj
          have := hsides j3 k2 hj
          exact ⟨fun hlt2 => this.1 (by omega), fun hlt2 => this.2 (by omega)⟩

theorem getD_set_self {A : Type} :
    ∀ (l : List A) (i : ℕ) (x d : A), i < l.length →
      (l.set i x).getD i d = x
  | [], i, x, d, hi => by simp at hi
  | _ :: _, 0, _, _, _ => rfl
  | _ :: l, i + 1, x, d, hi =>
    getD_set_self l i x d (by simpa using hi)

theorem getD_set_ne {A : Type} :
    ∀ (l : List A) (i j : ℕ) (x d : A), j ≠ i →
      (l.set i x).getD j d = l.getD j d
  | [], _, _, _, _, _ => by simp [List.set]
  | _ :: _, 0, 0, _, _, hne => absurd rfl hne
  | _ :: _, 0, _ + 1, _, _, _ => rfl
  | _ :: _, _ + 1, 0, _, _, _ => rfl
  | _ :: l, i + 1, j + 1, x, d, hne =>
    getD_set_ne l i j x d (fun hc => hne (by omega))

theorem getN_setN_self {V : Type} (h : Heap V) (i : ℕ) (n : BNode V)
    (hi : i < h.length) : getN (setN h i n) i = n :=
  getD_set_self h i n ⟨0, Option.none, []⟩ hi

theorem getN_setN_ne {V : Type} (h : Heap V) (i j : ℕ) (n : BNode V)
    (hne : j ≠ i) : getN (setN h i n) j = getN h j :=
  getD_set_ne h i j n ⟨0, Option.none, []⟩ hne

theorem sGet_set_self {V : Type} (cs : List (Slot V)) (i : ℕ) (x : Slot V)
    (hi : i < cs.length) : sGet (cs.set i x) i = x :=
  getD_set_self cs i x Slot.none hi

theorem sGet_set_ne {V : Type} (cs : List (Slot V)) (i j : ℕ) (x : Slot V)
    (hne : j ≠ i) : sGet (cs.set i x) j = sGet cs j :=
  getD_set_ne cs i j x Slot.none hne

theorem inBnd_lower {lo hi : Option ℤ} {k : ℤ} (hb : inBnd lo hi k = true) :
    ∀ a, lo = some a → a ≤ k := by
  intro a ha
  subst ha
  simp [inBnd] at hb
  exact hb.1

theorem inBnd_upper {lo hi : Option ℤ} {k : ℤ} (hb : inBnd lo hi k = true) :
    ∀ z, hi = some z → k < z := by
  intro z hz
  subst hz
  rw [inBnd.eq_def, Bool.and_eq_true] at hb
  simpa using hb.2

theorem inBnd_weaken_hi {lo hi : Option ℤ} {k0 k : ℤ}
    (h1 : inBnd lo (some k0) k = true) (h2 : inBnd lo hi k0 = true) :
    inBnd lo hi k = true := by
  rw [inBnd.eq_def, Bool.and_eq_true] at h1 h2 ⊢
  refine ⟨h1.1, ?_⟩
  match hi with
  | Option.none => rfl
  | some z =>
    have ha : k < k0 := by simpa using h1.2
    have hb : k0 < z := by simpa using h2.2
    simp
    omega

theorem inBnd_weaken_lo {lo hi : Option ℤ} {k0 k : ℤ}
    (h1 : inBnd (some k0) hi k = true) (h2 : inBnd lo hi k0 = true) :
    inBnd lo hi k = true := by
  rw [inBnd.eq_def, Bool.and_eq_true] at h1 h2 ⊢
  refine ⟨?_, h1.2⟩
  match lo with
  | Option.none => rfl
  | some a =>
    have ha : k0 ≤ k := by simpa using h1.1
    have hb : a ≤ k0 := by simpa using h2.1
    simp
    omega

/-- Unfolds the well-formedness of a leaf node into its components. -/
theorem wfN_leaf_facts {V : Type} {h : Heap V} {b fuel id : ℕ}
    {par : Option ℕ} {lo hi : Option ℤ}
    (hwf : wfN h b (fuel + 1) id par lo hi = true)
    (hleaf : is_leaf (getN h id) = true) :
    id < h.length ∧ (getN h id).b = b ∧ (getN h id).parent = par ∧
      (getN h id).children.length = 2 * b + 1 ∧
      ∃ es sib, leafShape (getN h id).children = some (es, sib) ∧
        keysOk lo hi (es.map Prod.fst) = true ∧ es.length ≤ b ∧
        (par.isNone = true ∨ (b + 1) / 2 ≤ es.length) := by
  rw [wfN] at hwf
  simp only [Bool.and_eq_true, decide_eq_true_eq] at hwf
  obtain ⟨⟨⟨⟨h1, h2⟩, h3⟩, h4⟩, h5⟩ := hwf
  rw [if_pos hleaf] at h5
  refine ⟨h1, h2, h3, h4, ?_⟩
  match hshape : leafShape (getN h id).children with
  | Option.none => rw [hshape] at h5; cases h5
  | some (es, sib) =>
    rw [hshape] at h5
    simp only [Bool.and_eq_true, decide_eq_true_eq, Bool.or_eq_true] at h5
    exact ⟨es, sib, rfl, h5.1.1, h5.1.2, by
      rcases h5.2 with hp | hp
      · exact Or.inl hp
      · exact Or.inr (by simpa using hp)⟩

/-- Unfolds the well-formedness of an internal node into its
components. -/
theorem wfN_internal_facts {V : Type} {h : Heap V} {b fuel id : ℕ}
    {par : Option ℕ} {lo hi : Option ℤ}
    (hwf : wfN h b (fuel + 1) id par lo hi = true)
    (hleaf : is_leaf (getN h id) = false) :
    id < h.length ∧ (getN h id).b = b ∧ (getN h id).parent = par ∧
      (getN h id).children.length = 2 * b + 1 ∧
      ∃ ks cs, internalShape (getN h id).children = some (ks, cs) ∧
        keysOk lo hi ks = true ∧ 1 ≤ ks.length ∧ ks.length ≤ b ∧
        (par.isNone = true ∨ (b + 1) / 2 ≤ ks.length) ∧
        wfChildren (fun c lo2 hi2 => wfN h b fuel c (some id) lo2 hi2)
          cs ks lo hi = true := by
  rw [wfN] at hwf
  simp only [Bool.and_eq_true, decide_eq_true_eq] at hwf
  obtain ⟨⟨⟨⟨h1, h2⟩, h3⟩, h4⟩, h5⟩ := hwf
  rw [if_neg (by simp [hleaf])] at h5
  refine ⟨h1, h2, h3, h4, ?_⟩
  match hshape : internalShape (getN h id).children with
  | Option.none => rw [hshape] at h5; cases h5
  | some (ks, cs) =>
    rw [hshape] at h5
    simp only [Bool.and_eq_true, decide_eq_true_eq, Bool.or_eq_true] at h5
    refine ⟨ks, cs, rfl, h5.1.1.1.1, h5.1.1.1.2, h5.1.1.2, ?_, h5.2⟩
    rcases h5.1.2 with hp | hp
    · exact Or.inl hp
    · exact Or.inr (by simpa using hp)

/-- Interval of the r-th child of a well-formed internal node: bounded
below by separator r-1 (or the node's own lower bound) and above by
separator r (or the node's own upper bound). -/
theorem wfChildren_get {wfn : ℕ → Option ℤ → Option ℤ → Bool} :
    ∀ (cs : List ℕ) (ks : List ℤ) (lo hi : Option ℤ),
      wfChildren wfn cs ks lo hi = true →
      cs.length = ks.length + 1 ∧
      ∀ r c, cs.get? r = some c →
        wfn c (if r = 0 then lo else some (ks.getD (r - 1) 0))
          (if r = ks.length then hi else some (ks.getD r 0)) = true
  | [], [], lo, hi, hwc => by simp [wfChildren] at hwc
  | [c0], [], lo, hi, hwc => by
    refine ⟨rfl, ?_⟩
    intro r c hr
    match r, hr with
    | 0, hr =>
      simp at hr
      subst hr
      simpa [wfChildren] using hwc
  | c0 :: c1 :: cs2, [], lo, hi, hwc => by simp [wfChildren] at hwc
  | [], k0 :: ks2, lo, hi, hwc => by simp [wfChildren] at hwc
  | [c0], k0 :: ks2, lo, hi, hwc => by simp [wfChildren] at hwc
  | c0 :: c1 :: cs2, k0 :: ks2, lo, hi, hwc => by
    rw [wfChildren, Bool.and_eq_true] at hwc
    obtain ⟨hlen, hget⟩ := wfChildren_get (c1 :: cs2) ks2 (some k0) hi hwc.2
    refine ⟨by simpa using hlen, ?_⟩
    intro r c hr
    cases r with
    | zero =>
      simp at hr
      subst hr
      simpa using hwc.1
    | succ r2 =>
      simp only [List.get?_cons_succ] at hr
      have := hget r2 c hr
      have hlo : (if r2 = 0 then some k0 else some (ks2.getD (r2 - 1) 0)) =
          some ((k0 :: ks2).getD (r2 + 1 - 1) 0) := by
        cases r2 with
        | zero => simp
        | succ r3 => simp
      have hhi : (if r2 = ks2.length then hi else some (ks2.getD r2 0)) =
          (if r2 + 1 = (k0 :: ks2).length then hi
           else some ((k0 :: ks2).getD (r2 + 1) 0)) := by
        by_cases he : r2 = ks2.length
        · simp [he]
        · rw [if_neg he, if_neg (by simpa using he)]
          simp
      rw [hlo, hhi] at this
      simpa using this

theorem toListF_succ {V : Type} (fuel : ℕ) (h : Heap V) (id : ℕ) :
    toListF (fuel + 1) h id =
      (if is_leaf (getN h id) then
        match leafShape (getN h id).children with
        | some (es, _) => es
        | Option.none => []
      else
        match internalShape (getN h id).children with
        | some (_, cs) => (cs.map (fun c => toListF fuel h c)).flatten
        | Option.none => []) := rfl

theorem lenImpl_succ {V : Type} (fuel : ℕ) (h : Heap V) (id : ℕ) :
    lenImpl (fuel + 1) h id =
      (if is_leaf (getN h id) then
        ((getN h id).children.countP (fun s => !s.isNone)) / 2
      else
        ((List.range ((getN h id).b + 1)).map
          (fun j =>
            match sGet (getN h id).children (2 * j) with
            | Slot.node c => lenImpl fuel h c
            | _ => 0)).sum) := rfl

/-- A parsed leaf holds two non-None slots per entry plus one for the
sibling pointer when present. -/
theorem leafShape_countP {V : Type} (cs : List (Slot V)) :
    ∀ (es : List (ℤ × V)) (sib : Option ℕ), leafShape cs = some (es, sib) →
      cs.countP (fun s => !s.isNone) =
        2 * es.length + (match sib with
          | some _ => 1
          | Option.none => 0) := by
  induction cs using leafShape.induct with
  | case1 =>
    intro es sib hp
    simp [leafShape] at hp
    obtain ⟨h1, h2⟩ := hp
    subst h1; subst h2
    simp
  | case2 rest hall =>
    intro es sib hp
    simp [leafShape, hall] at hp
    obtain ⟨h1, h2⟩ := hp
    subst h1; subst h2
    have hz : rest.countP (fun s => !s.isNone) = 0 := by
      rw [List.countP_eq_zero]
      intro s hs
      rw [(isNone_iff s).mp (List.all_eq_true.mp hall s hs)]
      simp [Slot.isNone]
    rw [List.countP_cons, hz]
    simp [Slot.isNone]
  | case3 rest hall =>
    intro es sib hp
    simp [leafShape, hall] at hp
  | case4 s0 rest hall =>
    intro es sib hp
    simp [leafShape, hall] at hp
    obtain ⟨h1, h2⟩ := hp
    subst h1; subst h2
    have hz : rest.countP (fun s => !s.isNone) = 0 := by
      rw [List.countP_eq_zero]
      intro s hs
      rw [(isNone_iff s).mp (List.all_eq_true.mp hall s hs)]
      simp [Slot.isNone]
    rw [List.countP_cons, hz]
    simp [Slot.isNone]
  | case5 s0 rest hall =>
    intro es sib hp
    simp [leafShape, hall] at hp
  | case6 v0 k0 rest es2 sib2 hrest ih =>
    intro es sib hp
    simp only [leafShape, hrest] at hp
    have h1 : (k0, v0) :: es2 = es := congrArg Prod.fst (Option.some.inj hp)
    have h2 : sib2 = sib := congrArg Prod.snd (Option.some.inj hp)
    subst h1; subst h2
    rw [List.countP_cons, List.countP_cons, ih es2 sib2 hrest]
    cases sib2 <;> simp [Slot.isNone] <;> ring
  | case7 v0 k0 rest hrest ih =>
    intro es sib hp
    simp [leafShape, hrest] at hp
  | case8 t h1 h2 h3 h4 =>
    intro es sib hp
    match t, hp with
    | [], hp => exact absurd rfl h1
    | Slot.none :: rest, hp => exact absurd rfl (h2 rest)
    | Slot.node s :: rest, hp => exact absurd rfl (h3 s rest)
    | Slot.key k :: rest, hp => simp [leafShape] at hp
    | [Slot.val v], hp => simp [leafShape] at hp
    | Slot.val v :: Slot.none :: rest, hp => simp [leafShape] at hp
    | Slot.val v :: Slot.node s :: rest, hp => simp [leafShape] at hp
    | Slot.val v :: Slot.val v2 :: rest, hp => simp [leafShape] at hp
    | Slot.val v :: Slot.key k :: rest, hp => exact absurd rfl (h4 v k rest)

/-- A well-formed child subtree has nonzero length as computed by
__len__, hence is truthy. -/
theorem lenImpl_pos {V : Type} (h : Heap V) (b : ℕ) (hb : 1 ≤ b) :
    ∀ (fuel id pid : ℕ) (lo hi : Option ℤ),
      wfN h b fuel id (some pid) lo hi = true → lenImpl fuel h id ≠ 0
  | 0, id, pid, lo, hi, hwf => by simp [wfN] at hwf
  | fuel + 1, id, pid, lo, hi, hwf => by
    by_cases hleaf : is_leaf (getN h id)
    · obtain ⟨_, hbb, _, _, es, sib, hshape, _, _, hmin⟩ :=
        wfN_leaf_facts hwf hleaf
      have hmin2 : (b + 1) / 2 ≤ es.length := by
        rcases hmin with hpn | hm
        · simp at hpn
        · exact hm
      have hcount := leafShape_countP (getN h id).children es sib hshape
      rw [lenImpl_succ]
      simp only [if_pos hleaf]
      rw [hcount]
      have hge : 1 ≤ es.length := by omega
      cases sib with
      | some s =>
        show (2 * es.length + 1) / 2 ≠ 0
        omega
      | none =>
        show (2 * es.length + 0) / 2 ≠ 0
        omega
    · obtain ⟨_, hbb, _, _, ks, cs, hshape, _, hk1, _, _, hwc⟩ :=
        wfN_internal_facts hwf (by simpa using hleaf)
      obtain ⟨hclen, hget⟩ := wfChildren_get cs ks lo hi hwc
      cases cs with
      | nil => simp at hclen
      | cons c0 cs2 =>
        have hwf0 := hget 0 c0 rfl
        rw [if_pos rfl, if_neg (by omega)] at hwf0
        obtain ⟨ihC, _, _, _⟩ :=
          internalShape_layout (getN h id).children ks (c0 :: cs2) hshape
        have hslot := ihC 0 c0 rfl
        have hlen0 := lenImpl_pos h b hb fuel c0 id lo
          (some (ks.getD 0 0)) hwf0
        rw [lenImpl_succ, if_neg (by simp [hleaf]), hbb,
          List.range_succ_eq_map]
        simp only [List.map_cons, List.sum_cons, Nat.mul_zero, hslot]
        intro h0
        exact hlen0 (by omega)

theorem inBnd_mk {lo hi : Option ℤ} {k : ℤ}
    (hl : ∀ a, lo = some a → a ≤ k) (hr : ∀ z, hi = some z → k < z) :
    inBnd lo hi k = true := by
  rw [inBnd.eq_def, Bool.and_eq_true]
  constructor
  · match lo with
    | Option.none => rfl
    | some a => simpa using hl a rfl
  · match hi with
    | Option.none => rfl
    | some z => simpa using hr z rfl

/-- Keys of a well-formed subtree lie inside its responsibility
interval. -/
theorem toListF_bounds {V : Type} (h : Heap V) (b : ℕ) :
    ∀ (fuel id : ℕ) (par : Option ℕ) (lo hi : Option ℤ),
      wfN h b fuel id par lo hi = true →
      ∀ k v, (k, v) ∈ toListF fuel h id → inBnd lo hi k = true
  | 0, id, par, lo, hi, hwf => by simp [wfN] at hwf
  | fuel + 1, id, par, lo, hi, hwf => by
    intro k v hmem
    by_cases hleaf : is_leaf (getN h id)
    · obtain ⟨_, _, _, _, es, sib, hshape, hkok, _, _⟩ :=
        wfN_leaf_facts hwf hleaf
      rw [toListF_succ, if_pos hleaf, hshape] at hmem
      exact keysOk_mem hkok k (List.mem_map_of_mem Prod.fst hmem)
    · obtain ⟨_, _, _, _, ks, cs, hshape, hkok, hk1, _, _, hwc⟩ :=
        wfN_internal_facts hwf (by simpa using hleaf)
      rw [toListF_succ, if_neg (by simp [hleaf]), hshape] at hmem
      have aux : ∀ (cs2 : List ℕ) (ks2 : List ℤ) (lo2 hi2 : Option ℤ),
          wfChildren (fun c lo3 hi3 => wfN h b fuel c (some id) lo3 hi3)
            cs2 ks2 lo2 hi2 = true →
          (∀ k2 ∈ ks2, inBnd lo2 hi2 k2 = true) →
          List.Pairwise (· < ·) ks2 →
          ∀ k3 v3, (k3, v3) ∈ (cs2.map (fun c => toListF fuel h c)).flatten →
            inBnd lo2 hi2 k3 = true := by
        intro cs2
        induction cs2 with
        | nil =>
          intro ks2 lo2 hi2 hwc2
          cases ks2 <;> simp [wfChildren] at hwc2
        | cons c0 cs3 ih =>
          intro ks2 lo2 hi2 hwc2 hkb hpw k3 v3 hm
          cases ks2 with
          | nil =>
            cases cs3 with
            | nil =>
              have hw0 : wfN h b fuel c0 (some id) lo2 hi2 = true := by
                simpa [wfChildren] using hwc2
              exact toListF_bounds h b fuel c0 (some id) lo2 hi2 hw0 k3 v3
                (by simpa using hm)
            | cons c1 cs4 => simp [wfChildren] at hwc2
          | cons k0 ks3 =>
            rw [wfChildren, Bool.and_eq_true] at hwc2
            obtain ⟨hw0, hwrest⟩ := hwc2
            simp only [List.map_cons, List.flatten_cons, List.mem_append]
              at hm
            rcases hm with hm | hm
            · have hin := toListF_bounds h b fuel c0 (some id) lo2 (some k0)
                hw0 k3 v3 hm
              exact inBnd_weaken_hi hin (hkb k0 (List.mem_cons_self k0 ks3))
            · have htail := ih ks3 (some k0) hi2 hwrest
                (fun k2 hk2 => inBnd_mk
                  (fun a ha => by
                    have hlt : k0 < k2 :=
                      (List.pairwise_cons.mp hpw).1 k2 hk2
                    have hak : k0 = a := by injection ha
                    omega)
                  (fun z hz =>
                    inBnd_upper (hkb k2 (List.mem_cons_of_mem k0 hk2)) z hz))
                (List.pairwise_cons.mp hpw).2 k3 v3 hm
              exact inBnd_weaken_lo htail (hkb k0 (List.mem_cons_self k0 ks3))
      exact aux cs ks lo hi hwc (keysOk_mem hkok)
        (List.chain'_iff_pairwise.mp (keysOk_chain hkok)) k v hmem

theorem get?_eq_some_getD {A : Type} :
    ∀ (l : List A) (n : ℕ) (d : A), n < l.length →
      l.get? n = some (l.getD n d)
  | [], n, d, hn => by simp at hn
  | _ :: _, 0, _, _ => rfl
  | _ :: l, n + 1, d, hn => get?_eq_some_getD l n d (by simpa using hn)

theorem pairwise_get?_inj {ks : List ℤ}
    (hpw : List.Pairwise (· < ·) ks) {i j : ℕ} {k : ℤ}
    (hi : ks.get? i = some k) (hj : ks.get? j = some k) : i = j := by
  by_contra hne
  have hp := List.pairwise_iff_get.mp hpw
  rcases Nat.lt_or_ge i j with hlt | hge
  · have hjlen : j < ks.length := by
      by_contra hc
      rw [List.get?_eq_none.mpr (by omega)] at hj
      cases hj
    have hilen : i < ks.length := by omega
    have := hp ⟨i, hilen⟩ ⟨j, hjlen⟩ hlt
    rw [List.get?_eq_get hilen] at hi
    rw [List.get?_eq_get hjlen] at hj
    have h1 : ks.get ⟨i, hilen⟩ = k := by injection hi
    have h2 : ks.get ⟨j, hjlen⟩ = k := by injection hj
    rw [h1, h2] at this
    omega
  · have hlt : j < i := by omega
    have hilen : i < ks.length := by
      by_contra hc
      rw [List.get?_eq_none.mpr (by omega)] at hi
      cases hi
    have hjlen : j < ks.length := by omega
    have := hp ⟨j, hjlen⟩ ⟨i, hilen⟩ hlt
    rw [List.get?_eq_get hilen] at hi
    rw [List.get?_eq_get hjlen] at hj
    have h1 : ks.get ⟨i, hilen⟩ = k := by injection hi
    have h2 : ks.get ⟨j, hjlen⟩ = k := by injection hj
    rw [h1, h2] at this
    omega

/-- On a well-formed internal node, search descends into the child at
the routed position: the child left of separator r carries keys at most
key (strictly below except possibly the matched separator), every key
from separator r on is strictly greater, and one step of search equals
search in that child. -/
theorem search_route {V : Type} {h : Heap V} {b fuel id : ℕ}
    {par : Option ℕ} {lo hi : Option ℤ} (hb : 1 ≤ b) (key : ℤ)
    (hwf : wfN h b (fuel + 1) id par lo hi = true)
    (hleaf : is_leaf (getN h id) = false) :
    ∃ ks cs r c,
      internalShape (getN h id).children = some (ks, cs) ∧
      wfChildren (fun c2 lo2 hi2 => wfN h b fuel c2 (some id) lo2 hi2)
        cs ks lo hi = true ∧
      r ≤ ks.length ∧ cs.get? r = some c ∧
      sGet (getN h id).children
        (if indexF (getN h id) key % 2 = 1 then indexF (getN h id) key + 1
         else indexF (getN h id) key) = Slot.node c ∧
      (∀ j k2, ks.get? j = some k2 →
        (j < r → k2 ≤ key) ∧ (r ≤ j → key < k2)) ∧
      search (fuel + 1) h id key = search fuel h c key ∧
      (∀ value : Slot V, value.isNode = false →
        insert (fuel + 1) h id key value = insert fuel h c key value) ∧
      (∀ ek, get_range (fuel + 1) h id (some key) ek =
        get_range fuel h c (some key) ek) := by
  obtain ⟨_, hbb, _, _, ks, cs, hshape, hkok, hk1, hkb, _, hwc⟩ :=
    wfN_internal_facts hwf (by simpa using hleaf)
  obtain ⟨hlayC, hlayK, hclen, _⟩ :=
    internalShape_layout (getN h id).children ks cs hshape
  have hpw := List.chain'_iff_pairwise.mp (keysOk_chain hkok)
  have hIdx : indexF (getN h id) key = idxSpec key ks := by
    apply indexF_keys
    · exact fun j k hj => hlayK j k hj
    · intro hlt
      have := (internalShape_layout (getN h id).children ks cs hshape).2.2.2
      exact this (2 * ks.length + 1) (by omega)
    · omega
  obtain ⟨hclen2, hcget⟩ := wfChildren_get cs ks lo hi hwc
  by_cases hmem : key ∈ ks
  · obtain ⟨j, hj, hspec, hsides⟩ := idxSpec_mem hpw hmem
    have hjlen : j < ks.length := by
      by_contra hc
      rw [List.get?_eq_none.mpr (by omega)] at hj
      cases hj
    have hrlen : j + 1 < cs.length := by omega
    have hcex : ∃ c, cs.get? (j + 1) = some c := by
      rw [List.get?_eq_get hrlen]
      exact ⟨_, rfl⟩
    obtain ⟨c, hc⟩ := hcex
    have hIdx2 : indexF (getN h id) key = 2 * j + 1 := by rw [hIdx, hspec]
    have hFif : sGet (getN h id).children
        (if indexF (getN h id) key % 2 = 1 then indexF (getN h id) key + 1
         else indexF (getN h id) key) = Slot.node c := by
      rw [hIdx2, if_pos (by omega)]
      have harith : 2 * j + 1 + 1 = 2 * (j + 1) := by ring
      rw [harith]
      exact hlayC (j + 1) c hc
    have hwfc := hcget (j + 1) c hc
    rw [if_neg (by omega)] at hwfc
    have hlen : lenImpl fuel h c ≠ 0 :=
      lenImpl_pos h b hb fuel c id _ _ hwfc
    have htr : truthy fuel h (Slot.node c : Slot V) = true := by
      simp [truthy, hlen]
    have hjcex : ∃ cj, cs.get? j = some cj := by
      rw [List.get?_eq_get (show j < cs.length by omega)]
      exact ⟨_, rfl⟩
    obtain ⟨cj, hcj⟩ := hjcex
    have hH : ¬(indexF (getN h id) key % 2 = 1 ∧
        ¬(sGet (getN h id).children
          (indexF (getN h id) key - 1)).isNode = true) := by
      rw [hIdx2]
      rintro ⟨_, hn⟩
      apply hn
      have harith : 2 * j + 1 - 1 = 2 * j := by omega
      rw [harith, hlayC j cj hcj]
      rfl
    refine ⟨ks, cs, j + 1, c, hshape, hwc, by omega, hc, hFif, ?_, ?_, ?_,
      ?_⟩
    · intro j2 k2 hj2
      constructor
      · intro hlt2
        rcases Nat.lt_or_ge j2 j with hlt3 | hge3
        · exact le_of_lt ((hsides j2 k2 hj2).1 hlt3)
        · have hj2j : j2 = j := by omega
          subst hj2j
          rw [hj] at hj2
          have : key = k2 := by injection hj2
          omega
      · intro hge2
        exact (hsides j2 k2 hj2).2 (by omega)
    · rw [search_succ, if_neg (by simp [hleaf]), hFif, if_pos htr]
    · intro value hval
      rw [insert_succ, if_neg hH, if_neg (by simp [hleaf, hval]), hFif]
    · intro ek
      rw [get_range_succ]
      have hred : (match (some key : Option ℤ) with
          | some sk => indexF (getN h id) sk
          | Option.none => 0) = indexF (getN h id) key := rfl
      rw [if_neg (by simp [hleaf]), hred, hFif]
  · obtain ⟨cnt, hcle, hspec, hsides⟩ := idxSpec_not_mem hpw hmem
    have hrlen : cnt < cs.length := by omega
    have hcex : ∃ c, cs.get? cnt = some c := by
      rw [List.get?_eq_get hrlen]
      exact ⟨_, rfl⟩
    obtain ⟨c, hc⟩ := hcex
    have hIdx2 : indexF (getN h id) key = 2 * cnt := by rw [hIdx, hspec]
    have hFif : sGet (getN h id).children
        (if indexF (getN h id) key % 2 = 1 then indexF (getN h id) key + 1
         else indexF (getN h id) key) = Slot.node c := by
      rw [hIdx2, if_neg (by omega)]
      exact hlayC cnt c hc
    have hwfc := hcget cnt c hc
    have hlen : lenImpl fuel h c ≠ 0 := by
      by_cases hz : cnt = 0
      · subst hz
        rw [if_pos rfl] at hwfc
        exact lenImpl_pos h b hb fuel c id _ _ hwfc
      · rw [if_neg hz] at hwfc
        exact lenImpl_pos h b hb fuel c id _ _ hwfc
    have htr : truthy fuel h (Slot.node c : Slot V) = true := by
      simp [truthy, hlen]
    have hH : ¬(indexF (getN h id) key % 2 = 1 ∧
        ¬(sGet (getN h id).children
          (indexF (getN h id) key - 1)).isNode = true) := by
      rw [hIdx2]
      rintro ⟨h1, _⟩
      omega
    refine ⟨ks, cs, cnt, c, hshape, hwc, hcle, hc, hFif, ?_, ?_, ?_, ?_⟩
    · intro j2 k2 hj2
      exact ⟨fun hlt2 => le_of_lt ((hsides j2 k2 hj2).1 hlt2),
        fun hge2 => (hsides j2 k2 hj2).2 hge2⟩
    · rw [search_succ, if_neg (by simp [hleaf]), hFif, if_pos htr]
    · intro value hval
      rw [insert_succ, if_neg hH, if_neg (by simp [hleaf, hval]), hFif]
    · intro ek
      rw [get_range_succ]
      have hred : (match (some key : Option ℤ) with
          | some sk => indexF (getN h id) sk
          | Option.none => 0) = indexF (getN h id) key := rfl
      rw [if_neg (by simp [hleaf]), hred, hFif]

theorem mem_map_fst {A B : Type} {l : List (A × B)} {k : A} :
    k ∈ l.map Prod.fst ↔ ∃ v, (k, v) ∈ l := by
  constructor
  · intro hm
    obtain ⟨p, hp, he⟩ := List.mem_map.mp hm
    exact ⟨p.2, by
      obtain ⟨a, b2⟩ := p
      simp at he
      subst he
      exact hp⟩
  · intro ⟨v, hv⟩
    exact List.mem_map.mpr ⟨(k, v), hv, rfl⟩

/-- On a well-formed subtree, search returns exactly the stored value of
a present key. -/
theorem search_found {V : Type} (h : Heap V) (b : ℕ) (hb : 1 ≤ b) :
    ∀ (fuel id : ℕ) (par : Option ℕ) (lo hi : Option ℤ) (key : ℤ) (v : V),
      wfN h b fuel id par lo hi = true →
      (key, v) ∈ toListF fuel h id →
      search fuel h id key = Except.ok (Slot.val v)
  | 0, id, par, lo, hi, key, v, hwf, _ => by simp [wfN] at hwf
  | fuel + 1, id, par, lo, hi, key, v, hwf, hmem => by
    by_cases hleaf : is_leaf (getN h id)
    · obtain ⟨_, hbb, _, _, es, sib, hshape, hkok, hml, _⟩ :=
        wfN_leaf_facts hwf hleaf
      obtain ⟨hent, hsib, htail⟩ :=
        leafShape_layout (getN h id).children es sib hshape
      have hpw := List.chain'_iff_pairwise.mp (keysOk_chain hkok)
      have hIdx : indexF (getN h id) key = idxSpec key (es.map Prod.fst) := by
        apply indexF_keys
        · intro j k hj
          rw [List.get?_map] at hj
          match hej : es.get? j with
          | Option.none => rw [hej] at hj; cases hj
          | some (k2, v2) =>
            rw [hej] at hj
            simp at hj
            subst hj
            exact (hent j k2 v2 hej).2
        · intro _
          exact htail (2 * (es.map Prod.fst).length + 1) (by simp)
        · rw [hbb]; simpa using hml
      have hlist : toListF (fuel + 1) h id = es := by
        rw [toListF_succ, if_pos hleaf, hshape]
      rw [hlist] at hmem
      obtain ⟨j0, hj0⟩ := List.mem_iff_get?.mp hmem
      have hkmem : key ∈ es.map Prod.fst :=
        List.mem_map_of_mem Prod.fst hmem
      obtain ⟨j, hj, hspec, _⟩ := idxSpec_mem hpw hkmem
      have hj0m : (es.map Prod.fst).get? j0 = some key := by
        rw [List.get?_map, hj0]; rfl
      have hjj : j = j0 := pairwise_get?_inj hpw hj hj0m
      subst hjj
      rw [search_succ, if_pos hleaf, hIdx, hspec]
      rw [if_pos (by omega)]
      have harith : 2 * j + 1 - 1 = 2 * j := by omega
      rw [harith]
      rw [(hent j key v hj0).1]
      simp [Slot.isNode]
    · obtain ⟨ks, cs, r, c, hshape, hwc, hrle, hc, _, hsides, heq, _, _⟩ :=
        search_route hb key hwf (by simpa using hleaf)
      obtain ⟨hclen, hcget⟩ := wfChildren_get cs ks lo hi hwc
      rw [toListF_succ, if_neg (by simp [hleaf]), hshape] at hmem
      obtain ⟨l2, hl2, hmem2⟩ := List.mem_flatten.mp hmem
      obtain ⟨q, hq⟩ := List.mem_iff_get?.mp hl2
      have hq2 : ∃ c2, cs.get? q = some c2 ∧ l2 = toListF fuel h c2 := by
        rw [List.get?_map] at hq
        match hcq : cs.get? q with
        | Option.none => rw [hcq] at hq; cases hq
        | some c2 =>
          rw [hcq] at hq
          simp at hq
          exact ⟨c2, rfl, hq.symm⟩
      obtain ⟨c2, hcq, hl2e⟩ := hq2
      subst hl2e
      have hqlen : q < cs.length := by
        by_contra hcon
        rw [List.get?_eq_none.mpr (by omega)] at hcq
        cases hcq
      have hbnd := toListF_bounds h b fuel c2 (some id) _ _
        (hcget q c2 hcq) key v hmem2
      have hqr : q = r := by
        by_contra hne
        rcases Nat.lt_or_ge q r with hlt | hge
        · have hqm : q < ks.length := by omega
          have hup := inBnd_upper hbnd (ks.getD q 0) (by rw [if_neg (by omega)])
          have hksq := get?_eq_some_getD ks q 0 hqm
          have := (hsides q (ks.getD q 0) hksq).1 hlt
          omega
        · have hgt : r < q := by omega
          have hq1m : q - 1 < ks.length := by omega
          have hlow := inBnd_lower hbnd (ks.getD (q - 1) 0)
            (by rw [if_neg (by omega)])
          have hksq := get?_eq_some_getD ks (q - 1) 0 hq1m
          have := (hsides (q - 1) (ks.getD (q - 1) 0) hksq).2 (by omega)
          omega
      subst hqr
      have hcc : c2 = c := by
        rw [hcq] at hc
        injection hc
      subst hcc
      rw [heq]
      exact search_found h b hb fuel c2 (some id) _ _ key v
        (hcget q c2 hcq) hmem2

/-- On a well-formed subtree, search raises KeyError for an absent
key. -/
theorem search_missing {V : Type} (h : Heap V) (b : ℕ) (hb : 1 ≤ b) :
    ∀ (fuel id : ℕ) (par : Option ℕ) (lo hi : Option ℤ) (key : ℤ),
      wfN h b fuel id par lo hi = true →
      key ∉ (toListF fuel h id).map Prod.fst →
      search fuel h id key = Except.error PyErr.keyError
  | 0, id, par, lo, hi, key, hwf, _ => by simp [wfN] at hwf
  | fuel + 1, id, par, lo, hi, key, hwf, hmem => by
    by_cases hleaf : is_leaf (getN h id)
    · obtain ⟨_, hbb, _, _, es, sib, hshape, hkok, hml, _⟩ :=
        wfN_leaf_facts hwf hleaf
      obtain ⟨hent, hsib, htail⟩ :=
        leafShape_layout (getN h id).children es sib hshape
      have hpw := List.chain'_iff_pairwise.mp (keysOk_chain hkok)
      have hIdx : indexF (getN h id) key = idxSpec key (es.map Prod.fst) := by
        apply indexF_keys
        · intro j k hj
          rw [List.get?_map] at hj
          match hej : es.get? j with
          | Option.none => rw [hej] at hj; cases hj
          | some (k2, v2) =>
            rw [hej] at hj
            simp at hj
            subst hj
            exact (hent j k2 v2 hej).2
        · intro _
          exact htail (2 * (es.map Prod.fst).length + 1) (by simp)
        · rw [hbb]; simpa using hml
      have hlist : toListF (fuel + 1) h id = es := by
        rw [toListF_succ, if_pos hleaf, hshape]
      rw [hlist] at hmem
      obtain ⟨cnt, _, hspec, _⟩ := idxSpec_not_mem hpw hmem
      rw [search_succ, if_pos hleaf, hIdx, hspec]
      rw [if_neg (by omega)]
    · obtain ⟨ks, cs, r, c, hshape, hwc, hrle, hc, _, hsides, heq, _, _⟩ :=
        search_route hb key hwf (by simpa using hleaf)
      obtain ⟨hclen, hcget⟩ := wfChildren_get cs ks lo hi hwc
      rw [heq]
      apply search_missing h b hb fuel c (some id) _ _ key (hcget r c hc)
      intro hmem2
      apply hmem
      obtain ⟨v, hv⟩ := mem_map_fst.mp hmem2
      rw [toListF_succ, if_neg (by simp [hleaf]), hshape]
      apply mem_map_fst.mpr
      refine ⟨v, List.mem_flatten.mpr ⟨toListF fuel h c, ?_, hv⟩⟩
      exact List.mem_map_of_mem (fun c2 => toListF fuel h c2)
        (List.get?_mem hc)

theorem map_fix_id {V : Type} (key : ℤ) (v2 : V) :
    ∀ (l : List (ℤ × V)), key ∉ l.map Prod.fst →
      l.map (fun e => if e.1 = key then (key, v2) else e) = l
  | [], _ => rfl
  | e0 :: l, hmem => by
    have hne : e0.1 ≠ key := by
      intro hc
      exact hmem (by rw [List.map_cons, hc]; exact List.mem_cons_self key _)
    simp only [List.map_cons, if_neg hne]
    rw [map_fix_id key v2 l (fun hc => hmem (by rw [List.map_cons]; exact List.mem_cons_of_mem _ hc))]

/-- Replacing the value of one key leaves the key column untouched. -/
theorem map_fix_fst {V : Type} (key : ℤ) (v2 : V) :
    ∀ (l : List (ℤ × V)),
      (l.map (fun e => if e.1 = key then (key, v2) else e)).map Prod.fst =
        l.map Prod.fst
  | [] => rfl
  | e :: l => by
    simp only [List.map_cons, map_fix_fst key v2 l]
    by_cases he : e.1 = key
    · rw [if_pos he]
      simp [he]
    · rw [if_neg he]

/-- On a list with strictly ascending keys holding (key, v1) at position
j, replacing the value of that key pointwise equals a positional set. -/
theorem map_fix_eq_set {V : Type} (key : ℤ) (v1 v2 : V) :
    ∀ (es : List (ℤ × V)) (j : ℕ),
      List.Pairwise (· < ·) (es.map Prod.fst) →
      es.get? j = some (key, v1) →
      es.map (fun e => if e.1 = key then (key, v2) else e) =
        es.set j (key, v2)
  | [], j, _, hj => by simp at hj
  | e0 :: es2, 0, hpw, hj => by
    have he0 : e0 = (key, v1) := by simpa using hj
    subst he0
    rw [List.map_cons, List.set_cons_zero]
    rw [List.map_cons] at hpw
    have hfree : key ∉ es2.map Prod.fst := by
      intro hc
      have := (List.pairwise_cons.mp hpw).1 key hc
      omega
    congr 1
    · simp
    · exact map_fix_id key v2 es2 hfree
  | e0 :: es2, j + 1, hpw, hj => by
    rw [List.map_cons, List.set_cons_succ]
    rw [List.map_cons] at hpw
    have hkmem : key ∈ es2.map Prod.fst :=
      mem_map_fst.mpr ⟨v1, List.get?_mem (by simpa using hj)⟩
    have hne : e0.1 ≠ key := by
      intro hc
      have := (List.pairwise_cons.mp hpw).1 key hkmem
      omega
    rw [if_neg hne, map_fix_eq_set key v1 v2 es2 j
      (List.pairwise_cons.mp hpw).2 (by simpa using hj)]

/-- Setting a new value at the position of an existing key keeps the key
column of the entry list. -/
theorem map_fst_set {V : Type} :
    ∀ (es : List (ℤ × V)) (j : ℕ) (key : ℤ) (v1 v2 : V),
      es.get? j = some (key, v1) →
      (es.set j (key, v2)).map Prod.fst = es.map Prod.fst
  | [], j, _, _, _, hj => by simp at hj
  | e :: es2, 0, key, v1, v2, hj => by
    have he : e = (key, v1) := by simpa using hj
    subst he
    rfl
  | e :: es2, j + 1, key, v1, v2, hj => by
    rw [List.set_cons_succ, List.map_cons, List.map_cons,
      map_fst_set es2 j key v1 v2 (by simpa using hj)]

/-- Overwriting the value slot of entry j rewrites the parsed leaf
layout to the same entries with entry j's value replaced. -/
theorem leafShape_set_val {V : Type} (key : ℤ) (v1 v2 : V)
    (cs : List (Slot V)) :
    ∀ (es : List (ℤ × V)) (sib : Option ℕ) (j : ℕ),
      leafShape cs = some (es, sib) →
      es.get? j = some (key, v1) →
      leafShape (cs.set (2 * j) (Slot.val v2)) =
        some (es.set j (key, v2), sib) := by
  induction cs using leafShape.induct with
  | case1 =>
    intro es sib j hp hj
    simp [leafShape] at hp
    obtain ⟨h1, h2⟩ := hp
    subst h1
    simp at hj
  | case2 rest hall =>
    intro es sib j hp hj
    simp [leafShape, hall] at hp
    obtain ⟨h1, h2⟩ := hp
    subst h1
    simp at hj
  | case3 rest hall =>
    intro es sib j hp hj
    simp [leafShape, hall] at hp
  | case4 s0 rest hall =>
    intro es sib j hp hj
    simp [leafShape, hall] at hp
    obtain ⟨h1, h2⟩ := hp
    subst h1
    simp at hj
  | case5 s0 rest hall =>
    intro es sib j hp hj
    simp [leafShape, hall] at hp
  | case6 v0 k0 rest es2 sib2 hrest ih =>
    intro es sib j hp hj
    simp only [leafShape, hrest] at hp
    have h1 : (k0, v0) :: es2 = es := congrArg Prod.fst (Option.some.inj hp)
    have h2 : sib2 = sib := congrArg Prod.snd (Option.some.inj hp)
    subst h1
    subst h2
    cases j with
    | zero =>
      have hkv : (k0, v0) = ((key : ℤ), v1) := by simpa using hj
      have hk : k0 = key := congrArg Prod.fst hkv
      show leafShape ((Slot.val v0 :: Slot.key k0 :: rest).set 0
          (Slot.val v2)) = _
      rw [List.set_cons_zero]
      simp only [leafShape, hrest]
      rw [List.set_cons_zero, hk]
    | succ j2 =>
      have hj2 : es2.get? j2 = some ((key : ℤ), v1) := by simpa using hj
      have harith : 2 * (j2 + 1) = 2 * j2 + 1 + 1 := by ring
      rw [harith, List.set_cons_succ, List.set_cons_succ]
      simp only [leafShape, ih es2 sib2 j2 hrest hj2]
      rw [List.set_cons_succ]
  | case7 v0 k0 rest hrest ih =>
    intro es sib j hp hj
    simp [leafShape, hrest] at hp
  | case8 t h1 h2 h3 h4 =>
    intro es sib j hp hj
    match t, hp with
    | [], hp => exact absurd rfl h1
    | Slot.none :: rest, hp => exact absurd rfl (h2 rest)
    | Slot.node s :: rest, hp => exact absurd rfl (h3 s rest)
    | Slot.key k :: rest, hp => simp [leafShape] at hp
    | [Slot.val v], hp => simp [leafShape] at hp
    | Slot.val v :: Slot.none :: rest, hp => simp [leafShape] at hp
    | Slot.val v :: Slot.node s :: rest, hp => simp [leafShape] at hp
    | Slot.val v :: Slot.val v2 :: rest, hp => simp [leafShape] at hp
    | Slot.val v :: Slot.key k :: rest, hp => exact absurd rfl (h4 v k rest)

/-- Positional write with an element of the same noneness keeps the
non-None slot count. -/
theorem countP_set_sameP {A : Type} (p : A → Bool) :
    ∀ (l : List A) (i : ℕ) (x a : A), l.get? i = some a → p x = p a →
      (l.set i x).countP p = l.countP p
  | [], i, x, a, hi, _ => by simp at hi
  | a0 :: l, 0, x, a, hi, hp => by
    have ha : a0 = a := by simpa using hi
    subst ha
    rw [List.set_cons_zero, List.countP_cons, List.countP_cons, hp]
  | a0 :: l, i + 1, x, a, hi, hp => by
    rw [List.set_cons_succ, List.countP_cons, List.countP_cons,
      countP_set_sameP p l i x a (by simpa using hi) hp]

theorem sGet_of_ge {V : Type} :
    ∀ (cs : List (Slot V)) (i : ℕ), cs.length ≤ i → sGet cs i = Slot.none
  | [], i, _ => sGet_nil i
  | a :: l, 0, hi => by simp at hi
  | a :: l, i + 1, hi => by
    rw [sGet_cons_succ]
    exact sGet_of_ge l i (by simpa using hi)

/-- A leaf layout with at least one entry identifies the node as a leaf:
slot 0 holds a plain value, not a child reference. -/
theorem is_leaf_of_shape {V : Type} {n : BNode V} {es : List (ℤ × V)}
    {sib : Option ℕ} (hshape : leafShape n.children = some (es, sib))
    (hne : es ≠ []) : is_leaf n = true := by
  match es, hne with
  | e0 :: es2, _ =>
    have h0 : (e0 :: es2).get? 0 = some (e0.1, e0.2) := by simp
    have hl := (leafShape_layout n.children (e0 :: es2) sib hshape).1
      0 e0.1 e0.2 h0
    rw [is_leaf]
    have h00 : sGet n.children 0 = Slot.val e0.2 := by simpa using hl.1
    rw [h00]
    rfl

/-- Header facts of a well-formed node, independent of its kind. -/
theorem wfN_basic {V : Type} {h : Heap V} {b fuel id : ℕ}
    {par : Option ℕ} {lo hi : Option ℤ}
    (hwf : wfN h b (fuel + 1) id par lo hi = true) :
    id < h.length ∧ (getN h id).b = b ∧ (getN h id).parent = par ∧
      (getN h id).children.length = 2 * b + 1 := by
  rw [wfN] at hwf
  simp only [Bool.and_eq_true, decide_eq_true_eq] at hwf
  exact ⟨hwf.1.1.1.1, hwf.1.1.1.2, hwf.1.1.2, hwf.1.2⟩

/-- Introduction rule for the well-formedness of a leaf node from its
components. -/
theorem wfN_leaf_intro {V : Type} {h : Heap V} {b fuel id : ℕ}
    {par : Option ℕ} {lo hi : Option ℤ} {es : List (ℤ × V)} {sib : Option ℕ}
    (hlf : is_leaf (getN h id) = true)
    (h1 : id < h.length) (h2 : (getN h id).b = b)
    (h3 : (getN h id).parent = par)
    (h4 : (getN h id).children.length = 2 * b + 1)
    (hshape : leafShape (getN h id).children = some (es, sib))
    (hkok : keysOk lo hi (es.map Prod.fst) = true)
    (hlen : es.length ≤ b)
    (hmin : par.isNone = true ∨ (b + 1) / 2 ≤ es.length) :
    wfN h b (fuel + 1) id par lo hi = true := by
  rw [wfN]
  simp only [Bool.and_eq_true, decide_eq_true_eq]
  refine ⟨⟨⟨⟨h1, h2⟩, h3⟩, h4⟩, ?_⟩
  rw [if_pos hlf, hshape]
  simp only [Bool.and_eq_true, decide_eq_true_eq, Bool.or_eq_true]
  refine ⟨⟨hkok, hlen⟩, ?_⟩
  rcases hmin with hp | hp
  · exact Or.inl hp
  · exact Or.inr (by simpa using hp)

/-- Introduction rule for the well-formedness of an internal node from
its components. -/
theorem wfN_internal_intro {V : Type} {h : Heap V} {b fuel id : ℕ}
    {par : Option ℕ} {lo hi : Option ℤ} {ks : List ℤ} {cs : List ℕ}
    (hlf : is_leaf (getN h id) = false)
    (h1 : id < h.length) (h2 : (getN h id).b = b)
    (h3 : (getN h id).parent = par)
    (h4 : (getN h id).children.length = 2 * b + 1)
    (hshape : internalShape (getN h id).children = some (ks, cs))
    (hkok : keysOk lo hi ks = true)
    (hk1 : 1 ≤ ks.length) (hkb : ks.length ≤ b)
    (hmin : par.isNone = true ∨ (b + 1) / 2 ≤ ks.length)
    (hwc : wfChildren (fun c lo2 hi2 => wfN h b fuel c (some id) lo2 hi2)
      cs ks lo hi = true) :
    wfN h b (fuel + 1) id par lo hi = true := by
  rw [wfN]
  simp only [Bool.and_eq_true, decide_eq_true_eq]
  refine ⟨⟨⟨⟨h1, h2⟩, h3⟩, h4⟩, ?_⟩
  rw [if_neg (by simp [hlf]), hshape]
  simp only [Bool.and_eq_true, decide_eq_true_eq, Bool.or_eq_true]
  refine ⟨⟨⟨⟨hkok, hk1⟩, hkb⟩, ?_⟩, hwc⟩
  rcases hmin with hp | hp
  · exact Or.inl hp
  · exact Or.inr (by simpa using hp)

/-- Rebuilding the child well-formedness tests of an internal node: it
suffices to transform each child's test at its own positional
interval. -/
theorem wfChildren_pos_update {wfn wfn2 : ℕ → Option ℤ → Option ℤ → Bool} :
    ∀ (cs : List ℕ) (ks : List ℤ) (lo hi : Option ℤ),
      wfChildren wfn cs ks lo hi = true →
      (∀ r c, cs.get? r = some c →
        wfn c (if r = 0 then lo else some (ks.getD (r - 1) 0))
          (if r = ks.length then hi else some (ks.getD r 0)) = true →
        wfn2 c (if r = 0 then lo else some (ks.getD (r - 1) 0))
          (if r = ks.length then hi else some (ks.getD r 0)) = true) →
      wfChildren wfn2 cs ks lo hi = true
  | [], [], lo, hi, hwc, _ => by simp [wfChildren] at hwc
  | [c0], [], lo, hi, hwc, hupd => by
    have h0 := hupd 0 c0 rfl
    simp at h0
    rw [wfChildren] at hwc ⊢
    exact h0 hwc
  | c0 :: c1 :: cs2, [], lo, hi, hwc, _ => by simp [wfChildren] at hwc
  | [], k0 :: ks2, lo, hi, hwc, _ => by simp [wfChildren] at hwc
  | [c0], k0 :: ks2, lo, hi, hwc, _ => by simp [wfChildren] at hwc
  | c0 :: c1 :: cs2, k0 :: ks2, lo, hi, hwc, hupd => by
    rw [wfChildren, Bool.and_eq_true] at hwc ⊢
    refine ⟨?_, ?_⟩
    · have h0 := hupd 0 c0 rfl
      simp at h0
      exact h0 hwc.1
    · apply wfChildren_pos_update (c1 :: cs2) ks2 (some k0) hi hwc.2
      intro r c hr hw
      have hr1 := hupd (r + 1) c (by simpa using hr)
      have hlo : (if r + 1 = 0 then lo
          else some ((k0 :: ks2).getD (r + 1 - 1) 0)) =
          (if r = 0 then some k0 else some (ks2.getD (r - 1) 0)) := by
        cases r with
        | zero => simp
        | succ r3 => simp
      have hhi : (if r + 1 = (k0 :: ks2).length then hi
          else some ((k0 :: ks2).getD (r + 1) 0)) =
          (if r = ks2.length then hi else some (ks2.getD r 0)) := by
        by_cases he : r = ks2.length
        · simp [he]
        · rw [if_neg (by simpa using he), if_neg he]
          simp
      rw [hlo, hhi] at hr1
      exact hr1 hw

/-- Only the routed child of an internal node can hold the searched
key: every other child's interval excludes it. -/
theorem routed_only {V : Type} {h : Heap V} {b fuel id : ℕ}
    {ks : List ℤ} {cs : List ℕ} {lo hi : Option ℤ} {key : ℤ} {r : ℕ}
    (hwc : wfChildren (fun c2 lo2 hi2 => wfN h b fuel c2 (some id) lo2 hi2)
      cs ks lo hi = true)
    (hrle : r ≤ ks.length)
    (hsides : ∀ j k2, ks.get? j = some k2 →
      (j < r → k2 ≤ key) ∧ (r ≤ j → key < k2)) :
    ∀ q c2, cs.get? q = some c2 → q ≠ r →
      key ∉ (toListF fuel h c2).map Prod.fst := by
  obtain ⟨hclen, hcget⟩ := wfChildren_get cs ks lo hi hwc
  intro q c2 hcq hne hmem
  obtain ⟨v, hv⟩ := mem_map_fst.mp hmem
  have hqlen : q < cs.length := by
    by_contra hcon
    rw [List.get?_eq_none.mpr (by omega)] at hcq
    cases hcq
  have hbnd := toListF_bounds h b fuel c2 (some id) _ _
    (hcget q c2 hcq) key v hv
  rcases Nat.lt_or_ge q r with hlt | hge
  · have hqm : q < ks.length := by omega
    have hup := inBnd_upper hbnd (ks.getD q 0) (by rw [if_neg (by omega)])
    have hksq := get?_eq_some_getD ks q 0 hqm
    have := (hsides q (ks.getD q 0) hksq).1 hlt
    omega
  · have hgt : r < q := by omega
    have hq1m : q - 1 < ks.length := by omega
    have hlow := inBnd_lower hbnd (ks.getD (q - 1) 0)
      (by rw [if_neg (by omega)])
    have hksq := get?_eq_some_getD ks (q - 1) 0 hq1m
    have := (hsides (q - 1) (ks.getD (q - 1) 0) hksq).2 (by omega)
    omega

/-- Bound check over the flattened contents of a run of well-formed
children between separators. -/
theorem toListF_flatten_bounds {V : Type} (h : Heap V) (b : ℕ)
    (fuel id : ℕ) :
    ∀ (cs2 : List ℕ) (ks2 : List ℤ) (lo2 hi2 : Option ℤ),
      wfChildren (fun c lo3 hi3 => wfN h b fuel c (some id) lo3 hi3)
        cs2 ks2 lo2 hi2 = true →
      (∀ k2 ∈ ks2, inBnd lo2 hi2 k2 = true) →
      List.Pairwise (· < ·) ks2 →
      ∀ k3 v3, (k3, v3) ∈ (cs2.map (fun c => toListF fuel h c)).flatten →
        inBnd lo2 hi2 k3 = true := by
  intro cs2
  induction cs2 with
  | nil =>
    intro ks2 lo2 hi2 hwc2
    cases ks2 <;> simp [wfChildren] at hwc2
  | cons c0 cs3 ih =>
    intro ks2 lo2 hi2 hwc2 hkb hpw k3 v3 hm
    cases ks2 with
    | nil =>
      cases cs3 with
      | nil =>
        have hw0 : wfN h b fuel c0 (some id) lo2 hi2 = true := by
          simpa [wfChildren] using hwc2
        exact toListF_bounds h b fuel c0 (some id) lo2 hi2 hw0 k3 v3
          (by simpa using hm)
      | cons c1 cs4 => simp [wfChildren] at hwc2
    | cons k0 ks3 =>
      rw [wfChildren, Bool.and_eq_true] at hwc2
      obtain ⟨hw0, hwrest⟩ := hwc2
      simp only [List.map_cons, List.flatten_cons, List.mem_append] at hm
      rcases hm with hm | hm
      · have hin := toListF_bounds h b fuel c0 (some id) lo2 (some k0)
          hw0 k3 v3 hm
        exact inBnd_weaken_hi hin (hkb k0 (List.mem_cons_self k0 ks3))
      · have htail := ih ks3 (some k0) hi2 hwrest
          (fun k2 hk2 => inBnd_mk
            (fun a ha => by
              have hlt : k0 < k2 := (List.pairwise_cons.mp hpw).1 k2 hk2
              have hak : k0 = a := by injection ha
              omega)
            (fun z hz =>
              inBnd_upper (hkb k2 (List.mem_cons_of_mem k0 hk2)) z hz))
          (List.pairwise_cons.mp hpw).2 k3 v3 hm
        exact inBnd_weaken_lo htail (hkb k0 (List.mem_cons_self k0 ks3))

theorem map_flatten_eq {A B : Type} (f : A → B) :
    ∀ (L : List (List A)),
      (L.flatten).map f = (L.map (List.map f)).flatten
  | [] => rfl
  | l :: L => by
    rw [List.flatten_cons, List.map_append, List.map_cons,
      List.flatten_cons, map_flatten_eq f L]

theorem pairwise_flatten_intro {A : Type} {R : A → A → Prop} :
    ∀ {L : List (List A)},
      (∀ l ∈ L, l.Pairwise R) →
      L.Pairwise (fun l1 l2 => ∀ x ∈ l1, ∀ y ∈ l2, R x y) →
      (L.flatten).Pairwise R
  | [], _, _ => by simp
  | l :: L, heach, hcross => by
    rw [List.flatten_cons]
    apply List.pairwise_append.mpr
    refine ⟨heach l (List.mem_cons_self l L), pairwise_flatten_intro
      (fun l2 hl2 => heach l2 (List.mem_cons_of_mem l hl2))
      (List.pairwise_cons.mp hcross).2, ?_⟩
    intro x hx y hy
    obtain ⟨l2, hl2, hyl2⟩ := List.mem_flatten.mp hy
    exact (List.pairwise_cons.mp hcross).1 l2 hl2 x hx y hyl2

/-- Contents of a well-formed subtree are strictly ascending in the
key. -/
theorem toListF_sorted {V : Type} (h : Heap V) (b : ℕ) :
    ∀ (fuel id : ℕ) (par : Option ℕ) (lo hi : Option ℤ),
      wfN h b fuel id par lo hi = true →
      List.Pairwise (fun e1 e2 : ℤ × V => e1.1 < e2.1) (toListF fuel h id)
  | 0, id, par, lo, hi, hwf => by simp [wfN] at hwf
  | fuel + 1, id, par, lo, hi, hwf => by
    by_cases hleaf : is_leaf (getN h id)
    · obtain ⟨_, _, _, _, es, sib, hshape, hkok, _, _⟩ :=
        wfN_leaf_facts hwf hleaf
      rw [toListF_succ, if_pos hleaf, hshape]
      have hpw := List.chain'_iff_pairwise.mp (keysOk_chain hkok)
      exact List.pairwise_map.mp hpw
    · obtain ⟨_, _, _, _, ks, cs, hshape, hkok, _, _, _, hwc⟩ :=
        wfN_internal_facts hwf (by simpa using hleaf)
      rw [toListF_succ, if_neg (by simp [hleaf]), hshape]
      have hpwk := List.chain'_iff_pairwise.mp (keysOk_chain hkok)
      obtain ⟨hclen, hcget⟩ := wfChildren_get cs ks lo hi hwc
      apply pairwise_flatten_intro
      · intro l2 hl2
        obtain ⟨c2, hc2, he⟩ := List.mem_map.mp hl2
        subst he
        obtain ⟨q, hq⟩ := List.mem_iff_get?.mp hc2
        exact toListF_sorted h b fuel c2 (some id) _ _ (hcget q c2 hq)
      · have aux : ∀ (cs2 : List ℕ) (ks2 : List ℤ) (lo2 hi2 : Option ℤ),
            wfChildren (fun c lo3 hi3 => wfN h b fuel c (some id) lo3 hi3)
              cs2 ks2 lo2 hi2 = true →
            (∀ k2 ∈ ks2, inBnd lo2 hi2 k2 = true) →
            List.Pairwise (· < ·) ks2 →
            List.Pairwise
              (fun l1 l2 => ∀ x ∈ l1, ∀ y ∈ l2, (x : ℤ × V).1 < y.1)
              (cs2.map (fun c => toListF fuel h c)) := by
          intro cs2
          induction cs2 with
          | nil =>
            intro ks2 lo2 hi2 _ _ _
            simp
          | cons c0 cs3 ih =>
            intro ks2 lo2 hi2 hwc2 hkb hpw
            cases ks2 with
            | nil =>
              cases cs3 with
              | nil => simp
              | cons c1 cs4 => simp [wfChildren] at hwc2
            | cons k0 ks3 =>
              rw [wfChildren, Bool.and_eq_true] at hwc2
              obtain ⟨hw0, hwrest⟩ := hwc2
              have hkbrest : ∀ k2 ∈ ks3, inBnd (some k0) hi2 k2 = true :=
                fun k2 hk2 => inBnd_mk
                  (fun a ha => by
                    have hlt : k0 < k2 := (List.pairwise_cons.mp hpw).1 k2 hk2
                    have hak : k0 = a := by injection ha
                    omega)
                  (fun z hz =>
                    inBnd_upper (hkb k2 (List.mem_cons_of_mem k0 hk2)) z hz)
              rw [List.map_cons, List.pairwise_cons]
              constructor
              · intro l2 hl2 x hx y hy
                obtain ⟨xk, xv⟩ := x
                obtain ⟨yk, yv⟩ := y
                have hxb := toListF_bounds h b fuel c0 (some id) lo2
                  (some k0) hw0 xk xv hx
                have hxlt : xk < k0 := inBnd_upper hxb k0 rfl
                have hyb := toListF_flatten_bounds h b fuel id cs3 ks3
                  (some k0) hi2 hwrest hkbrest
                  (List.pairwise_cons.mp hpw).2 yk yv
                  (List.mem_flatten.mpr ⟨l2, hl2, hy⟩)
                have hyge : k0 ≤ yk := inBnd_lower hyb k0 rfl
                show xk < yk
                omega
              · exact ih ks3 (some k0) hi2 hwrest hkbrest
                  (List.pairwise_cons.mp hpw).2
        exact aux cs ks lo hi hwc (keysOk_mem hkok) hpwk

/-- Replacing a value slot that held a plain value leaves every __len__
count in the arena unchanged. -/
theorem lenImpl_overwrite {V : Type} (h : Heap V) (L jj : ℕ) (v1 v2 : V)
    (hL : L < h.length)
    (hslot : sGet (getN h L).children (2 * jj) = Slot.val v1) :
    ∀ (fuel id : ℕ),
      lenImpl fuel (overwriteHeap h L jj v2) id = lenImpl fuel h id := by
  have hlen2 : 2 * jj < (getN h L).children.length := by
    by_contra hc
    rw [sGet_of_ge _ _ (by omega)] at hslot
    cases hslot
  have hgetL : getN (overwriteHeap h L jj v2) L =
      { getN h L with
        children := (getN h L).children.set (2 * jj) (Slot.val v2) } := by
    rw [overwriteHeap]
    exact getN_setN_self h L _ hL
  have hs0eq : (sGet ((getN h L).children.set (2 * jj) (Slot.val v2))
      0).isNode = (sGet (getN h L).children 0).isNode := by
    by_cases hz : (0 : ℕ) = 2 * jj
    · have hslot0 : sGet (getN h L).children 0 = Slot.val v1 := by
        rw [hz]
        exact hslot
      rw [← hz, sGet_set_self _ _ _ (by omega), hslot0]
      rfl
    · rw [sGet_set_ne _ _ _ _ hz]
  have hleafrec : is_leaf ({ getN h L with
      children := (getN h L).children.set (2 * jj) (Slot.val v2) } :
        BNode V) = is_leaf (getN h L) := by
    rw [is_leaf, is_leaf]
    exact congrArg (fun b2 => !b2) hs0eq
  intro fuel
  induction fuel with
  | zero =>
    intro id
    rfl
  | succ fuel ih =>
    intro id
    by_cases hid : id = L
    · subst hid
      rw [lenImpl_succ, lenImpl_succ, hgetL, hleafrec]
      by_cases hlf : is_leaf (getN h id)
      · rw [if_pos hlf, if_pos hlf]
        have hget0 := get?_eq_some_getD (getN h id).children (2 * jj)
          Slot.none hlen2
        rw [show (getN h id).children.getD (2 * jj) Slot.none =
          Slot.val v1 from hslot] at hget0
        have hcnt := countP_set_sameP (fun s => !s.isNone)
          (getN h id).children (2 * jj) (Slot.val v2) (Slot.val v1)
          hget0 rfl
        exact congrArg (fun m => m / 2) hcnt
      · rw [if_neg hlf, if_neg hlf]
        apply congrArg List.sum
        apply List.map_congr_left
        intro j hj
        by_cases hjj : j = jj
        · rw [hjj]
          rw [show sGet ({ getN h id with
              children := (getN h id).children.set (2 * jj) (Slot.val v2) } :
                BNode V).children (2 * jj) = Slot.val v2 from
            sGet_set_self _ _ _ hlen2, hslot]
        · have hne2 : 2 * j ≠ 2 * jj := by omega
          rw [show sGet ({ getN h id with
              children := (getN h id).children.set (2 * jj) (Slot.val v2) } :
                BNode V).children (2 * j) = sGet (getN h id).children (2 * j)
            from sGet_set_ne _ _ _ _ hne2]
          cases hm : sGet (getN h id).children (2 * j) with
          | node c => exact ih c
          | none => rfl
          | key k => rfl
          | val v => rfl
    · have hgetid : getN (overwriteHeap h L jj v2) id = getN h id := by
        rw [overwriteHeap]
        exact getN_setN_ne h L id _ hid
      rw [lenImpl_succ, lenImpl_succ, hgetid]
      by_cases hlf : is_leaf (getN h id)
      · rw [if_pos hlf, if_pos hlf]
      · rw [if_neg hlf, if_neg hlf]
        apply congrArg List.sum
        apply List.map_congr_left
        intro j hj
        cases hm : sGet (getN h id).children (2 * j) with
        | node c => exact ih c
        | none => rfl
        | key k => rfl
        | val v => rfl

/-- The in-place overwrite of one leaf value slot is invisible to every
subtree that does not hold the overwritten key: its well-formedness and
its contents are unchanged. -/
theorem wfN_frame_keyfree {V : Type} (h : Heap V) (b : ℕ) (L jj : ℕ)
    (key : ℤ) (v1 v2 : V) (es0 : List (ℤ × V)) (sib0 : Option ℕ)
    (hL : L < h.length)
    (hshape0 : leafShape (getN h L).children = some (es0, sib0))
    (hent0 : es0.get? jj = some (key, v1)) :
    ∀ (fuel id : ℕ) (par : Option ℕ) (lo hi : Option ℤ),
      wfN h b fuel id par lo hi = true →
      key ∉ (toListF fuel h id).map Prod.fst →
      wfN (overwriteHeap h L jj v2) b fuel id par lo hi = true ∧
      toListF fuel (overwriteHeap h L jj v2) id = toListF fuel h id
  | 0, id, par, lo, hi, hwf, _ => by simp [wfN] at hwf
  | fuel + 1, id, par, lo, hi, hwf, hfree => by
    have hLleaf : is_leaf (getN h L) = true :=
      is_leaf_of_shape hshape0 (by
        intro hc
        rw [hc] at hent0
        simp at hent0)
    have hkeyL : key ∈ (toListF (fuel + 1) h L).map Prod.fst := by
      rw [toListF_succ, if_pos hLleaf, hshape0]
      exact mem_map_fst.mpr ⟨v1, List.get?_mem hent0⟩
    have hidL : id ≠ L := by
      intro hc
      rw [hc] at hfree
      exact hfree hkeyL
    have hrec : getN (overwriteHeap h L jj v2) id = getN h id := by
      rw [overwriteHeap]
      exact getN_setN_ne h L id _ hidL
    have hhl : (overwriteHeap h L jj v2).length = h.length := by
      rw [overwriteHeap]
      simp [setN]
    by_cases hlf : is_leaf (getN h id)
    · obtain ⟨h1, h2, h3, h4, es, sib, hshape, hkok, hlen, hmin⟩ :=
        wfN_leaf_facts hwf hlf
      refine ⟨?_, ?_⟩
      · exact wfN_leaf_intro (by rw [hrec]; exact hlf)
          (by rw [hhl]; exact h1) (by rw [hrec]; exact h2)
          (by rw [hrec]; exact h3) (by rw [hrec]; exact h4)
          (by rw [hrec]; exact hshape) hkok hlen hmin
      · rw [toListF_succ, toListF_succ, hrec, if_pos hlf, if_pos hlf]
    · obtain ⟨h1, h2, h3, h4, ks, cs, hshape, hkok, hk1, hkb, hmin, hwc⟩ :=
        wfN_internal_facts hwf (by simpa using hlf)
      obtain ⟨hclen, hcget⟩ := wfChildren_get cs ks lo hi hwc
      have hchildfree : ∀ q c2, cs.get? q = some c2 →
          key ∉ (toListF fuel h c2).map Prod.fst := by
        intro q c2 hq hm
        apply hfree
        obtain ⟨v, hv⟩ := mem_map_fst.mp hm
        rw [toListF_succ, if_neg (by simp [hlf]), hshape]
        exact mem_map_fst.mpr ⟨v, List.mem_flatten.mpr
          ⟨toListF fuel h c2,
            List.mem_map_of_mem (fun c3 => toListF fuel h c3)
              (List.get?_mem hq), hv⟩⟩
      refine ⟨?_, ?_⟩
      · refine wfN_internal_intro (by rw [hrec]; simpa using hlf)
          (by rw [hhl]; exact h1) (by rw [hrec]; exact h2)
          (by rw [hrec]; exact h3) (by rw [hrec]; exact h4)
          (by rw [hrec]; exact hshape) hkok hk1 hkb hmin ?_
        apply wfChildren_pos_update cs ks lo hi hwc
        intro r c hr hw
        exact (wfN_frame_keyfree h b L jj key v1 v2 es0 sib0 hL hshape0
          hent0 fuel c (some id) _ _ hw (hchildfree r c hr)).1
      · have hA : toListF (fuel + 1) (overwriteHeap h L jj v2) id =
            (cs.map (fun c2 => toListF fuel (overwriteHeap h L jj v2)
              c2)).flatten := by
          rw [toListF_succ, hrec, if_neg (by simp [hlf]), hshape]
        have hB : toListF (fuel + 1) h id =
            (cs.map (fun c2 => toListF fuel h c2)).flatten := by
          rw [toListF_succ, if_neg (by simp [hlf]), hshape]
        rw [hA, hB]
        apply congrArg List.flatten
        apply List.map_congr_left
        intro c2 hc2
        obtain ⟨q, hq⟩ := List.mem_iff_get?.mp hc2
        exact (wfN_frame_keyfree h b L jj key v1 v2 es0 sib0 hL hshape0
          hent0 fuel c2 (some id) _ _ (hcget q c2 hq)
          (hchildfree q c2 hq)).2

/-- Run of insert on a well-formed subtree holding the key: it descends
to the leaf with the key and rewrites that one value slot in place,
returning successfully; the resulting subtree is well formed with the
same fuel and its contents equal the old contents with the value of the
key replaced. -/
theorem insert_overwrite {V : Type} (h : Heap V) (b : ℕ) (hb : 1 ≤ b)
    (key : ℤ) (v1 v2 : V) :
    ∀ (fuel id : ℕ) (par : Option ℕ) (lo hi : Option ℤ),
      wfN h b fuel id par lo hi = true →
      (key, v1) ∈ toListF fuel h id →
      ∃ L jj es sib,
        L < h.length ∧
        leafShape (getN h L).children = some (es, sib) ∧
        es.get? jj = some (key, v1) ∧
        insert fuel h id key (Slot.val v2) =
          (Except.ok (), overwriteHeap h L jj v2) ∧
        wfN (overwriteHeap h L jj v2) b fuel id par lo hi = true ∧
        toListF fuel (overwriteHeap h L jj v2) id =
          (toListF fuel h id).map
            (fun e => if e.1 = key then (key, v2) else e)
  | 0, id, par, lo, hi, hwf, _ => by simp [wfN] at hwf
  | fuel + 1, id, par, lo, hi, hwf, hmem => by
    by_cases hleaf : is_leaf (getN h id)
    · obtain ⟨h1, hbb, h3, h4, es, sib, hshape, hkok, hml, hmin⟩ :=
        wfN_leaf_facts hwf hleaf
      obtain ⟨hent, hsib, htail⟩ :=
        leafShape_layout (getN h id).children es sib hshape
      have hpw := List.chain'_iff_pairwise.mp (keysOk_chain hkok)
      have hIdx : indexF (getN h id) key = idxSpec key (es.map Prod.fst) := by
        apply indexF_keys
        · intro j k hj
          rw [List.get?_map] at hj
          match hej : es.get? j with
          | Option.none => rw [hej] at hj; cases hj
          | some (k2, v3) =>
            rw [hej] at hj
            simp at hj
            subst hj
            exact (hent j k2 v3 hej).2
        · intro _
          exact htail (2 * (es.map Prod.fst).length + 1) (by simp)
        · rw [hbb]; simpa using hml
      have hlist : toListF (fuel + 1) h id = es := by
        rw [toListF_succ, if_pos hleaf, hshape]
      rw [hlist] at hmem
      obtain ⟨j0, hj0⟩ := List.mem_iff_get?.mp hmem
      have hkmem : key ∈ es.map Prod.fst :=
        List.mem_map_of_mem Prod.fst hmem
      obtain ⟨j, hj, hspec, _⟩ := idxSpec_mem hpw hkmem
      have hj0m : (es.map Prod.fst).get? j0 = some key := by
        rw [List.get?_map, hj0]
        rfl
      have hjj : j = j0 := pairwise_get?_inj hpw hj hj0m
      subst hjj
      have hIdx2 : indexF (getN h id) key = 2 * j + 1 := hIdx.trans hspec
      have hjlen : j < es.length := by
        by_contra hc
        rw [List.get?_eq_none.mpr (by omega)] at hj0
        cases hj0
      have hslot : sGet (getN h id).children (2 * j) = Slot.val v1 :=
        (hent j key v1 hj0).1
      have hget2 : getN (overwriteHeap h id j v2) id =
          { getN h id with
            children := (getN h id).children.set (2 * j) (Slot.val v2) } := by
        rw [overwriteHeap]
        exact getN_setN_self h id _ h1
      have hshape2 : leafShape (getN (overwriteHeap h id j v2) id).children =
          some (es.set j (key, v2), sib) := by
        rw [hget2]
        exact leafShape_set_val key v1 v2 (getN h id).children es sib j
          hshape hj0
      have hne2 : es.set j (key, v2) ≠ [] := by
        intro hc
        have hl0 : (es.set j (key, v2)).length = 0 := by rw [hc]; rfl
        rw [List.length_set] at hl0
        omega
      have hlf2 : is_leaf (getN (overwriteHeap h id j v2) id) = true :=
        is_leaf_of_shape hshape2 hne2
      refine ⟨id, j, es, sib, h1, hshape, hj0, ?_, ?_, ?_⟩
      · rw [insert_succ, if_pos ⟨by rw [hIdx2]; omega, by
          rw [hIdx2, show 2 * j + 1 - 1 = 2 * j from by omega, hslot]
          simp [Slot.isNode]⟩]
        rw [hIdx2, show 2 * j + 1 - 1 = 2 * j from by omega, overwriteHeap]
      · exact wfN_leaf_intro hlf2
          (by rw [overwriteHeap]; simp only [setN, List.length_set]
              exact h1)
          (by rw [hget2]; exact hbb) (by rw [hget2]; exact h3)
          (by rw [hget2]
              show ((getN h id).children.set (2 * j)
                (Slot.val v2)).length = 2 * b + 1
              rw [List.length_set]
              exact h4)
          hshape2
          (by rw [map_fst_set es j key v1 v2 hj0]; exact hkok)
          (by rw [List.length_set]; exact hml)
          (by rw [List.length_set]; exact hmin)
      · rw [toListF_succ, if_pos hlf2, hshape2, hlist]
        exact (map_fix_eq_set key v1 v2 es j hpw hj0).symm
    · obtain ⟨h1, h2b, h3, h4, ksF, csF, hshapeF, hkokF, hk1F, hkbF, hminF,
          hwcF⟩ := wfN_internal_facts hwf (by simpa using hleaf)
      obtain ⟨ks, cs, r, c, hshape, hwc, hrle, hc, _, hsides, _, hinsDesc,
          _⟩ := search_route hb key hwf (by simpa using hleaf)
      have hpair : (ksF, csF) = (ks, cs) :=
        Option.some.inj (hshapeF.symm.trans hshape)
      have hksF : ks = ksF := (congrArg Prod.fst hpair).symm
      have hcsF : cs = csF := (congrArg Prod.snd hpair).symm
      subst hksF
      subst hcsF
      obtain ⟨hclen, hcget⟩ := wfChildren_get cs ks lo hi hwc
      rw [toListF_succ, if_neg (by simp [hleaf]), hshape] at hmem
      obtain ⟨l2, hl2, hmem2⟩ := List.mem_flatten.mp hmem
      obtain ⟨q, hq⟩ := List.mem_iff_get?.mp hl2
      have hq2 : ∃ c2, cs.get? q = some c2 ∧ l2 = toListF fuel h c2 := by
        rw [List.get?_map] at hq
        match hcq : cs.get? q with
        | Option.none => rw [hcq] at hq; cases hq
        | some c2 =>
          rw [hcq] at hq
          simp at hq
          exact ⟨c2, rfl, hq.symm⟩
      obtain ⟨c2, hcq, hl2e⟩ := hq2
      subst hl2e
      have hqlen : q < cs.length := by
        by_contra hcon
        rw [List.get?_eq_none.mpr (by omega)] at hcq
        cases hcq
      have hbnd := toListF_bounds h b fuel c2 (some id) _ _
        (hcget q c2 hcq) key v1 hmem2
      have hqr : q = r := by
        by_contra hne
        rcases Nat.lt_or_ge q r with hlt | hge
        · have hqm : q < ks.length := by omega
          have hup := inBnd_upper hbnd (ks.getD q 0)
            (by rw [if_neg (by omega)])
          have hksq := get?_eq_some_getD ks q 0 hqm
          have := (hsides q (ks.getD q 0) hksq).1 hlt
          omega
        · have hgt : r < q := by omega
          have hq1m : q - 1 < ks.length := by omega
          have hlow := inBnd_lower hbnd (ks.getD (q - 1) 0)
            (by rw [if_neg (by omega)])
          have hksq := get?_eq_some_getD ks (q - 1) 0 hq1m
          have := (hsides (q - 1) (ks.getD (q - 1) 0) hksq).2 (by omega)
          omega
      subst hqr
      have hcc : c2 = c := by
        rw [hcq] at hc
        injection hc
      subst hcc
      obtain ⟨L, jj, es, sib, hLlt, hshapeL, hentL, hinsC, hwfC, hlistC⟩ :=
        insert_overwrite h b hb key v1 v2 fuel c2 (some id) _ _
          (hcget q c2 hcq) hmem2
      have hLleaf : is_leaf (getN h L) = true :=
        is_leaf_of_shape hshapeL (by
          intro hcn
          rw [hcn] at hentL
          simp at hentL)
      have hneidL : id ≠ L := by
        intro hcn
        rw [hcn] at hleaf
        exact hleaf hLleaf
      have hget2 : getN (overwriteHeap h L jj v2) id = getN h id := by
        rw [overwriteHeap]
        exact getN_setN_ne h L id _ hneidL
      have hlf2 : is_leaf (getN (overwriteHeap h L jj v2) id) = false := by
        rw [hget2]
        simpa using hleaf
      refine ⟨L, jj, es, sib, hLlt, hshapeL, hentL, ?_, ?_, ?_⟩
      · rw [hinsDesc (Slot.val v2) rfl]
        exact hinsC
      · refine wfN_internal_intro hlf2
          (by rw [overwriteHeap]; simp only [setN, List.length_set]
              exact h1)
          (by rw [hget2]; exact h2b) (by rw [hget2]; exact h3)
          (by rw [hget2]; exact h4) (by rw [hget2]; exact hshape)
          hkokF hk1F hkbF hminF ?_
        apply wfChildren_pos_update cs ks lo hi hwc
        intro r2 c3 hr2 hw2
        by_cases hr2r : r2 = q
        · subst hr2r
          have hcc2 : c3 = c2 := by
            rw [hr2] at hcq
            injection hcq
          subst hcc2
          exact hwfC
        · exact (wfN_frame_keyfree h b L jj key v1 v2 es sib hLlt hshapeL
            hentL fuel c3 (some id) _ _ hw2
            (routed_only hwc hrle hsides r2 c3 hr2 hr2r)).1
      · have hA : toListF (fuel + 1) (overwriteHeap h L jj v2) id =
            (cs.map (fun c3 => toListF fuel (overwriteHeap h L jj v2)
              c3)).flatten := by
          rw [toListF_succ, hget2, if_neg (by simp [hleaf]), hshape]
        have hB : toListF (fuel + 1) h id =
            (cs.map (fun c3 => toListF fuel h c3)).flatten := by
          rw [toListF_succ, if_neg (by simp [hleaf]), hshape]
        rw [hA, hB, map_flatten_eq, List.map_map]
        apply congrArg List.flatten
        apply List.map_congr_left
        intro c3 hc3
        obtain ⟨q2, hq2b⟩ := List.mem_iff_get?.mp hc3
        show toListF fuel (overwriteHeap h L jj v2) c3 =
          (toListF fuel h c3).map
            (fun e => if e.1 = key then (key, v2) else e)
        by_cases hq2r : q2 = q
        · subst hq2r
          have hcc3 : c3 = c2 := by
            rw [hq2b] at hcq
            injection hcq
          subst hcc3
          exact hlistC
        · have hkf := routed_only hwc hrle hsides q2 c3 hq2b hq2r
          rw [(wfN_frame_keyfree h b L jj key v1 v2 es sib hLlt hshapeL
            hentL fuel c3 (some id) _ _ (hcget q2 c3 hq2b) hkf).2,
            map_fix_id key v2 _ hkf]

theorem drop_of_get {A : Type} :
    ∀ (l : List A) (n : ℕ) (a : A), l.get? n = some a →
      l.drop n = a :: l.drop (n + 1)
  | [], n, a, hn => by simp at hn
  | x :: l, 0, a, hn => by
    have hx : x = a := by simpa using hn
    subst hx
    rfl
  | x :: l, n + 1, a, hn => by
    rw [List.drop_succ_cons, List.drop_succ_cons]
    exact drop_of_get l n a (by simpa using hn)

theorem flatten_map_flatten {A B : Type} (g : A → List B) :
    ∀ (Ls : List (List A)),
      (Ls.map (fun l => (l.map g).flatten)).flatten =
        ((Ls.flatten).map g).flatten
  | [] => rfl
  | l :: Ls => by
    rw [List.map_cons, List.flatten_cons, List.flatten_cons,
      List.map_append, List.flatten_append, flatten_map_flatten g Ls]

/-- Contents of a subtree equal the concatenated entries of its leaves,
left to right. -/
theorem toListF_eq_leaves {V : Type} (h : Heap V) :
    ∀ (fuel id : ℕ),
      toListF fuel h id = ((leafIds fuel h id).map (leafEntries h)).flatten
  | 0, id => rfl
  | fuel + 1, id => by
    by_cases hlf : is_leaf (getN h id)
    · rw [toListF_succ, if_pos hlf]
      have hids : leafIds (fuel + 1) h id = [id] := by
        rw [leafIds, if_pos hlf]
      rw [hids]
      simp only [List.map_cons, List.map_nil, List.flatten_cons,
        List.flatten_nil, List.append_nil, leafEntries]
    · rw [toListF_succ, if_neg (by simp [hlf])]
      have hids : leafIds (fuel + 1) h id =
          (match internalShape (getN h id).children with
           | some (_, cs) => (cs.map (fun c => leafIds fuel h c)).flatten
           | Option.none => []) := by
        rw [leafIds, if_neg (by simp [hlf])]
      rw [hids]
      match hshape : internalShape (getN h id).children with
      | Option.none => rfl
      | some (ks, cs) =>
        rw [← flatten_map_flatten (leafEntries h)
          (cs.map (fun c => leafIds fuel h c)), List.map_map]
        apply congrArg List.flatten
        apply List.map_congr_left
        intro c hc
        show toListF fuel h c =
          ((leafIds fuel h c).map (leafEntries h)).flatten
        exact toListF_eq_leaves h fuel c

/-- Every leaf of a well-formed subtree is a genuine leaf with a parsed
layout, the shared order and at most b entries. -/
theorem leaves_wf {V : Type} (h : Heap V) (b : ℕ) :
    ∀ (fuel id : ℕ) (par : Option ℕ) (lo hi : Option ℤ),
      wfN h b fuel id par lo hi = true →
      ∀ l ∈ leafIds fuel h id,
        is_leaf (getN h l) = true ∧ (getN h l).b = b ∧
        ∃ es sib, leafShape (getN h l).children = some (es, sib) ∧
          es.length ≤ b ∧ leafEntries h l = es
  | 0, id, par, lo, hi, hwf => by simp [wfN] at hwf
  | fuel + 1, id, par, lo, hi, hwf => by
    intro l hl
    by_cases hlf : is_leaf (getN h id)
    · obtain ⟨_, hbb, _, _, es, sib, hshape, _, hml, _⟩ :=
        wfN_leaf_facts hwf hlf
      have hids : leafIds (fuel + 1) h id = [id] := by
        rw [leafIds, if_pos hlf]
      rw [hids] at hl
      have hlid : l = id := by simpa using hl
      subst hlid
      exact ⟨hlf, hbb, es, sib, hshape, hml, by rw [leafEntries, hshape]⟩
    · obtain ⟨_, _, _, _, ks, cs, hshape, _, _, _, _, hwc⟩ :=
        wfN_internal_facts hwf (by simpa using hlf)
      obtain ⟨hclen, hcget⟩ := wfChildren_get cs ks lo hi hwc
      have hids : leafIds (fuel + 1) h id =
          (cs.map (fun c => leafIds fuel h c)).flatten := by
        rw [leafIds, if_neg (by simp [hlf]), hshape]
      rw [hids] at hl
      obtain ⟨l2, hl2, hml⟩ := List.mem_flatten.mp hl
      obtain ⟨c, hc, he⟩ := List.mem_map.mp hl2
      subst he
      obtain ⟨q, hq⟩ := List.mem_iff_get?.mp hc
      exact leaves_wf h b fuel c (some id) _ _ (hcget q c hq) l hml

theorem chainOk_tail {V : Type} (h : Heap V) :
    ∀ (l : ℕ) (ls : List ℕ), chainOk h (l :: ls) = true →
      chainOk h ls = true
  | l, [], _ => rfl
  | l, l2 :: ls, hc => by
    rw [chainOk, Bool.and_eq_true] at hc
    exact hc.2

theorem chainOk_append_right {V : Type} (h : Heap V) :
    ∀ (pre rest : List ℕ), chainOk h (pre ++ rest) = true →
      chainOk h rest = true
  | [], rest, hc => hc
  | p :: pre, rest, hc =>
    chainOk_append_right h pre rest (chainOk_tail h p (pre ++ rest) hc)

theorem filter_eq_takeWhile_sorted {V : Type} (ek : ℤ) :
    ∀ (l : List (ℤ × V)),
      List.Pairwise (fun e1 e2 : ℤ × V => e1.1 < e2.1) l →
      l.filter (fun e => decide (e.1 ≤ ek)) =
        l.takeWhile (fun e => decide (e.1 ≤ ek))
  | [], _ => rfl
  | e :: l, hpw => by
    by_cases he : e.1 ≤ ek
    · rw [List.filter_cons_of_pos (by simpa using he),
        List.takeWhile_cons_of_pos (by simpa using he),
        filter_eq_takeWhile_sorted ek l (List.pairwise_cons.mp hpw).2]
    · rw [List.filter_cons_of_neg (by simpa using he),
        List.takeWhile_cons_of_neg (by simpa using he)]
      apply List.filter_eq_nil.mpr
      intro a ha
      have hlt := (List.pairwise_cons.mp hpw).1 a ha
      simp only [decide_eq_true_eq]
      omega

/-- Loop characterization of walk over a parsed leaf, from entry
position t on: it collects values while keys stay at most the end bound;
if it exhausts the entries it stops at a missing sibling or hands over
to the sibling scan, otherwise it stops at the first key above the
bound. -/
theorem walk_leaf {V : Type}
    (gr : Heap V → ℕ → Option ℤ → Option ℤ → Except PyErr (List (Slot V)))
    (h : Heap V) (n : BNode V) (es : List (ℤ × V)) (sib : Option ℕ)
    (hshape : leafShape n.children = some (es, sib)) (ek : ℤ) :
    ∀ (d t : ℕ), t + d = es.length →
      ∀ (steps : ℕ) (acc : List (Slot V)), d + 2 ≤ steps →
      walk gr h n (some ek) steps (2 * t) acc =
        (if (es.drop t).all (fun e => decide (e.1 ≤ ek)) then
          match sib with
          | some s =>
            (match gr h s Option.none (some ek) with
             | Except.ok more =>
               Except.ok ((acc ++ (es.drop t).map
                 (fun e => Slot.val e.2)) ++ more)
             | Except.error e => Except.error e)
          | Option.none =>
            Except.ok (acc ++ (es.drop t).map (fun e => Slot.val e.2))
        else
          Except.ok (acc ++ ((es.drop t).takeWhile
            (fun e => decide (e.1 ≤ ek))).map (fun e => Slot.val e.2)))
  | 0, t, hlen, steps, acc, hsteps => by
    have ht : t = es.length := by omega
    subst ht
    obtain ⟨hent, hsib, htail⟩ := leafShape_layout n.children es sib hshape
    match steps, hsteps with
    | st + 1, _ =>
      rw [walk, hsib, List.drop_length]
      cases sib with
      | some s =>
        simp only [List.all_nil, if_true]
        cases hg : gr h s Option.none (some ek) with
        | ok more => simp
        | error e => rfl
      | none =>
        simp only [List.all_nil, if_true]
        simp
  | d + 1, t, hlen, steps, acc, hsteps => by
    have htlt : t < es.length := by omega
    obtain ⟨hent, hsib, htail⟩ := leafShape_layout n.children es sib hshape
    have hget : ∃ e, es.get? t = some e := by
      rw [List.get?_eq_get htlt]
      exact ⟨_, rfl⟩
    obtain ⟨⟨kt, vt⟩, hget⟩ := hget
    have hslotv : sGet n.children (2 * t) = Slot.val vt :=
      (hent t kt vt hget).1
    have hslotk : sGet n.children (2 * t + 1) = Slot.key kt :=
      (hent t kt vt hget).2
    have hdrop : es.drop t = (kt, vt) :: es.drop (t + 1) :=
      drop_of_get es t _ hget
    match steps, hsteps with
    | st + 1, hsteps =>
      rw [walk]
      simp only [hslotv, hslotk]
      by_cases hek : ek < kt
      · rw [if_pos hek]
        have hklte : ¬(kt ≤ ek) := by omega
        simp [hdrop, hklte]
      · rw [if_neg hek]
        have hkt_le : kt ≤ ek := by omega
        rw [show 2 * t + 2 = 2 * (t + 1) from by ring]
        rw [walk_leaf gr h n es sib hshape ek d (t + 1) (by omega) st
          (acc ++ [Slot.val vt]) (by omega)]
        rw [hdrop]
        have hpt : (fun e : ℤ × V => decide (e.1 ≤ ek)) ((kt : ℤ), vt) =
            true := by
          simp only [decide_eq_true_eq]
          exact hkt_le
        simp only [List.all_cons, hpt, Bool.true_and]
        by_cases hall :
            (es.drop (t + 1)).all (fun e => decide (e.1 ≤ ek)) = true
        · rw [if_pos hall, if_pos hall]
          simp only [List.map_cons, List.singleton_append,
            List.append_assoc]
        · rw [if_neg hall, if_neg hall]
          have htw : (((kt, vt) : ℤ × V) :: es.drop (t + 1)).takeWhile
              (fun e => decide (e.1 ≤ ek)) =
              (kt, vt) :: (es.drop (t + 1)).takeWhile
                (fun e => decide (e.1 ≤ ek)) := by
            rw [List.takeWhile_cons]
            simp [hpt]
          rw [htw]
          simp only [List.map_cons, List.singleton_append,
            List.append_assoc]

theorem filter_self_of_all {A : Type} (p : A → Bool) :
    ∀ (l : List A), l.all p = true → l.filter p = l
  | [], _ => rfl
  | a :: l, hall => by
    rw [List.all_cons, Bool.and_eq_true] at hall
    rw [List.filter_cons_of_pos hall.1, filter_self_of_all p l hall.2]

/-- On a leaf, get_range with no start bound scans from slot 0 with an
empty accumulator. -/
theorem get_range_none_leaf {V : Type} (fuel : ℕ) (h : Heap V) (id : ℕ)
    (ek : Option ℤ) (hlf : is_leaf (getN h id) = true) :
    get_range (fuel + 1) h id Option.none ek =
      walk (get_range fuel) h (getN h id) ek ((getN h id).b + 2) 0 [] := by
  rw [get_range_succ, if_pos hlf]
  rfl

/-- Scan of a suffix of the leaf chain: the walk started at entry t0 of
the first leaf collects, in order, the values of all remaining entries
with key at most the end bound, following sibling pointers across
leaves. -/
theorem range_suffix {V : Type} (h : Heap V) (ek : ℤ) :
    ∀ (fuel : ℕ) (l0 : ℕ) (post : List ℕ) (es0 : List (ℤ × V))
      (sib0 : Option ℕ) (t0 : ℕ) (acc : List (Slot V)),
      chainOk h (l0 :: post) = true →
      leafShape (getN h l0).children = some (es0, sib0) →
      es0.length ≤ (getN h l0).b →
      t0 ≤ es0.length →
      (∀ l ∈ post, is_leaf (getN h l) = true ∧
        ∃ es sib, leafShape (getN h l).children = some (es, sib) ∧
          es.length ≤ (getN h l).b ∧ leafEntries h l = es) →
      List.Pairwise (fun e1 e2 : ℤ × V => e1.1 < e2.1)
        (es0.drop t0 ++ (post.map (leafEntries h)).flatten) →
      post.length < fuel →
      walk (get_range fuel) h (getN h l0) (some ek) ((getN h l0).b + 2)
        (2 * t0) acc =
        Except.ok (acc ++ ((es0.drop t0 ++
          (post.map (leafEntries h)).flatten).filter
          (fun e => decide (e.1 ≤ ek))).map (fun e => Slot.val e.2))
  | 0, l0, post, es0, sib0, t0, acc, hchain, hshape, hlen, ht0, hpost,
      hsorted, hfuel => by omega
  | fuel + 1, l0, post, es0, sib0, t0, acc, hchain, hshape, hlen, ht0,
      hpost, hsorted, hfuel => by
    rw [walk_leaf (get_range (fuel + 1)) h (getN h l0) es0 sib0 hshape ek
      (es0.length - t0) t0 (by omega) ((getN h l0).b + 2) acc (by omega)]
    by_cases hall : (es0.drop t0).all (fun e => decide (e.1 ≤ ek)) = true
    · rw [if_pos hall]
      have hfself : (es0.drop t0).filter (fun e => decide (e.1 ≤ ek)) =
          es0.drop t0 := filter_self_of_all _ _ hall
      cases sib0 with
      | none =>
        cases post with
        | nil =>
          simp only [List.map_nil, List.flatten_nil, List.append_nil,
            hfself]
        | cons l1 post2 =>
          exfalso
          rw [chainOk, Bool.and_eq_true] at hchain
          have hsof : sibOf h l0 = some l1 := of_decide_eq_true hchain.1
          simp only [sibOf, hshape] at hsof
          cases hsof
      | some s =>
        cases post with
        | nil =>
          exfalso
          rw [chainOk] at hchain
          simp only [sibOf, hshape] at hchain
          simp at hchain
        | cons l1 post2 =>
          rw [chainOk, Bool.and_eq_true] at hchain
          have hsof : sibOf h l0 = some l1 := of_decide_eq_true hchain.1
          simp only [sibOf, hshape] at hsof
          have hs : l1 = s := (Option.some.inj hsof).symm
          subst hs
          obtain ⟨hl1leaf, es1, sib1, hshape1, hlen1, hent1⟩ :=
            hpost l1 (List.mem_cons_self l1 post2)
          have hpostTail : ∀ l ∈ post2, is_leaf (getN h l) = true ∧
              ∃ es sib, leafShape (getN h l).children = some (es, sib) ∧
                es.length ≤ (getN h l).b ∧ leafEntries h l = es :=
            fun l hl => hpost l (List.mem_cons_of_mem l1 hl)
          have hsortTail : List.Pairwise
              (fun e1 e2 : ℤ × V => e1.1 < e2.1)
              (es1.drop 0 ++ (post2.map (leafEntries h)).flatten) := by
            rw [List.drop_zero]
            have hp2 := (List.pairwise_append.mp hsorted).2.1
            rw [List.map_cons, List.flatten_cons, hent1] at hp2
            exact hp2
          have hrec := range_suffix h ek fuel l1 post2 es1 sib1 0 []
            hchain.2 hshape1 hlen1 (by omega) hpostTail hsortTail
            (by
              have hf2 := hfuel
              simp only [List.length_cons] at hf2
              omega)
          rw [Nat.mul_zero] at hrec
          have hgr : get_range (fuel + 1) h l1 Option.none (some ek) =
              Except.ok (((es1 ++
                (post2.map (leafEntries h)).flatten).filter
                (fun e => decide (e.1 ≤ ek))).map
                (fun e => Slot.val e.2)) := by
            rw [get_range_none_leaf fuel h l1 (some ek) hl1leaf, hrec]
            simp only [List.nil_append, List.drop_zero]
          show (match get_range (fuel + 1) h l1 Option.none (some ek) with
            | Except.ok more =>
              Except.ok ((acc ++ (es0.drop t0).map
                (fun e : ℤ × V => Slot.val e.2)) ++ more)
            | Except.error e => Except.error e) = _
          rw [hgr]
          simp only [List.map_cons, List.flatten_cons, hent1,
            List.filter_append, hfself, List.map_append, List.append_assoc]
    · rw [if_neg hall]
      have hallf : (es0.drop t0).all (fun e => decide (e.1 ≤ ek)) = false :=
        Bool.eq_false_iff.mpr hall
      obtain ⟨a0, ha0mem, ha0⟩ := List.all_eq_false.mp hallf
      have ha0gt : ek < a0.1 := by
        simp only [decide_eq_true_eq] at ha0
        omega
      have hpwA := (List.pairwise_append.mp hsorted).1
      have hcross := (List.pairwise_append.mp hsorted).2.2
      rw [List.filter_append,
        filter_eq_takeWhile_sorted ek (es0.drop t0) hpwA,
        show ((post.map (leafEntries h)).flatten).filter
            (fun e => decide (e.1 ≤ ek)) = [] from
          List.filter_eq_nil.mpr (by
            intro b2 hb2
            have hlt := hcross a0 ha0mem b2 hb2
            simp only [decide_eq_true_eq]
            omega),
        List.append_nil]

theorem mem_take_get {A : Type} :
    ∀ (l : List A) (n : ℕ) (a : A), a ∈ l.take n →
      ∃ i, i < n ∧ l.get? i = some a
  | l, 0, a, ha => by simp at ha
  | [], n + 1, a, ha => by simp at ha
  | x :: l, n + 1, a, ha => by
    rw [List.take_succ_cons] at ha
    rcases List.mem_cons.mp ha with hx | hx
    · exact ⟨0, Nat.succ_pos n, by rw [hx]; rfl⟩
    · obtain ⟨i, hi, hg⟩ := mem_take_get l n a hx
      exact ⟨i + 1, by omega, by simpa using hg⟩

theorem mem_drop_get {A : Type} :
    ∀ (l : List A) (n : ℕ) (a : A), a ∈ l.drop n →
      ∃ i, n ≤ i ∧ l.get? i = some a
  | l, 0, a, ha => by
    obtain ⟨i, hi⟩ := List.mem_iff_get?.mp (by simpa using ha)
    exact ⟨i, by omega, hi⟩
  | [], n + 1, a, ha => by simp at ha
  | x :: l, n + 1, a, ha => by
    rw [List.drop_succ_cons] at ha
    obtain ⟨i, hi, hg⟩ := mem_drop_get l n a ha
    exact ⟨i + 1, by omega, by simpa using hg⟩

/-- With no start bound, get_range descends along first children to the
leftmost leaf, which heads the subtree's leaf list. -/
theorem range_locate_none {V : Type} (h : Heap V) (b : ℕ) (hb : 1 ≤ b) :
    ∀ (fuel id : ℕ) (par : Option ℕ) (lo2 hi2 : Option ℤ),
      wfN h b fuel id par lo2 hi2 = true →
      ∃ l0 post es0 sib0 d,
        leafIds fuel h id = l0 :: post ∧
        leafShape (getN h l0).children = some (es0, sib0) ∧
        (getN h l0).b = b ∧ es0.length ≤ b ∧
        is_leaf (getN h l0) = true ∧
        d + 1 ≤ fuel ∧
        ∀ g ek, get_range (g + 1 + d) h id Option.none ek =
          get_range (g + 1) h l0 Option.none ek
  | 0, id, par, lo2, hi2, hwf => by simp [wfN] at hwf
  | fuel + 1, id, par, lo2, hi2, hwf => by
    by_cases hlf : is_leaf (getN h id)
    · obtain ⟨_, hbb, _, _, es, sib, hshape, _, hml, _⟩ :=
        wfN_leaf_facts hwf hlf
      refine ⟨id, [], es, sib, 0, ?_, hshape, hbb, hml, hlf, by omega, ?_⟩
      · rw [leafIds, if_pos hlf]
      · intro g ek
        rfl
    · obtain ⟨_, _, _, _, ks, cs, hshape, _, hk1, _, _, hwc⟩ :=
        wfN_internal_facts hwf (by simpa using hlf)
      obtain ⟨hlayC, hlayK, hclen, hpad⟩ :=
        internalShape_layout (getN h id).children ks cs hshape
      obtain ⟨hclen2, hcget⟩ := wfChildren_get cs ks lo2 hi2 hwc
      have hc0 : ∃ c0, cs.get? 0 = some c0 := by
        cases cs with
        | nil => exact absurd hclen2 (by simp)
        | cons c0 cs2 => exact ⟨c0, rfl⟩
      obtain ⟨c0, hc0⟩ := hc0
      have hslot0 : sGet (getN h id).children 0 = Slot.node c0 := by
        have hl0 := hlayC 0 c0 hc0
        simpa using hl0
      have hwf0 := hcget 0 c0 hc0
      rw [if_pos rfl, if_neg (by omega)] at hwf0
      obtain ⟨l0, post0, es0, sib0, d0, hids0, hshape0, hbb0, hml0, hlf0,
          hd0, heq0⟩ := range_locate_none h b hb fuel c0 (some id) _ _ hwf0
      refine ⟨l0, post0 ++ ((cs.drop 1).map
        (fun c => leafIds fuel h c)).flatten, es0, sib0, d0 + 1, ?_,
        hshape0, hbb0, hml0, hlf0, by omega, ?_⟩
      · have hids : leafIds (fuel + 1) h id =
            (cs.map (fun c => leafIds fuel h c)).flatten := by
          rw [leafIds, if_neg (by simp [hlf]), hshape]
        rw [hids]
        have hcs : cs = c0 :: cs.drop 1 := by
          cases cs with
          | nil => simp at hc0
          | cons ch ct =>
            have hch : ch = c0 := by simpa using hc0
            subst hch
            rfl
        conv_lhs => rw [hcs]
        rw [List.map_cons, List.flatten_cons, hids0]
        simp
      · intro g ek
        have harith : g + 1 + (d0 + 1) = g + 1 + d0 + 1 := by ring
        rw [harith, get_range_succ, if_neg (by simp [hlf])]
        show (match sGet (getN h id).children 0 with
          | Slot.node j => get_range (g + 1 + d0) h j Option.none ek
          | _ => Except.error PyErr.attrError) =
          get_range (g + 1) h l0 Option.none ek
        rw [hslot0]
        show get_range (g + 1 + d0) h c0 Option.none ek = _
        exact heq0 g ek

/-- With a start bound, get_range descends along routed children to the
leaf responsible for the bound: that leaf splits the subtree's leaf list,
all entries before position t0 of it carry keys below the bound and all
entries from t0 on (and of all later leaves) carry keys at least the
bound; the resolved index of the bound in that leaf is 2 t0 for an
absent bound and 2 t0 + 1 for an exact match. -/
theorem range_locate {V : Type} (h : Heap V) (b : ℕ) (hb : 1 ≤ b) (lo : ℤ) :
    ∀ (fuel id : ℕ) (par : Option ℕ) (lo2 hi2 : Option ℤ),
      wfN h b fuel id par lo2 hi2 = true →
      ∃ pre l0 post es0 sib0 t0 d,
        leafIds fuel h id = pre ++ l0 :: post ∧
        leafShape (getN h l0).children = some (es0, sib0) ∧
        (getN h l0).b = b ∧ es0.length ≤ b ∧
        is_leaf (getN h l0) = true ∧
        t0 ≤ es0.length ∧ d + 1 ≤ fuel ∧
        (∀ e ∈ (pre.map (leafEntries h)).flatten, e.1 < lo) ∧
        (∀ e ∈ es0.take t0, e.1 < lo) ∧
        (∀ e ∈ es0.drop t0, lo ≤ e.1) ∧
        (∀ e ∈ (post.map (leafEntries h)).flatten, lo ≤ e.1) ∧
        (idxSpec lo (es0.map Prod.fst) = 2 * t0 ∨
          (idxSpec lo (es0.map Prod.fst) = 2 * t0 + 1 ∧
            ∃ v, es0.get? t0 = some (lo, v))) ∧
        (∀ g ek, get_range (g + 1 + d) h id (some lo) ek =
          get_range (g + 1) h l0 (some lo) ek)
  | 0, id, par, lo2, hi2, hwf => by simp [wfN] at hwf
  | fuel + 1, id, par, lo2, hi2, hwf => by
    by_cases hlf : is_leaf (getN h id)
    · obtain ⟨h1, hbb, h3, h4, es, sib, hshape, hkok, hml, hmin⟩ :=
        wfN_leaf_facts hwf hlf
      have hpw := List.chain'_iff_pairwise.mp (keysOk_chain hkok)
      by_cases hmem : lo ∈ es.map Prod.fst
      · obtain ⟨j, hj, hspec, hsides⟩ := idxSpec_mem hpw hmem
        have hjlen : j < es.length := by
          by_contra hcn
          rw [List.get?_eq_none.mpr (by simp; omega)] at hj
          cases hj
        refine ⟨[], id, [], es, sib, j, 0,
          by rw [leafIds, if_pos hlf]; rfl,
          hshape, hbb, hml, hlf, by omega, by omega, ?_, ?_, ?_, ?_, ?_, ?_⟩
        · intro e he
          simp at he
        · intro e he
          obtain ⟨i, hij, hg⟩ := mem_take_get es j e he
          have hgm : (es.map Prod.fst).get? i = some e.1 := by
            rw [List.get?_map, hg]
            rfl
          exact (hsides i e.1 hgm).1 hij
        · intro e he
          obtain ⟨i, hij, hg⟩ := mem_drop_get es j e he
          have hgm : (es.map Prod.fst).get? i = some e.1 := by
            rw [List.get?_map, hg]
            rfl
          rcases Nat.eq_or_lt_of_le hij with heq | hlt
          · rw [← heq] at hgm
            rw [hj] at hgm
            have hle : lo = e.1 := Option.some.inj hgm
            omega
          · have := (hsides i e.1 hgm).2 hlt
            omega
        · intro e he
          simp at he
        · right
          refine ⟨hspec, ?_⟩
          have hjget : ∃ e, es.get? j = some e := by
            rw [List.get?_eq_get hjlen]
            exact ⟨_, rfl⟩
          obtain ⟨⟨k2, v2⟩, hg⟩ := hjget
          have hgm : (es.map Prod.fst).get? j = some k2 := by
            rw [List.get?_map, hg]
            rfl
          rw [hj] at hgm
          have hk2 : lo = k2 := Option.some.inj hgm
          exact ⟨v2, by rw [hg, ← hk2]⟩
        · intro g ek
          rfl
      · obtain ⟨cnt, hcle, hspec, hsides⟩ := idxSpec_not_mem hpw hmem
        have hclen : cnt ≤ es.length := by simpa using hcle
        refine ⟨[], id, [], es, sib, cnt, 0,
          by rw [leafIds, if_pos hlf]; rfl,
          hshape, hbb, hml, hlf, hclen, by omega, ?_, ?_, ?_, ?_, ?_, ?_⟩
        · intro e he
          simp at he
        · intro e he
          obtain ⟨i, hij, hg⟩ := mem_take_get es cnt e he
          have hgm : (es.map Prod.fst).get? i = some e.1 := by
            rw [List.get?_map, hg]
            rfl
          exact (hsides i e.1 hgm).1 hij
        · intro e he
          obtain ⟨i, hij, hg⟩ := mem_drop_get es cnt e he
          have hgm : (es.map Prod.fst).get? i = some e.1 := by
            rw [List.get?_map, hg]
            rfl
          have := (hsides i e.1 hgm).2 hij
          omega
        · intro e he
          simp at he
        · exact Or.inl hspec
        · intro g ek
          rfl
    · obtain ⟨ks, cs, r, c, hshapeR, hwc, hrle, hc, hFif, hsides, _, _, _⟩ :=
        search_route hb lo hwf (by simpa using hlf)
      obtain ⟨hclen2, hcget⟩ := wfChildren_get cs ks lo2 hi2 hwc
      obtain ⟨pre0, l0, post0, es0, sib0, t0, d0, hids0, hshape0, hbb0,
          hml0, hlf0, ht00, hd0, hpre0, htake0, hdrop0, hpost0, hidx0,
          heq0⟩ := range_locate h b hb lo fuel c (some id) _ _ (hcget r c hc)
      refine ⟨((cs.take r).map (fun c2 => leafIds fuel h c2)).flatten ++
        pre0, l0,
        post0 ++ ((cs.drop (r + 1)).map
          (fun c2 => leafIds fuel h c2)).flatten,
        es0, sib0, t0, d0 + 1, ?_, hshape0, hbb0, hml0, hlf0, ht00,
        by omega, ?_, htake0, hdrop0, ?_, hidx0, ?_⟩
      · have hids : leafIds (fuel + 1) h id =
            (cs.map (fun c2 => leafIds fuel h c2)).flatten := by
          rw [leafIds, if_neg (by simp [hlf]), hshapeR]
        rw [hids]
        have hcs : cs = cs.take r ++ c :: cs.drop (r + 1) := by
          conv_lhs => rw [← List.take_append_drop r cs]
          rw [drop_of_get cs r c hc]
        conv_lhs => rw [hcs]
        rw [List.map_append, List.flatten_append, List.map_cons,
          List.flatten_cons, hids0]
        simp [List.append_assoc]
      · intro e he
        rw [List.map_append, List.flatten_append] at he
        rcases List.mem_append.mp he with he | he
        · obtain ⟨el, hel, hee⟩ := List.mem_flatten.mp he
          obtain ⟨l, hl, helr⟩ := List.mem_map.mp hel
          subst helr
          obtain ⟨ll, hll, hlmem⟩ := List.mem_flatten.mp hl
          obtain ⟨cq, hcqm, hlr⟩ := List.mem_map.mp hll
          subst hlr
          obtain ⟨q, hqr, hq⟩ := mem_take_get cs r cq hcqm
          have hmemq : e ∈ toListF fuel h cq := by
            rw [toListF_eq_leaves]
            exact List.mem_flatten.mpr
              ⟨leafEntries h l, List.mem_map_of_mem _ hlmem, hee⟩
          obtain ⟨ekk, evv⟩ := e
          have hbnd := toListF_bounds h b fuel cq (some id) _ _
            (hcget q cq hq) ekk evv hmemq
          have hqkl : q < ks.length := by omega
          have hup := inBnd_upper hbnd (ks.getD q 0)
            (by rw [if_neg (by omega)])
          have hksq := get?_eq_some_getD ks q 0 hqkl
          have hle := (hsides q (ks.getD q 0) hksq).1 hqr
          show ekk < lo
          omega
        · exact hpre0 e he
      · intro e he
        rw [List.map_append, List.flatten_append] at he
        rcases List.mem_append.mp he with he | he
        · exact hpost0 e he
        · obtain ⟨el, hel, hee⟩ := List.mem_flatten.mp he
          obtain ⟨l, hl, helr⟩ := List.mem_map.mp hel
          subst helr
          obtain ⟨ll, hll, hlmem⟩ := List.mem_flatten.mp hl
          obtain ⟨cq, hcqm, hlr⟩ := List.mem_map.mp hll
          subst hlr
          obtain ⟨q, hqge, hq2⟩ := mem_drop_get cs (r + 1) cq hcqm
          have hmemq : e ∈ toListF fuel h cq := by
            rw [toListF_eq_leaves]
            exact List.mem_flatten.mpr
              ⟨leafEntries h l, List.mem_map_of_mem _ hlmem, hee⟩
          obtain ⟨ekk, evv⟩ := e
          have hbnd := toListF_bounds h b fuel cq (some id) _ _
            (hcget q cq hq2) ekk evv hmemq
          have hqlen : q < cs.length := by
            by_contra hcn
            rw [List.get?_eq_none.mpr (by omega)] at hq2
            cases hq2
          have hlow := inBnd_lower hbnd (ks.getD (q - 1) 0)
            (by rw [if_neg (by omega)])
          have hksq := get?_eq_some_getD ks (q - 1) 0 (by omega)
          have hgt := (hsides (q - 1) (ks.getD (q - 1) 0) hksq).2 (by omega)
          show lo ≤ ekk
          omega
      · intro g ek
        have harith : g + 1 + (d0 + 1) = g + 1 + d0 + 1 := by ring
        rw [harith, get_range_succ, if_neg (by simp [hlf])]
        show (match sGet (getN h id).children
            (if indexF (getN h id) lo % 2 = 1 then indexF (getN h id) lo + 1
             else indexF (getN h id) lo) with
          | Slot.node j => get_range (g + 1 + d0) h j (some lo) ek
          | _ => Except.error PyErr.attrError) =
          get_range (g + 1) h l0 (some lo) ek
        rw [hFif]
        show get_range (g + 1 + d0) h c (some lo) ek = _
        exact heq0 g ek

/-- Claim C3: the claim asserts that when a delete leaves a node underfull
and the combined size of the two siblings exceeds one node, the code
redistributes the contents and completes without error. In fact the
redistribution branch assigns into the node object itself instead of its
children list, so Python raises TypeError. Concretely: order 4, keys
1, 2, 3, 4, 5, 0 inserted (left leaf full with keys 0-3, right leaf with
keys 4-5), then delete(5) makes the right leaf underfull with combined
size 11 > 9 and the delete raises TypeError. -/
theorem claim_C3_delete_redistribution_raises :
    num_keys (getN tree6.heap 0) = 4 ∧ num_keys (getN tree6.heap 1) = 2 ∧
      (BPlusTree.delitem 200 tree6 5).1 = Except.error PyErr.typeError := by
  decide

/-- Claim C4: the claim asserts that a delete leaving the root with no
keys and a single child replaces the root content by the child content,
shrinking the tree by one level. The guard is_single_child_parent is
unsatisfiable (it requires children[1] to be a node and None at once), so
the collapse never happens: after inserting keys 1..5 at order 4 and
deleting 5, the two leaves merge, the root is left with zero keys and a
single child, its content differs from the child content, and the
remaining leaf still sits at depth 1. -/
theorem claim_C4_keyless_root_not_collapsed :
    (∀ (n : BNode ℕ), is_single_child_parent n = false) ∧
      ((BPlusTree.delitem 200 tree5 5).1 = Except.ok () ∧
        num_keys (getN (BPlusTree.delitem 200 tree5 5).2.heap
          (BPlusTree.delitem 200 tree5 5).2.root) = 0 ∧
        sGet (getN (BPlusTree.delitem 200 tree5 5).2.heap
          (BPlusTree.delitem 200 tree5 5).2.root).children 0 = Slot.node 0 ∧
        (getN (BPlusTree.delitem 200 tree5 5).2.heap
            (BPlusTree.delitem 200 tree5 5).2.root).children ≠
          (getN (BPlusTree.delitem 200 tree5 5).2.heap 0).children ∧
        leafDepths 100 (BPlusTree.delitem 200 tree5 5).2.heap
          (BPlusTree.delitem 200 tree5 5).2.root 0 = [1]) := by
  constructor
  · intro n
    unfold is_single_child_parent
    cases hs : sGet n.children 1 <;>
      simp [Slot.isNode, Slot.isNone, hs]
  · decide

/-- Claim C6: the claim asserts that after every interleaving of set and
delete operations all leaves are at the same depth. Inserting keys 0..49
and then deleting keys 0..28 in ascending order reaches the internal-node
redistribution path, which raises TypeError after blanking the left
internal node; the blanked node reads as a leaf at depth 1 while the
remaining true leaves are at depth 2, so the balance claim fails on this
interleaving. -/
theorem claim_C6_leaf_depths_diverge :
    (BPlusTree.delitem 200 stateC6pre 28).1 = Except.error PyErr.typeError ∧
      leafDepths 100 stateC6.heap stateC6.root 0 = [1, 2, 2, 2, 2] ∧
      ¬(∀ d1 ∈ leafDepths 100 stateC6.heap stateC6.root 0,
          ∀ d2 ∈ leafDepths 100 stateC6.heap stateC6.root 0, d1 = d2) := by
  refine ⟨by decide, by decide, ?_⟩
  intro hall
  have h1 : (1 : ℕ) ∈ leafDepths 100 stateC6.heap stateC6.root 0 := by
    have he : leafDepths 100 stateC6.heap stateC6.root 0 = [1, 2, 2, 2, 2] := by
      decide
    rw [he]; simp
  have h2 : (2 : ℕ) ∈ leafDepths 100 stateC6.heap stateC6.root 0 := by
    have he : leafDepths 100 stateC6.heap stateC6.root 0 = [1, 2, 2, 2, 2] := by
      decide
    rw [he]; simp
  exact absurd (hall 1 h1 2 h2) (by decide)

/-- Claim C8: the claim asserts that on the order-4 tree with keys 0..49
and values data_i, range(12, 19) returns the seven values
data_13 .. data_19. Key 12 is present, the lower bound is an exact match
and its value is included: the scan actually returns the eight values
data_12 .. data_19, so the claimed output is wrong. -/
theorem claim_C8_range_counterexample :
    BPlusTree.getitem 200 tree50
        (GetArg.slice (some 12) (some 19) Option.none) ≠
      Except.ok (GetRes.many
        ([13, 14, 15, 16, 17, 18, 19].map (fun i => Slot.val (dataVal i)))) := by
  decide

/-- Claim C8 as amended: on the order-4 tree with keys 0..49 and values
data_i, range(12, 19) returns the eight values data_12 .. data_19 (both
bounds inclusive; the exact lower-bound match contributes its value). -/
theorem claim_C8_range_12_19 :
    BPlusTree.getitem 200 tree50
        (GetArg.slice (some 12) (some 19) Option.none) =
      Except.ok (GetRes.many
        ([12, 13, 14, 15, 16, 17, 18, 19].map
          (fun i => Slot.val (dataVal i)))) := by
  decide

/-- Claim C9: the claim asserts that construction with order < 1 fails
fast with ConfigError. The constructor performs no validation: with
order 0 it succeeds and yields an empty tree (one all-None root node,
length 0), so no ConfigError is signalled. -/
theorem claim_C9_order_zero_counterexample :
    BPlusTree.new String 0 = ⟨0, [⟨0, Option.none, [Slot.none]⟩]⟩ ∧
      BPlusTree.len 10 (BPlusTree.new String 0) = 0 := by
  exact ⟨rfl, rfl⟩

/-- Claim C9 as amended: construction never validates the order; for
every order (including orders below 1) it succeeds and yields an empty
tree of length 0. -/
theorem claim_C9_no_order_validation (b fuel : ℕ) :
    BPlusTree.len (fuel + 1) (BPlusTree.new String b) = 0 := by
  have hc : List.countP (fun s => !(Slot.isNone s))
      (List.replicate (2 * b + 1) (Slot.none : Slot String)) = 0 := by
    rw [List.countP_eq_zero]
    intro s hs
    rw [List.eq_of_mem_replicate hs]
    simp [Slot.isNone]
  have hn : getN (BPlusTree.new String b).heap 0 =
      ⟨b, Option.none, List.replicate (2 * b + 1) Slot.none⟩ := by
    simp [BPlusTree.new, getN, mkNode]
  have hl : is_leaf
      (⟨b, Option.none, List.replicate (2 * b + 1) Slot.none⟩ :
        BNode String) = true := by
    simp [is_leaf, sGet_replicate_none, Slot.isNode]
  show lenImpl (fuel + 1) (BPlusTree.new String b).heap 0 = 0
  simp only [lenImpl]
  rw [hn, hl]
  simp [hc]

/-- Claim C7: for every tree and every key that is absent (search reports
KeyError), __delitem__ signals KeyError and the tree — root binding and
every node of the arena — is completely unchanged. -/
theorem claim_C7_delete_absent_unchanged {V : Type} (fuel : ℕ)
    (t : BPlusTree V) (key : ℤ)
    (habs : search fuel t.heap t.root key = Except.error PyErr.keyError) :
    BPlusTree.delitem fuel t key = (Except.error PyErr.keyError, t) := by
  have hcore := delete_absent_core fuel t.heap t.root key habs
  simp [BPlusTree.delitem, hcore]

/-- Witness for claim C7 at a concrete input: key 7 is absent from the
order-4 tree holding keys 1..5, and deleting it reports KeyError and
leaves the tree unchanged. -/
theorem claim_C7_witness :
    BPlusTree.delitem 200 tree5 7 = (Except.error PyErr.keyError, tree5) :=
  claim_C7_delete_absent_unchanged 200 tree5 7 (by decide)

/-- Claim C10: for every tree state and every subscript argument that is
neither a slice nor an int instance (for example a float, even one whose
numeric value equals a key present in the tree), __getitem__ falls past
both isinstance branches and returns None without signalling an error. -/
theorem claim_C10_getitem_non_int_returns_none {V : Type} (fuel : ℕ)
    (t : BPlusTree V) (k : ℤ) :
    BPlusTree.getitem fuel t (GetArg.other k) = Except.ok GetRes.pyNone := rfl

/-- Claim C5: on every well-formed tree holding a key, setting that key
again with a different value overwrites the value in place: the set
succeeds, __len__ is unchanged, the key occurs exactly once in the
stored contents, and a subsequent __getitem__ with the int key returns
the second value. -/
theorem claim_C5_second_set_overwrites {V : Type} (fuel : ℕ)
    (t : BPlusTree V) (b : ℕ) (key : ℤ) (v1 v2 : V)
    (hwt : wfTree (fuel + 1) t b = true)
    (hmem : (key, v1) ∈ toListF (fuel + 1) t.heap t.root)
    (hne : v1 ≠ v2) :
    (BPlusTree.set (fuel + 1) t key v2).1 = Except.ok () ∧
    BPlusTree.len (fuel + 1) (BPlusTree.set (fuel + 1) t key v2).2 =
      BPlusTree.len (fuel + 1) t ∧
    List.count key
      ((toListF (fuel + 1) (BPlusTree.set (fuel + 1) t key v2).2.heap
        (BPlusTree.set (fuel + 1) t key v2).2.root).map Prod.fst) = 1 ∧
    BPlusTree.getitem (fuel + 1) (BPlusTree.set (fuel + 1) t key v2).2
      (GetArg.intKey key) = Except.ok (GetRes.single (Slot.val v2)) := by
  have hwt2 := hwt
  rw [wfTree, Bool.and_eq_true, Bool.and_eq_true] at hwt2
  obtain ⟨⟨hb2, hwfN⟩, hchain⟩ := hwt2
  have hb : 1 ≤ b := by simpa using hb2
  obtain ⟨L, jj, es, sib, hLlt, hshapeL, hentL, hinsEq, hwf2, hlist2⟩ :=
    insert_overwrite t.heap b hb key v1 v2 (fuel + 1) t.root Option.none
      Option.none Option.none hwfN hmem
  have hslotL : sGet (getN t.heap L).children (2 * jj) = Slot.val v1 :=
    ((leafShape_layout (getN t.heap L).children es sib hshapeL).1 jj key v1
      hentL).1
  have hparent : (getN (overwriteHeap t.heap L jj v2) t.root).parent =
      Option.none := by
    by_cases hrl : t.root = L
    · rw [hrl, overwriteHeap, getN_setN_self t.heap L _ hLlt]
      show (getN t.heap L).parent = Option.none
      rw [← hrl]
      exact (wfN_basic hwfN).2.2.1
    · rw [overwriteHeap, getN_setN_ne t.heap L t.root _ hrl]
      exact (wfN_basic hwfN).2.2.1
  have hroot : get_root (fuel + 1) (overwriteHeap t.heap L jj v2) t.root =
      t.root := by
    rw [get_root, hparent]
  have hset : BPlusTree.set (fuel + 1) t key v2 =
      (Except.ok (), ⟨t.root, overwriteHeap t.heap L jj v2⟩) := by
    simp only [BPlusTree.set, hinsEq, hroot]
  refine ⟨?_, ?_, ?_, ?_⟩
  · rw [hset]
  · rw [hset]
    exact lenImpl_overwrite t.heap L jj v1 v2 hLlt hslotL (fuel + 1) t.root
  · rw [hset]
    show List.count key ((toListF (fuel + 1)
      (overwriteHeap t.heap L jj v2) t.root).map Prod.fst) = 1
    rw [hlist2, map_fix_fst]
    have hsorted := toListF_sorted t.heap b (fuel + 1) t.root Option.none
      Option.none Option.none hwfN
    have hkpw : List.Pairwise (· < ·)
        ((toListF (fuel + 1) t.heap t.root).map Prod.fst) :=
      List.pairwise_map.mpr hsorted
    have hnd : ((toListF (fuel + 1) t.heap t.root).map Prod.fst).Nodup :=
      hkpw.imp (fun hlt => ne_of_lt hlt)
    exact List.count_eq_one_of_mem hnd (mem_map_fst.mpr ⟨v1, hmem⟩)
  · rw [hset]
    have hmem2 : ((key : ℤ), v2) ∈ toListF (fuel + 1)
        (overwriteHeap t.heap L jj v2) t.root := by
      rw [hlist2]
      exact List.mem_map.mpr ⟨(key, v1), hmem, by simp⟩
    have hsearch := search_found (overwriteHeap t.heap L jj v2) b hb
      (fuel + 1) t.root Option.none Option.none Option.none key v2 hwf2 hmem2
    show BPlusTree.getitem (fuel + 1)
      ⟨t.root, overwriteHeap t.heap L jj v2⟩ (GetArg.intKey key) = _
    simp only [BPlusTree.getitem]
    rw [hsearch]

/-- Claim C2: on every well-formed tree and all bounds lo ≤ hi, the
slice [lo : hi] returns exactly the values of the keys in the inclusive
interval [lo, hi], in ascending key order, i.e. the filter of the sorted
contents to that interval; with no lower bound the scan starts from the
smallest key and returns the values of all keys at most hi. The fuel of
the call covers the descent plus one hop per leaf. -/
theorem claim_C2_range_equals_filtered_contents {V : Type} (fuel : ℕ)
    (t : BPlusTree V) (b : ℕ) (lo hi : ℤ)
    (hwt : wfTree (fuel + 1) t b = true) (hlohi : lo ≤ hi) :
    BPlusTree.getitem
        (fuel + 1 + (leafIds (fuel + 1) t.heap t.root).length) t
        (GetArg.slice (some lo) (some hi) Option.none) =
      Except.ok (GetRes.many
        (((toListF (fuel + 1) t.heap t.root).filter
          (fun e => decide (lo ≤ e.1) && decide (e.1 ≤ hi))).map
          (fun e => Slot.val e.2))) ∧
    BPlusTree.getitem
        (fuel + 1 + (leafIds (fuel + 1) t.heap t.root).length) t
        (GetArg.slice Option.none (some hi) Option.none) =
      Except.ok (GetRes.many
        (((toListF (fuel + 1) t.heap t.root).filter
          (fun e => decide (e.1 ≤ hi))).map (fun e => Slot.val e.2))) := by
  have hwt2 := hwt
  rw [wfTree, Bool.and_eq_true, Bool.and_eq_true] at hwt2
  obtain ⟨⟨hb2, hwfN⟩, hchain⟩ := hwt2
  have hb : 1 ≤ b := by simpa using hb2
  have hsortedG := toListF_sorted t.heap b (fuel + 1) t.root Option.none
    Option.none Option.none hwfN
  have hleavesG := leaves_wf t.heap b (fuel + 1) t.root Option.none
    Option.none Option.none hwfN
  have hcontents := toListF_eq_leaves t.heap (fuel + 1) t.root
  constructor
  · obtain ⟨pre, l0, post, es0, sib0, t0, d, hids, hshape0, hbb0, hml0,
        hlf0, ht0, hd, hpre, htake, hdrop, hpost, hidx, heqd⟩ :=
      range_locate t.heap b hb lo (fuel + 1) t.root Option.none Option.none
        Option.none hwfN
    have hent0 : leafEntries t.heap l0 = es0 := by rw [leafEntries, hshape0]
    have hlenLS : (leafIds (fuel + 1) t.heap t.root).length =
        pre.length + (post.length + 1) := by
      rw [hids]
      simp
    have hchain0 : chainOk t.heap (l0 :: post) = true := by
      apply chainOk_append_right t.heap pre
      rw [← hids]
      exact hchain
    have hpostLeaves : ∀ l ∈ post, is_leaf (getN t.heap l) = true ∧
        ∃ es sib, leafShape (getN t.heap l).children = some (es, sib) ∧
          es.length ≤ (getN t.heap l).b ∧ leafEntries t.heap l = es := by
      intro l hl
      have hlmem : l ∈ leafIds (fuel + 1) t.heap t.root := by
        rw [hids]
        exact List.mem_append.mpr (Or.inr (List.mem_cons_of_mem l0 hl))
      obtain ⟨hw1, hw2, es, sib, hsh, hlen2, hent⟩ := hleavesG l hlmem
      exact ⟨hw1, es, sib, hsh, by rw [hw2]; exact hlen2, hent⟩
    have hcontents2 : toListF (fuel + 1) t.heap t.root =
        (pre.map (leafEntries t.heap)).flatten ++
          (es0 ++ (post.map (leafEntries t.heap)).flatten) := by
      rw [hcontents, hids, List.map_append, List.flatten_append,
        List.map_cons, List.flatten_cons, hent0]
    have hsorted2 : List.Pairwise (fun e1 e2 : ℤ × V => e1.1 < e2.1)
        (es0 ++ (post.map (leafEntries t.heap)).flatten) := by
      have hs := hsortedG
      rw [hcontents2] at hs
      exact (List.pairwise_append.mp hs).2.1
    have hsorted3 : List.Pairwise (fun e1 e2 : ℤ × V => e1.1 < e2.1)
        (es0.drop t0 ++ (post.map (leafEntries t.heap)).flatten) := by
      have h2 := hsorted2
      rw [← List.take_append_drop t0 es0, List.append_assoc] at h2
      exact (List.pairwise_append.mp h2).2.1
    have hboth_pre : ((pre.map (leafEntries t.heap)).flatten).filter
        (fun e => decide (lo ≤ e.1) && decide (e.1 ≤ hi)) = [] := by
      apply List.filter_eq_nil.mpr
      intro e he
      have hlt := hpre e he
      simp only [Bool.and_eq_true, decide_eq_true_eq, not_and]
      intro hc
      omega
    have hboth_take : (es0.take t0).filter
        (fun e => decide (lo ≤ e.1) && decide (e.1 ≤ hi)) = [] := by
      apply List.filter_eq_nil.mpr
      intro e he
      have hlt := htake e he
      simp only [Bool.and_eq_true, decide_eq_true_eq, not_and]
      intro hc
      omega
    have hboth_suffix : (es0.drop t0 ++
        (post.map (leafEntries t.heap)).flatten).filter
        (fun e => decide (lo ≤ e.1) && decide (e.1 ≤ hi)) =
        (es0.drop t0 ++ (post.map (leafEntries t.heap)).flatten).filter
          (fun e => decide (e.1 ≤ hi)) := by
      apply List.filter_congr
      intro e he
      have hge : lo ≤ e.1 := by
        rcases List.mem_append.mp he with h2 | h2
        · exact hdrop e h2
        · exact hpost e h2
      simp [hge]
    have hfilter_total : (toListF (fuel + 1) t.heap t.root).filter
        (fun e => decide (lo ≤ e.1) && decide (e.1 ≤ hi)) =
        (es0.drop t0 ++ (post.map (leafEntries t.heap)).flatten).filter
          (fun e => decide (e.1 ≤ hi)) := by
      conv_lhs => rw [hcontents2,
        show (es0 : List (ℤ × V)) = es0.take t0 ++ es0.drop t0 from
          (List.take_append_drop t0 es0).symm,
        List.append_assoc]
      rw [List.filter_append, List.filter_append, hboth_pre, hboth_take,
        List.nil_append, List.nil_append, hboth_suffix]
    obtain ⟨hentL, hsibL, htailL⟩ :=
      leafShape_layout (getN t.heap l0).children es0 sib0 hshape0
    have hIdx : indexF (getN t.heap l0) lo =
        idxSpec lo (es0.map Prod.fst) := by
      apply indexF_keys
      · intro j k hj
        rw [List.get?_map] at hj
        match hej : es0.get? j with
        | Option.none => rw [hej] at hj; cases hj
        | some (k2, v2) =>
          rw [hej] at hj
          simp at hj
          subst hj
          exact (hentL j k2 v2 hej).2
      · intro _
        exact htailL (2 * (es0.map Prod.fst).length + 1) (by simp)
      · rw [hbb0]
        simpa using hml0
    have hFsplit : fuel + 1 + (leafIds (fuel + 1) t.heap t.root).length =
        (fuel + 1 + (leafIds (fuel + 1) t.heap t.root).length - 1 - d) +
          1 + d := by omega
    have hglen : post.length <
        fuel + 1 + (leafIds (fuel + 1) t.heap t.root).length - 1 - d := by
      omega
    have hrange : get_range
        (fuel + 1 + (leafIds (fuel + 1) t.heap t.root).length)
        t.heap t.root (some lo) (some hi) =
        Except.ok (((toListF (fuel + 1) t.heap t.root).filter
          (fun e => decide (lo ≤ e.1) && decide (e.1 ≤ hi))).map
          (fun e => Slot.val e.2)) := by
      rw [hFsplit,
        heqd (fuel + 1 + (leafIds (fuel + 1) t.heap t.root).length - 1 - d)
          (some hi)]
      rcases hidx with hspec2 | ⟨hspec2, v, hqv⟩
      · have hleafrun : ∀ g2 : ℕ,
            get_range (g2 + 1) t.heap l0 (some lo) (some hi) =
            walk (get_range g2) t.heap (getN t.heap l0) (some hi)
              ((getN t.heap l0).b + 2) (2 * t0) [] := by
          intro g2
          rw [get_range_succ, if_pos hlf0]
          have hred : (match (some lo : Option ℤ) with
              | some sk => indexF (getN t.heap l0) sk
              | Option.none => 0) = 2 * t0 := by
            show indexF (getN t.heap l0) lo = 2 * t0
            rw [hIdx, hspec2]
          rw [hred, if_neg (by omega)]
        rw [hleafrun, range_suffix t.heap hi
          (fuel + 1 + (leafIds (fuel + 1) t.heap t.root).length - 1 - d)
          l0 post es0 sib0 t0 [] hchain0 hshape0
          (by rw [hbb0]; exact hml0) ht0 hpostLeaves hsorted3 hglen,
          hfilter_total]
        simp
      · have hqvlen : t0 < es0.length := by
          by_contra hcn
          rw [List.get?_eq_none.mpr (by omega)] at hqv
          cases hqv
        have htarget : sGet (getN t.heap l0).children (2 * t0) =
            Slot.val v := (hentL t0 lo v hqv).1
        have hdropc : es0.drop t0 = (lo, v) :: es0.drop (t0 + 1) :=
          drop_of_get es0 t0 _ hqv
        have hsorted4 : List.Pairwise (fun e1 e2 : ℤ × V => e1.1 < e2.1)
            (es0.drop (t0 + 1) ++
              (post.map (leafEntries t.heap)).flatten) := by
          have h3 := hsorted3
          rw [hdropc, List.cons_append] at h3
          exact (List.pairwise_cons.mp h3).2
        have hleafrun : ∀ g2 : ℕ,
            get_range (g2 + 1) t.heap l0 (some lo) (some hi) =
            walk (get_range g2) t.heap (getN t.heap l0) (some hi)
              ((getN t.heap l0).b + 2) (2 * (t0 + 1)) [Slot.val v] := by
          intro g2
          rw [get_range_succ, if_pos hlf0]
          have hred : (match (some lo : Option ℤ) with
              | some sk => indexF (getN t.heap l0) sk
              | Option.none => 0) = 2 * t0 + 1 := by
            show indexF (getN t.heap l0) lo = 2 * t0 + 1
            rw [hIdx, hspec2]
          rw [hred, if_pos (by omega),
            show 2 * t0 + 1 - 1 = 2 * t0 from by omega, htarget]
          rfl
        rw [hleafrun, range_suffix t.heap hi
          (fuel + 1 + (leafIds (fuel + 1) t.heap t.root).length - 1 - d)
          l0 post es0 sib0 (t0 + 1) [Slot.val v] hchain0 hshape0
          (by rw [hbb0]; exact hml0) (by omega) hpostLeaves hsorted4 hglen,
          hfilter_total, hdropc]
        have hlov : (fun e : ℤ × V => decide (e.1 ≤ hi)) ((lo : ℤ), v) =
            true := by
          simp only [decide_eq_true_eq]
          omega
        simp only [List.cons_append, List.singleton_append,
          List.nil_append]
        have hfc : ((((lo : ℤ), v)) ::
            (es0.drop (t0 + 1) ++
              (post.map (leafEntries t.heap)).flatten)).filter
            (fun e => decide (e.1 ≤ hi)) =
            ((lo : ℤ), v) :: (es0.drop (t0 + 1) ++
              (post.map (leafEntries t.heap)).flatten).filter
              (fun e => decide (e.1 ≤ hi)) := by
          rw [List.filter_cons]
          simp [hlov]
        rw [hfc]
        simp
    show (match get_range
        (fuel + 1 + (leafIds (fuel + 1) t.heap t.root).length)
        t.heap t.root (some lo) (some hi) with
      | Except.ok l => Except.ok (GetRes.many l)
      | Except.error e => Except.error e) = _
    rw [hrange]
  · obtain ⟨l0, post, es0, sib0, d, hids, hshape0, hbb0, hml0, hlf0, hd,
        heqd⟩ := range_locate_none t.heap b hb (fuel + 1) t.root
      Option.none Option.none Option.none hwfN
    have hent0 : leafEntries t.heap l0 = es0 := by rw [leafEntries, hshape0]
    have hlenLS : (leafIds (fuel + 1) t.heap t.root).length =
        post.length + 1 := by
      rw [hids]
      simp
    have hchain0 : chainOk t.heap (l0 :: post) = true := by
      rw [← hids]
      exact hchain
    have hpostLeaves : ∀ l ∈ post, is_leaf (getN t.heap l) = true ∧
        ∃ es sib, leafShape (getN t.heap l).children = some (es, sib) ∧
          es.length ≤ (getN t.heap l).b ∧ leafEntries t.heap l = es := by
      intro l hl
      have hlmem : l ∈ leafIds (fuel + 1) t.heap t.root := by
        rw [hids]
        exact List.mem_cons_of_mem l0 hl
      obtain ⟨hw1, hw2, es, sib, hsh, hlen2, hent⟩ := hleavesG l hlmem
      exact ⟨hw1, es, sib, hsh, by rw [hw2]; exact hlen2, hent⟩
    have hcontents2 : toListF (fuel + 1) t.heap t.root =
        es0 ++ (post.map (leafEntries t.heap)).flatten := by
      rw [hcontents, hids, List.map_cons, List.flatten_cons, hent0]
    have hsorted2 : List.Pairwise (fun e1 e2 : ℤ × V => e1.1 < e2.1)
        (es0.drop 0 ++ (post.map (leafEntries t.heap)).flatten) := by
      rw [List.drop_zero, ← hcontents2]
      exact hsortedG
    have hFsplit : fuel + 1 + (leafIds (fuel + 1) t.heap t.root).length =
        (fuel + 1 + (leafIds (fuel + 1) t.heap t.root).length - 1 - d) +
          1 + d := by omega
    have hglen : post.length <
        fuel + 1 + (leafIds (fuel + 1) t.heap t.root).length - 1 - d := by
      omega
    have hrec := range_suffix t.heap hi
      (fuel + 1 + (leafIds (fuel + 1) t.heap t.root).length - 1 - d)
      l0 post es0 sib0 0 [] hchain0 hshape0 (by rw [hbb0]; exact hml0)
      (by omega) hpostLeaves hsorted2 hglen
    rw [Nat.mul_zero] at hrec
    have hrange : get_range
        (fuel + 1 + (leafIds (fuel + 1) t.heap t.root).length)
        t.heap t.root Option.none (some hi) =
        Except.ok (((toListF (fuel + 1) t.heap t.root).filter
          (fun e => decide (e.1 ≤ hi))).map (fun e => Slot.val e.2)) := by
      rw [hFsplit,
        heqd (fuel + 1 + (leafIds (fuel + 1) t.heap t.root).length - 1 - d)
          (some hi),
        get_range_none_leaf _ t.heap l0 (some hi) hlf0, hrec, hcontents2]
      simp
    show (match get_range
        (fuel + 1 + (leafIds (fuel + 1) t.heap t.root).length)
        t.heap t.root Option.none (some hi) with
      | Except.ok l => Except.ok (GetRes.many l)
      | Except.error e => Except.error e) = _
    rw [hrange]

/-- Counterexample to claim C1 as stated: order 1 satisfies the spec's
validity requirement (order ≥ 1), yet after setting the distinct keys 1
and 2 the leaf split promotes the None slot after the midpoint as the
root separator, and a get of key 2 raises KeyError instead of returning
the last value set; key 1 is still found, matching a hand trace of the
Python code on this input. -/
theorem claim_C1_counterexample :
    1 ≤ 1 ∧
    BPlusTree.getitem 20
        (runOps 20 [Op.set 1 10, Op.set 2 20] (BPlusTree.new ℕ 1))
        (GetArg.intKey 2) = Except.error PyErr.keyError ∧
    BPlusTree.getitem 20
        (runOps 20 [Op.set 1 10, Op.set 2 20] (BPlusTree.new ℕ 1))
        (GetArg.intKey 1) =
      Except.ok (GetRes.single (Slot.val 10)) := by
  refine ⟨by omega, ?_, ?_⟩ <;> decide

/-- Amended claim C1: on a well-formed tree state the set/get round trip
holds — a get of a stored key returns its stored value, and re-setting a
stored key overwrites in place so that a subsequent get returns the new
value. The unrestricted claim over all valid orders fails because
insertion sequences do not preserve this structure for odd orders. -/
theorem claim_C1_wf_roundtrip {V : Type} (fuel : ℕ) (t : BPlusTree V)
    (b : ℕ) (key : ℤ) (v1 v2 : V)
    (hwt : wfTree (fuel + 1) t b = true)
    (hmem : (key, v1) ∈ toListF (fuel + 1) t.heap t.root) :
    BPlusTree.getitem (fuel + 1) t (GetArg.intKey key) =
      Except.ok (GetRes.single (Slot.val v1)) ∧
    BPlusTree.getitem (fuel + 1) (BPlusTree.set (fuel + 1) t key v2).2
      (GetArg.intKey key) = Except.ok (GetRes.single (Slot.val v2)) := by
  have hwt2 := hwt
  rw [wfTree, Bool.and_eq_true, Bool.and_eq_true] at hwt2
  obtain ⟨⟨hb2, hwfN⟩, hchain⟩ := hwt2
  have hb : 1 ≤ b := by simpa using hb2
  constructor
  · have hsearch := search_found t.heap b hb (fuel + 1) t.root Option.none
      Option.none Option.none key v1 hwfN hmem
    show (match search (fuel + 1) t.heap t.root key with
      | Except.ok s => Except.ok (GetRes.single s)
      | Except.error e => Except.error e) = _
    rw [hsearch]
  · obtain ⟨L, jj, es, sib, hLlt, hshapeL, hentL, hinsEq, hwf2, hlist2⟩ :=
      insert_overwrite t.heap b hb key v1 v2 (fuel + 1) t.root Option.none
        Option.none Option.none hwfN hmem
    have hparent : (getN (overwriteHeap t.heap L jj v2) t.root).parent =
        Option.none := by
      by_cases hrl : t.root = L
      · rw [hrl, overwriteHeap, getN_setN_self t.heap L _ hLlt]
        show (getN t.heap L).parent = Option.none
        rw [← hrl]
        exact (wfN_basic hwfN).2.2.1
      · rw [overwriteHeap, getN_setN_ne t.heap L t.root _ hrl]
        exact (wfN_basic hwfN).2.2.1
    have hroot : get_root (fuel + 1) (overwriteHeap t.heap L jj v2)
        t.root = t.root := by
      rw [get_root, hparent]
    have hset : BPlusTree.set (fuel + 1) t key v2 =
        (Except.ok (), ⟨t.root, overwriteHeap t.heap L jj v2⟩) := by
      simp only [BPlusTree.set, hinsEq, hroot]
    rw [hset]
    have hmem2 : ((key : ℤ), v2) ∈ toListF (fuel + 1)
        (overwriteHeap t.heap L jj v2) t.root := by
      rw [hlist2]
      exact List.mem_map.mpr ⟨(key, v1), hmem, by simp⟩
    have hsearch := search_found (overwriteHeap t.heap L jj v2) b hb
      (fuel + 1) t.root Option.none Option.none Option.none key v2 hwf2
      hmem2
    show BPlusTree.getitem (fuel + 1)
      ⟨t.root, overwriteHeap t.heap L jj v2⟩ (GetArg.intKey key) = _
    simp only [BPlusTree.getitem]
    rw [hsearch]

/-- Witness for the amended claim C1 at a concrete input: the order-2
tree holding keys 1 and 2, getting key 1 and re-setting it to 99. -/
theorem claim_C1_witness :
    wfTree 3 (runOps 10 [Op.set 1 10, Op.set 2 20] (BPlusTree.new ℕ 2)) 2 =
      true ∧
    ((1 : ℤ), (10 : ℕ)) ∈ toListF 3
      (runOps 10 [Op.set 1 10, Op.set 2 20] (BPlusTree.new ℕ 2)).heap
      (runOps 10 [Op.set 1 10, Op.set 2 20] (BPlusTree.new ℕ 2)).root ∧
    (BPlusTree.getitem 3
        (runOps 10 [Op.set 1 10, Op.set 2 20] (BPlusTree.new ℕ 2))
        (GetArg.intKey 1) =
      Except.ok (GetRes.single (Slot.val 10)) ∧
    BPlusTree.getitem 3
        (BPlusTree.set 3 (runOps 10 [Op.set 1 10, Op.set 2 20]
          (BPlusTree.new ℕ 2)) 1 99).2
        (GetArg.intKey 1) =
      Except.ok (GetRes.single (Slot.val 99))) :=
  ⟨by decide, by decide,
    claim_C1_wf_roundtrip 2
      (runOps 10 [Op.set 1 10, Op.set 2 20] (BPlusTree.new ℕ 2)) 2 1 10 99
      (by decide) (by decide)⟩

/-- Witness for claim C2 at a concrete input: the two-leaf order-2 tree
holding keys 1, 2, 3, sliced as [1 : 2] and [: 2]. -/
theorem claim_C2_witness :
    wfTree 3 (runOps 10 [Op.set 1 10, Op.set 2 20, Op.set 3 30]
      (BPlusTree.new ℕ 2)) 2 = true ∧
    (1 : ℤ) ≤ 2 ∧
    (BPlusTree.getitem (2 + 1 + (leafIds (2 + 1)
        (runOps 10 [Op.set 1 10, Op.set 2 20, Op.set 3 30]
          (BPlusTree.new ℕ 2)).heap
        (runOps 10 [Op.set 1 10, Op.set 2 20, Op.set 3 30]
          (BPlusTree.new ℕ 2)).root).length)
        (runOps 10 [Op.set 1 10, Op.set 2 20, Op.set 3 30]
          (BPlusTree.new ℕ 2))
        (GetArg.slice (some 1) (some 2) Option.none) =
      Except.ok (GetRes.many
        (((toListF (2 + 1)
          (runOps 10 [Op.set 1 10, Op.set 2 20, Op.set 3 30]
            (BPlusTree.new ℕ 2)).heap
          (runOps 10 [Op.set 1 10, Op.set 2 20, Op.set 3 30]
            (BPlusTree.new ℕ 2)).root).filter
          (fun e => decide ((1 : ℤ) ≤ e.1) && decide (e.1 ≤ (2 : ℤ)))).map
          (fun e => Slot.val e.2))) ∧
    BPlusTree.getitem (2 + 1 + (leafIds (2 + 1)
        (runOps 10 [Op.set 1 10, Op.set 2 20, Op.set 3 30]
          (BPlusTree.new ℕ 2)).heap
        (runOps 10 [Op.set 1 10, Op.set 2 20, Op.set 3 30]
          (BPlusTree.new ℕ 2)).root).length)
        (runOps 10 [Op.set 1 10, Op.set 2 20, Op.set 3 30]
          (BPlusTree.new ℕ 2))
        (GetArg.slice Option.none (some 2) Option.none) =
      Except.ok (GetRes.many
        (((toListF (2 + 1)
          (runOps 10 [Op.set 1 10, Op.set 2 20, Op.set 3 30]
            (BPlusTree.new ℕ 2)).heap
          (runOps 10 [Op.set 1 10, Op.set 2 20, Op.set 3 30]
            (BPlusTree.new ℕ 2)).root).filter
          (fun e => decide (e.1 ≤ (2 : ℤ)))).map
          (fun e => Slot.val e.2)))) :=
  ⟨by decide, by decide,
    claim_C2_range_equals_filtered_contents 2
      (runOps 10 [Op.set 1 10, Op.set 2 20, Op.set 3 30]
        (BPlusTree.new ℕ 2)) 2 1 2 (by decide) (by decide)⟩

/-- Witness for claim C5 at a concrete input: the order-2 tree holding
keys 1 and 2, re-setting key 1 from value 10 to value 99. -/
theorem claim_C5_witness :
    wfTree 3 (runOps 10 [Op.set 1 10, Op.set 2 20] (BPlusTree.new ℕ 2)) 2 =
      true ∧
    ((1 : ℤ), (10 : ℕ)) ∈ toListF 3
      (runOps 10 [Op.set 1 10, Op.set 2 20] (BPlusTree.new ℕ 2)).heap
      (runOps 10 [Op.set 1 10, Op.set 2 20] (BPlusTree.new ℕ 2)).root ∧
    (10 : ℕ) ≠ 99 ∧
    ((BPlusTree.set 3 (runOps 10 [Op.set 1 10, Op.set 2 20]
        (BPlusTree.new ℕ 2)) 1 99).1 = Except.ok () ∧
      BPlusTree.len 3 (BPlusTree.set 3 (runOps 10 [Op.set 1 10, Op.set 2 20]
        (BPlusTree.new ℕ 2)) 1 99).2 =
        BPlusTree.len 3 (runOps 10 [Op.set 1 10, Op.set 2 20]
          (BPlusTree.new ℕ 2)) ∧
      List.count 1 ((toListF 3 (BPlusTree.set 3 (runOps 10
        [Op.set 1 10, Op.set 2 20] (BPlusTree.new ℕ 2)) 1 99).2.heap
        (BPlusTree.set 3 (runOps 10 [Op.set 1 10, Op.set 2 20]
          (BPlusTree.new ℕ 2)) 1 99).2.root).map Prod.fst) = 1 ∧
      BPlusTree.getitem 3 (BPlusTree.set 3 (runOps 10 [Op.set 1 10,
        Op.set 2 20] (BPlusTree.new ℕ 2)) 1 99).2 (GetArg.intKey 1) =
        Except.ok (GetRes.single (Slot.val 99))) :=
  ⟨by decide, by decide, by decide,
    claim_C5_second_set_overwrites 2 _ 2 1 10 99 (by decide) (by decide)
      (by decide)⟩

end BPT
